import Mathlib

/-!
# A k-nearest-neighbours text classifier (`knn.go`)

Shallow embedding of `knn.go` and theorems about `Train` and `Predict`.

Modelling conventions.

* A Go `map[K]V` is an association list `List (K × V)` with at most one entry per
  key.  `lookup` is the two-valued read `v, ok := m[k]`, `lookupD` the one-valued
  read `m[k]` (zero value when the key is absent), `store` the write `m[k] = v`.
  `len(m)` is the length of the list.
* A `range` over a map yields its entries in an order chosen by the Go runtime.
  In `newDocument` and `Train` every such loop either writes a different key at
  each iteration or adds up squares of integers, so the model runs them in the
  order of the association list.  In `Predict` the order can be observed, and
  each `range` over a map, as well as `sort.Sort` (which is not stable), takes its
  order from a `Runtime` value; `Runtime.Valid` says that the orders are
  permutations and that the sort outcome is sorted with respect to `Less`.
* `float64` is a linearly ordered type `F` with the operations of `Env`; nothing is
  assumed about them unless a theorem says so.  `Env.Exact` says that they are the
  operations of an ordered field with square roots (exact arithmetic).
* `unicode.IsLetter`, `unicode.IsNumber` and `porterstemmer.StemString` are library
  functions and are fields of `Env`.  A text is a `String`, a sequence of Unicode
  characters.
* The type `int` is `Int` for term ids, class ids, counts and `k`, which can be or
  are compared with the value `-1`, and `Nat` for document ids, which are positions
  in `documents`.  No length comes near the bound of a 64-bit integer.
* `*Document` pointers are immutable once stored, and are modelled by the value
  they point to.  An index out of range is the result `none`.
* Calls run one after the other, and the locks are not modelled, except in the part
  on concurrent calls of `Train`: there `Concurrent.step` is one step of one call,
  `dictionaryLock` is a state variable, `Lock()` can be taken only when no call holds
  it, and the steps of the calls interleave in any order.
-/

namespace Knn

/-! ## Go maps -/

/-- The read `v, ok := m[k]`. -/
def lookup {K V : Type} [DecidableEq K] : List (K × V) → K → Option V
  | [], _ => none
  | (k', v) :: m, k => if k' = k then some v else lookup m k

/-- The read `m[k]`, which is the zero value `z` when `k` is absent. -/
def lookupD {K V : Type} [DecidableEq K] (m : List (K × V)) (k : K) (z : V) : V :=
  (lookup m k).getD z

/-- The write `m[k] = v`. -/
def store {K V : Type} [DecidableEq K] : List (K × V) → K → V → List (K × V)
  | [], k, v => [(k, v)]
  | (k', v') :: m, k, v => if k' = k then (k, v) :: m else (k', v') :: store m k v

/-! ## Library functions and data types -/

/-- Library functions used by the program, and the `float64` operations. -/
structure Env (F : Type) where
  /-- The function `unicode.IsLetter`. -/
  IsLetter : Char → Bool
  /-- The function `unicode.IsNumber`. -/
  IsNumber : Char → Bool
  /-- The function `porterstemmer.StemString`. -/
  StemString : String → String
  /-- The conversion `float64(n)` of an integer (`float64(0.0)` is `float64 0`). -/
  float64 : Int → F
  /-- Addition of `float64`. -/
  add : F → F → F
  /-- Multiplication of `float64`. -/
  mul : F → F → F
  /-- Division of `float64`. -/
  div : F → F → F
  /-- The function `math.Pow`. -/
  Pow : F → F → F
  /-- The function `math.Sqrt`. -/
  Sqrt : F → F

/-- The type `Document`; `classId` is the field `class`. -/
structure Document (F : Type) where
  classId : Int
  terms : List (Int × F)
  deriving DecidableEq

/-- The type `KNN`, without its locks. -/
structure KNN (F : Type) where
  dictionary : List (String × Int)
  postings : List (Int × List Nat)
  classes : List (String × Int)
  documents : List (Document F)
  deriving DecidableEq

/-- The type `Neighbour`. -/
structure Neighbour (F : Type) where
  document : Document F
  similarity : F
  deriving DecidableEq

/-- The function `NewKNN`. -/
def NewKNN {F : Type} : KNN F :=
  { dictionary := [], postings := [], classes := [], documents := [] }

/-- The variable `isAlphaNum`: true on the characters that separate words. -/
def isAlphaNum {F : Type} (env : Env F) (c : Char) : Bool :=
  !env.IsLetter c && !env.IsNumber c

/-- The loop of `strings.FieldsFunc`: `cur` is the field being read, reversed. -/
def FieldsFunc.loop (f : Char → Bool) : List Char → List Char → List String
  | [], cur => if cur = [] then [] else [String.mk cur.reverse]
  | c :: cs, cur =>
    if f c then
      if cur = [] then FieldsFunc.loop f cs []
      else String.mk cur.reverse :: FieldsFunc.loop f cs []
    else FieldsFunc.loop f cs (c :: cur)

/-- The function `strings.FieldsFunc`: the maximal runs of characters that do not
satisfy `f`. -/
def FieldsFunc (s : String) (f : Char → Bool) : List String :=
  FieldsFunc.loop f s.toList []

/-! ## `newDocument` -/

/-- The statement `terms[termId]++`. -/
def increment (terms : List (Int × Int)) (termId : Int) : List (Int × Int) :=
  store terms termId (lookupD terms termId 0 + 1)

/-- The body of the loop over the words of the text (lines 52-66), on the pair of
the dictionary and the counts `terms`. -/
def newDocument.step {F : Type} (env : Env F) (addTerms : Bool)
    (st : List (String × Int) × List (Int × Int)) (term : String) :
    List (String × Int) × List (Int × Int) :=
  let term := env.StemString term
  match lookup st.1 term with
  | some termId => (st.1, increment st.2 termId)
  | none =>
    if addTerms then
      let termId : Int := st.1.length
      (store st.1 term termId, increment st.2 termId)
    else
      (st.1, increment st.2 (-1))

/-- The loop over the words of the text (lines 52-66). -/
def newDocument.count {F : Type} (env : Env F) (dictionary : List (String × Int))
    (text : String) (addTerms : Bool) : List (String × Int) × List (Int × Int) :=
  (FieldsFunc text (isAlphaNum env)).foldl (newDocument.step env addTerms) (dictionary, [])

/-- The magnitude of the vector of counts (lines 75-81). -/
def newDocument.magnitude {F : Type} (env : Env F) (terms : List (Int × Int)) : F :=
  env.Sqrt (terms.foldl
    (fun documentMagnitude tc =>
      env.add documentMagnitude (env.Pow (env.float64 tc.2) (env.float64 2)))
    (env.float64 0))

/-- The weights of the document (lines 84-86). -/
def newDocument.normalize {F : Type} (env : Env F) (terms : List (Int × Int))
    (documentMagnitude : F) : List (Int × F) :=
  terms.foldl
    (fun docTerms tc => store docTerms tc.1 (env.div (env.float64 tc.2) documentMagnitude))
    []

/-- The method `newDocument`: the state after the call and the document. -/
def newDocument {F : Type} (env : Env F) (knn : KNN F) (text : String) (addTerms : Bool) :
    KNN F × Document F :=
  let st := newDocument.count env knn.dictionary text addTerms
  let documentMagnitude := newDocument.magnitude env st.2
  ({ knn with dictionary := st.1 },
   { classId := -1, terms := newDocument.normalize env st.2 documentMagnitude })

/-! ## `Train` -/

/-- The loop over the terms of the trained document (lines 114-116). -/
def Train.post {F : Type} (postings : List (Int × List Nat)) (terms : List (Int × F))
    (documentId : Nat) : List (Int × List Nat) :=
  terms.foldl
    (fun postings tw => store postings tw.1 (lookupD postings tw.1 [] ++ [documentId]))
    postings

/-- The class registry after lines 96-99. -/
def Train.register (classes : List (String × Int)) (cls : String) : List (String × Int) :=
  match lookup classes cls with
  | some _ => classes
  | none => store classes cls classes.length

/-- The method `Train`. -/
def Train {F : Type} (env : Env F) (knn : KNN F) (text : String) (cls : String) : KNN F :=
  let r := newDocument env knn text true
  let knn := r.1
  let classes := Train.register knn.classes cls
  let document : Document F := { r.2 with classId := lookupD classes cls 0 }
  let documents := knn.documents ++ [document]
  let documentId := documents.length - 1
  { dictionary := knn.dictionary
    postings := Train.post knn.postings document.terms documentId
    classes := classes
    documents := documents }

/-! ## `Predict` -/

/-- The method `Less` of `Neighbours`, on two elements of the list. -/
def Less {F : Type} [LinearOrder F] (a b : Neighbour F) : Prop :=
  a.similarity > b.similarity

instance {F : Type} [LinearOrder F] (a b : Neighbour F) : Decidable (Less a b) :=
  inferInstanceAs (Decidable (a.similarity > b.similarity))

/-- The choices the Go runtime makes during one call of `Predict`: the order of
every `range` over a map, and the outcome of `sort.Sort`. -/
structure Runtime (F : Type) where
  /-- The order of `range document.terms` (line 134). -/
  rangeTerms : List (Int × F) → List (Int × F)
  /-- The order of `range similarities` (line 145). -/
  rangeSimilarities : List (Nat × F) → List (Nat × F)
  /-- The outcome of `sort.Sort(neighbours)` (line 150). -/
  sort : List (Neighbour F) → List (Neighbour F)
  /-- The order of `range classCount` (line 163). -/
  rangeClassCount : List (Int × Int) → List (Int × Int)
  /-- The order of `range knn.classes` (line 175). -/
  rangeClasses : List (String × Int) → List (String × Int)

/-- The choices of the runtime are legal: each `range` yields every entry once, and
`sort.Sort` returns a permutation in which no element is `Less` than an earlier
one. -/
structure Runtime.Valid {F : Type} [LinearOrder F] (o : Runtime F) : Prop where
  rangeTerms : ∀ m, (o.rangeTerms m).Perm m
  rangeSimilarities : ∀ m, (o.rangeSimilarities m).Perm m
  sort_perm : ∀ ns, (o.sort ns).Perm ns
  sort_sorted : ∀ ns, (o.sort ns).Pairwise (fun a b => ¬ Less b a)
  rangeClassCount : ∀ m, (o.rangeClassCount m).Perm m
  rangeClasses : ∀ m, (o.rangeClasses m).Perm m

/-- The body of the inner loop of the scoring (line 136), for the term `termId`
of the query `document` and the index `documentId`. -/
def Predict.scoreDoc {F : Type} (env : Env F) (knn : KNN F) (document : Document F)
    (termId : Int) (similarities : List (Nat × F)) (documentId : Nat) :
    Option (List (Nat × F)) := do
  let d ← knn.documents[documentId]?
  pure (store similarities documentId
    (env.add (lookupD similarities documentId (env.float64 0))
      (env.mul (lookupD d.terms termId (env.float64 0))
        (lookupD document.terms termId (env.float64 0)))))

/-- The inner loop of the scoring (lines 135-137): `documentId` runs over the
indices `0 .. len(knn.postings[termId]) - 1` of the postings list, as the first
variable of a `range` over a slice does. -/
def Predict.scoreTerm {F : Type} (env : Env F) (knn : KNN F) (document : Document F)
    (similarities : List (Nat × F)) (termId : Int) : Option (List (Nat × F)) :=
  (List.range (lookupD knn.postings termId []).length).foldlM
    (Predict.scoreDoc env knn document termId) similarities

/-- The scoring loop (lines 134-138), over the terms of the query in the order
`order`. -/
def Predict.score {F : Type} (env : Env F) (knn : KNN F) (document : Document F)
    (order : List (Int × F)) : Option (List (Nat × F)) :=
  order.foldlM (fun similarities tw => Predict.scoreTerm env knn document similarities tw.1) []

/-- The body of the loop that builds the neighbours (line 146). -/
def Predict.collectDoc {F : Type} (knn : KNN F) (neighbours : List (Neighbour F))
    (ds : Nat × F) : Option (List (Neighbour F)) := do
  let d ← knn.documents[ds.1]?
  pure (neighbours ++ [{ document := d, similarity := ds.2 }])

/-- The construction of the neighbours (lines 143-147), over the entries of
`similarities` in the order `order`. -/
def Predict.collect {F : Type} (knn : KNN F) (order : List (Nat × F)) :
    Option (List (Neighbour F)) :=
  order.foldlM (Predict.collectDoc knn) []

/-- The counting loop (lines 152-157): `i` runs while `i < k && i < len(neighbours)`. -/
def Predict.countClasses {F : Type} (neighbours : List (Neighbour F)) (k : Int) :
    List (Int × Int) :=
  (neighbours.take k.toNat).foldl
    (fun classCount n => store classCount n.document.classId
      (lookupD classCount n.document.classId 0 + 1))
    []

/-- The search for the most popular class (lines 159-168), over the entries of
`classCount` in the order `order`: the pair of `classId` and `maxClassCount`. -/
def Predict.mostPopular (order : List (Int × Int)) : Int × Int :=
  order.foldl (fun best ic => if ic.2 > best.2 then (ic.1, ic.2) else best) (-1, 0)

/-- The search for the name of the class (lines 170-180), over the entries of
`knn.classes` in the order `order`. -/
def Predict.className : List (String × Int) → Int → String
  | [], _ => ""
  | (c, i) :: order, classId => if i = classId then c else Predict.className order classId

/-- The values computed during one call of `Predict`. -/
structure Predict.Trace (F : Type) where
  /-- The classifier after the call. -/
  knn : KNN F
  /-- The query vector (line 127). -/
  document : Document F
  /-- The map `similarities` after the scoring loop. -/
  similarities : List (Nat × F)
  /-- The list `neighbours` after `sort.Sort`. -/
  neighbours : List (Neighbour F)
  /-- The map `classCount` after the counting loop. -/
  classCount : List (Int × Int)
  /-- The variable `classId` after the search for the most popular class. -/
  classId : Int
  /-- The returned string. -/
  cls : String
  deriving DecidableEq

/-- The body of `Predict`, keeping the intermediate values; `none` is an index out
of range. -/
def Predict.run {F : Type} (env : Env F) (knn : KNN F) (text : String) (k : Int)
    (o : Runtime F) : Option (Predict.Trace F) := do
  let r := newDocument env knn text false
  let knn := r.1
  let document := r.2
  let similarities ← Predict.score env knn document (o.rangeTerms document.terms)
  let neighbours ← Predict.collect knn (o.rangeSimilarities similarities)
  let neighbours := o.sort neighbours
  let classCount := Predict.countClasses neighbours k
  let classId := (Predict.mostPopular (o.rangeClassCount classCount)).1
  let cls := Predict.className (o.rangeClasses knn.classes) classId
  pure { knn := knn, document := document, similarities := similarities,
         neighbours := neighbours, classCount := classCount, classId := classId, cls := cls }

/-- The method `Predict`: the state after the call and the returned string, or
`none` for an index out of range. -/
def Predict {F : Type} (env : Env F) (knn : KNN F) (text : String) (k : Int)
    (o : Runtime F) : Option (KNN F × String) :=
  (Predict.run env knn text k o).map (fun t => (t.knn, t.cls))

/-- The states a classifier can be in: `NewKNN()` followed by calls of `Train` and
`Predict`. -/
inductive Reachable {F : Type} (env : Env F) : KNN F → Prop
  | new : Reachable env NewKNN
  | train {knn : KNN F} (text cls : String) :
      Reachable env knn → Reachable env (Train env knn text cls)
  | predict {knn : KNN F} (text : String) (k : Int) (o : Runtime F) (r : KNN F × String) :
      Reachable env knn → Predict env knn text k o = some r → Reachable env r.1

/-- Facts that hold in every reachable state. -/
structure Inv {F : Type} (knn : KNN F) : Prop where
  dictionary_nonneg : ∀ e ∈ knn.dictionary, 0 ≤ e.2
  postings_nonneg : ∀ e ∈ knn.postings, 0 ≤ e.1
  postings_sublist : ∀ e ∈ knn.postings, e.2.Sublist (List.range knn.documents.length)
  classes_nonneg : ∀ e ∈ knn.classes, 0 ≤ e.2
  documents_nonneg : ∀ d ∈ knn.documents, 0 ≤ d.classId

/-! ## A runtime and an arithmetic to run the model with -/

/-- The runtime that ranges over every map in the order of its association list and
sorts by insertion. -/
def Runtime.inOrder (F : Type) [LinearOrder F] : Runtime F :=
  { rangeTerms := id
    rangeSimilarities := id
    sort := List.insertionSort (fun a b => b.similarity ≤ a.similarity)
    rangeClassCount := id
    rangeClasses := id }

/-- The iteration of Newton for the integer square root of `n`, from the estimate `r`,
for at most `fuel` steps. -/
def sqrtIter : Nat → Nat → Nat → Nat
  | 0, _, r => r
  | fuel + 1, n, r =>
    let r' := (r + n / r) / 2
    if r' < r then sqrtIter fuel n r' else r

/-- The square root of a rational number, rounded down to a multiple of `10⁻⁶`. -/
def sqrtQ (x : ℚ) : ℚ :=
  (sqrtIter 64 (x.num.toNat * x.den * 10 ^ 12) (x.num.toNat * x.den * 10 ^ 12) : ℚ)
    / (x.den * 10 ^ 6)

/-- A computable environment, to run the model on concrete inputs: ASCII letters and
digits, a stemmer that removes the final `s` of a word of more than two letters (as
the Porter stemmer does for `cats`, `dogs` and `stocks`), and rational arithmetic with
the rounded square root `sqrtQ`; `Pow` is the power for an exponent that is a natural
number (the program uses the exponent `2` only). -/
def Env.rational : Env ℚ :=
  { IsLetter := Char.isAlpha
    IsNumber := Char.isDigit
    StemString := fun w => if w.length > 2 ∧ w.back = 's' then w.dropRight 1 else w
    float64 := fun n => (n : ℚ)
    add := (· + ·)
    mul := (· * ·)
    div := (· / ·)
    Pow := fun x y => if y.den = 1 ∧ 0 ≤ y.num then x ^ y.num.toNat else 1
    Sqrt := sqrtQ }

/-! ## Assumptions on the library and the states of the examples -/

/-- On ASCII characters `unicode.IsLetter` holds of the letters and `unicode.IsNumber`
of the digits. -/
def Env.Ascii {F : Type} (env : Env F) : Prop :=
  ∀ c : Char, c.toNat < 128 → env.IsLetter c = c.isAlpha ∧ env.IsNumber c = c.isDigit

/-- The arithmetic of `env` is exact: `F` is an ordered field and the operations of
`env` are its operations, with a square root of the non-negative numbers. -/
structure Env.Exact {F : Type} [LinearOrderedField F] (env : Env F) : Prop where
  float64_eq : ∀ n : Int, env.float64 n = (n : F)
  add_eq : ∀ x y, env.add x y = x + y
  mul_eq : ∀ x y, env.mul x y = x * y
  div_eq : ∀ x y, env.div x y = x / y
  pow_two : ∀ x, env.Pow x (env.float64 2) = x * x
  sqrt_nonneg : ∀ x, 0 ≤ x → 0 ≤ env.Sqrt x
  sqrt_mul_self : ∀ x, 0 ≤ x → env.Sqrt x * env.Sqrt x = x

/-- The state of the concrete scenario of the specification: three calls of `Train`. -/
def scenario {F : Type} (env : Env F) : KNN F :=
  Train env (Train env (Train env NewKNN "cats are great" "animal") "dogs are great" "animal")
    "stocks rose today" "finance"

/-- The state after `Train("a b", "x")` and `Train("c d", "y")` on a new classifier. -/
def trainedPairs {F : Type} (env : Env F) : KNN F :=
  Train env (Train env NewKNN "a b" "x") "c d" "y"

/-- The state after `Train("a", "x")` and `Train("a b", "y")` on a new classifier. -/
def trainedNested {F : Type} (env : Env F) : KNN F :=
  Train env (Train env NewKNN "a" "x") "a b" "y"

/-- The state after `Train("a", "x")` and `Train("b", "y")` on a new classifier. -/
def trainedDisjoint {F : Type} (env : Env F) : KNN F :=
  Train env (Train env NewKNN "a" "x") "b" "y"

/-- The values of `Predict("a b", 2)` in the state `trainedNested Env.rational`, with the
runtime `Runtime.inOrder`. -/
def sampleTrace : Predict.Trace ℚ :=
  { knn := trainedNested Env.rational
    document := { classId := -1, terms := [(0, 1 / sqrtQ 2), (1, 1 / sqrtQ 2)] }
    similarities :=
      [(0, 0 + 1 / sqrtQ 1 * (1 / sqrtQ 2) + 0 * (1 / sqrtQ 2)),
       (1, 0 + 1 / sqrtQ 2 * (1 / sqrtQ 2))]
    neighbours := [
      { document := { classId := 0, terms := [(0, 1 / sqrtQ 1)] }
        similarity := 0 + 1 / sqrtQ 1 * (1 / sqrtQ 2) + 0 * (1 / sqrtQ 2) },
      { document := { classId := 1, terms := [(0, 1 / sqrtQ 2), (1, 1 / sqrtQ 2)] }
        similarity := 0 + 1 / sqrtQ 2 * (1 / sqrtQ 2) }]
    classCount := [(0, 1), (1, 1)]
    classId := 0
    cls := "x" }

/-! ## Histories of calls -/

/-- The state after the calls `Train(c.1, c.2)`, for `c` in `calls` in this order, on a
new classifier. -/
def trainAll {F : Type} (env : Env F) (calls : List (String × String)) : KNN F :=
  calls.foldl (fun knn c => Train env knn c.1 c.2) NewKNN

/-- The state `knn` is reached from `NewKNN()` by calls of `Train` and `Predict`, and
`calls` are the arguments `(text, class)` of the calls of `Train`, in their order. -/
inductive ReachableBy {F : Type} (env : Env F) : List (String × String) → KNN F → Prop
  | new : ReachableBy env [] NewKNN
  | train {calls : List (String × String)} {knn : KNN F} (text cls : String) :
      ReachableBy env calls knn →
      ReachableBy env (calls ++ [(text, cls)]) (Train env knn text cls)
  | predict {calls : List (String × String)} {knn : KNN F} (text : String) (k : Int)
      (o : Runtime F) (r : KNN F × String) :
      ReachableBy env calls knn → Predict env knn text k o = some r →
      ReachableBy env calls r.1

/-- The distinct elements of a list, in the order of their first occurrence. -/
def firstSeen : List String → List String
  | [] => []
  | s :: l => s :: (firstSeen l).filter (fun x => x ≠ s)

/-- The map that gives to the element at position `i` of `l` the id `i`. -/
def ranks (l : List String) : List (String × Int) :=
  l.zip ((List.range l.length).map (fun (i : Nat) => (i : Int)))

/-- The stems of the words of the training texts, in the order of the calls and, in a
text, of its words. -/
def trainingStems {F : Type} (env : Env F) (calls : List (String × String)) : List String :=
  calls.flatMap (fun c => (FieldsFunc c.1 (isAlphaNum env)).map env.StemString)

/-- The postings index holds what the stored documents hold: `d` is in the postings
list of `t` exactly when `t` is a key of the weights of the document at position `d`. -/
def PostingsComplete {F : Type} (knn : KNN F) : Prop :=
  ∀ (t : Int) (d : Nat), d ∈ lookupD knn.postings t [] ↔
    ∃ doc, knn.documents[d]? = some doc ∧ t ∈ doc.terms.map Prod.fst

/-- The term id of the word `w` under the dictionary `dictionary`: the id of its stem, or
`-1` when the stem is not in the dictionary. -/
def termIdOf {F : Type} (env : Env F) (dictionary : List (String × Int)) (w : String) : Int :=
  (lookup dictionary (env.StemString w)).getD (-1)

/-- The environment with the operations of the ordered field `F` and the given square
root and power, the ASCII letters and digits, and the stemmer that returns its
word. -/
def Env.ofField {F : Type} [LinearOrderedField F] (sqrt : F → F) (pow : F → F → F) : Env F :=
  { IsLetter := Char.isAlpha
    IsNumber := Char.isDigit
    StemString := fun w => w
    float64 := fun n => (n : F)
    add := fun x y => x + y
    mul := fun x y => x * y
    div := fun x y => x / y
    Pow := pow
    Sqrt := sqrt }

/-- The list `ws'` is the list `ws` with elements that satisfy `p` inserted. -/
inductive Inserted {A : Type} (p : A → Prop) : List A → List A → Prop
  | nil : Inserted p [] []
  | keep (w : A) {ws ws' : List A} : Inserted p ws ws' → Inserted p (w :: ws) (w :: ws')
  | insert (w : A) {ws ws' : List A} : p w → Inserted p ws ws' → Inserted p ws (w :: ws')

/-- The value `knn.documents[documentId].terms[termId]`, and the zero of the
arithmetic when `documentId` is out of range. -/
def storedWeight {F : Type} (env : Env F) (knn : KNN F) (documentId : Nat) (termId : Int) : F :=
  match knn.documents[documentId]? with
  | some d => lookupD d.terms termId (env.float64 0)
  | none => env.float64 0

/-- What the term id `termId` of the query adds to `similarities[documentId]` for one
unit of query weight: `knn.documents[documentId].terms[termId]` when `documentId` is an
index of `knn.postings[termId]`, and zero otherwise. -/
def scoreShare {F : Type} [Zero F] (env : Env F) (knn : KNN F) (documentId : Nat)
    (termId : Int) : F :=
  if documentId < (lookupD knn.postings termId []).length
  then storedWeight env knn documentId termId else 0

/-- The calls of `Train` of the concrete scenario of the specification. -/
def scenarioCalls : List (String × String) :=
  [("cats are great", "animal"), ("dogs are great", "animal"), ("stocks rose today", "finance")]

/-! ## Concurrent calls of `Train` -/

/-- A call of `Train(text, class)` that runs at the same time as other calls: the place
of the call in the code, with its local variables.

* `start`: before `knn.dictionaryLock.Lock()` (line 47);
* `loop`: at the head of the loop over the words (line 52), with the words that are
  left and the counts `terms`;
* `missing`: after line 54 with `ok` false, before line 58;
* `sized`: after `termId = len(knn.dictionary)` (line 58), before the write of line 59;
* `counted`: after `knn.dictionaryLock.Unlock()` (line 69);
* `classified`: after `knn.classesLock.Unlock()` (line 103);
* `stored`: after `knn.documentsLock.Unlock()` (line 110);
* `done`: after `knn.postingsLock.Unlock()` (line 118). -/
inductive Call (F : Type)
  | start (text cls : String)
  | loop (cls : String) (words : List String) (terms : List (Int × Int))
  | missing (cls : String) (words : List String) (terms : List (Int × Int)) (term : String)
  | sized (cls : String) (words : List String) (terms : List (Int × Int)) (term : String)
      (termId : Int)
  | counted (cls : String) (terms : List (Int × Int))
  | classified (document : Document F)
  | stored (document : Document F) (documentId : Nat)
  | done
  deriving DecidableEq

/-- The call is between `knn.dictionaryLock.Lock()` and `knn.dictionaryLock.Unlock()`. -/
def Call.locked {F : Type} : Call F → Bool
  | Call.loop _ _ _ => true
  | Call.missing _ _ _ _ => true
  | Call.sized _ _ _ _ _ => true
  | _ => false

/-- The classifier, the holder of `dictionaryLock` (a position in `calls`) and the
calls of `Train` that have begun. -/
structure Concurrent.State (F : Type) where
  knn : KNN F
  dictionaryLock : Option Nat
  calls : List (Call F)
  deriving DecidableEq

/-- A new classifier and no call. -/
def Concurrent.init {F : Type} : Concurrent.State F :=
  { knn := NewKNN, dictionaryLock := none, calls := [] }

/-- One step of the call at position `i`; `none` when there is no such call, when it
waits for `dictionaryLock`, or when it has returned.  Inside the section of
`dictionaryLock` the read of line 54, the read of `len(knn.dictionary)` and the write of
line 59 are three steps.  The lines 74-103, the lines 105-110 and the lines 112-118 are
one step each: they neither read nor write the dictionary. -/
def Concurrent.step {F : Type} (env : Env F) (s : Concurrent.State F) (i : Nat) :
    Option (Concurrent.State F) :=
  match s.calls[i]? with
  | none => none
  | some (Call.start text cls) =>
    match s.dictionaryLock with
    | some _ => none
    | none =>
      some { s with
        dictionaryLock := some i
        calls := s.calls.set i (Call.loop cls (FieldsFunc text (isAlphaNum env)) []) }
  | some (Call.loop cls [] terms) =>
    some { s with dictionaryLock := none, calls := s.calls.set i (Call.counted cls terms) }
  | some (Call.loop cls (term :: words) terms) =>
    let term := env.StemString term
    match lookup s.knn.dictionary term with
    | some termId =>
      some { s with calls := s.calls.set i (Call.loop cls words (increment terms termId)) }
    | none => some { s with calls := s.calls.set i (Call.missing cls words terms term) }
  | some (Call.missing cls words terms term) =>
    let termId : Int := s.knn.dictionary.length
    some { s with calls := s.calls.set i (Call.sized cls words terms term termId) }
  | some (Call.sized cls words terms term termId) =>
    some { s with
      knn := { s.knn with dictionary := store s.knn.dictionary term termId }
      calls := s.calls.set i (Call.loop cls words (increment terms termId)) }
  | some (Call.counted cls terms) =>
    let documentMagnitude := newDocument.magnitude env terms
    let classes := Train.register s.knn.classes cls
    let document : Document F :=
      { classId := lookupD classes cls 0
        terms := newDocument.normalize env terms documentMagnitude }
    some { s with
      knn := { s.knn with classes := classes }
      calls := s.calls.set i (Call.classified document) }
  | some (Call.classified document) =>
    let documents := s.knn.documents ++ [document]
    some { s with
      knn := { s.knn with documents := documents }
      calls := s.calls.set i (Call.stored document (documents.length - 1)) }
  | some (Call.stored document documentId) =>
    some { s with
      knn := { s.knn with postings := Train.post s.knn.postings document.terms documentId }
      calls := s.calls.set i Call.done }
  | some Call.done => none

/-- The state `s'` is reached from `s` by steps of the calls, in any order, and by new
calls of `Train` that begin. -/
inductive Concurrent.Trace {F : Type} (env : Env F) :
    Concurrent.State F → Concurrent.State F → Prop
  | refl (s : Concurrent.State F) : Concurrent.Trace env s s
  | spawn {s s' : Concurrent.State F} (text cls : String) :
      Concurrent.Trace env s s' →
      Concurrent.Trace env s { s' with calls := s'.calls ++ [Call.start text cls] }
  | step {s s' s'' : Concurrent.State F} (i : Nat) :
      Concurrent.Trace env s s' → Concurrent.step env s' i = some s'' →
      Concurrent.Trace env s s''

/-- The states of a classifier made by `NewKNN()` and used by concurrent calls of
`Train`. -/
def Concurrent.Reachable {F : Type} (env : Env F) (s : Concurrent.State F) : Prop :=
  Concurrent.Trace env Concurrent.init s

/-- The state of the dictionary section that the proofs keep: the dictionary gives to
the stems of a list without duplicates their positions; a call inside the section holds
the lock; the stem of a call at `missing` or `sized` is not in the dictionary, and the
`termId` of a call at `sized` is the length of the dictionary. -/
structure Concurrent.Inv {F : Type} (s : Concurrent.State F) : Prop where
  dense : ∃ l : List String, l.Nodup ∧ s.knn.dictionary = ranks l
  held : ∀ (j : Nat) (c : Call F), s.calls[j]? = some c → c.locked = true →
    s.dictionaryLock = some j
  absent : ∀ (j : Nat) (cls : String) (words : List String) (terms : List (Int × Int))
    (term : String), s.calls[j]? = some (Call.missing cls words terms term) →
    lookup s.knn.dictionary term = none
  fresh : ∀ (j : Nat) (cls : String) (words : List String) (terms : List (Int × Int))
    (term : String) (termId : Int),
    s.calls[j]? = some (Call.sized cls words terms term termId) →
    lookup s.knn.dictionary term = none ∧ termId = s.knn.dictionary.length

/-- A state of two concurrent calls, `Train("a b", "x")` and `Train("b a", "y")`: the
first call holds `dictionaryLock`, has written the stem `a` and is at the head of the
loop with the word `b` left; the second call waits for the lock. -/
def Concurrent.sample : Concurrent.State ℚ :=
  { knn := { dictionary := [("a", 0)], postings := [], classes := [], documents := [] }
    dictionaryLock := some 0
    calls := [Call.loop "x" ["b"] [(0, 1)], Call.start "b a" "y"] }

/-! ## Lemmas on maps -/

section Maps
variable {K V : Type} [DecidableEq K]

theorem lookup_eq_none_iff (m : List (K × V)) (k : K) :
    lookup m k = none ↔ k ∉ m.map Prod.fst := by
  induction m with
  | nil => simp [lookup]
  | cons e m ih =>
    obtain ⟨k', v⟩ := e
    by_cases h : k' = k
    · simp [lookup, h]
    · simp [lookup, h, ih, Ne.symm h]

theorem mem_of_lookup_eq_some {m : List (K × V)} {k : K} {v : V}
    (h : lookup m k = some v) : (k, v) ∈ m := by
  induction m with
  | nil => simp [lookup] at h
  | cons e m ih =>
    obtain ⟨k', v'⟩ := e
    by_cases hk : k' = k
    · simp [lookup, hk] at h
      simp [hk, h]
    · simp [lookup, hk] at h
      exact List.mem_cons_of_mem _ (ih h)

theorem lookup_eq_some_of_mem {m : List (K × V)} {k : K} {v : V}
    (hn : (m.map Prod.fst).Nodup) (h : (k, v) ∈ m) : lookup m k = some v := by
  induction m with
  | nil => simp at h
  | cons e m ih =>
    obtain ⟨k', v'⟩ := e
    simp only [List.map_cons, List.nodup_cons] at hn
    rcases List.mem_cons.1 h with h | h
    · cases h
      simp [lookup]
    · have hk : k' ≠ k := by
        rintro rfl
        exact hn.1 (List.mem_map.2 ⟨_, h, rfl⟩)
      simp [lookup, hk, ih hn.2 h]

theorem mem_store {m : List (K × V)} {k : K} {v : V} {e : K × V}
    (h : e ∈ store m k v) : e = (k, v) ∨ (e ∈ m ∧ e.1 ≠ k) ∨ (e ∈ m ∧ k ∈ m.map Prod.fst ∧ e.1 = k) := by
  induction m with
  | nil => simpa [store] using h
  | cons e' m ih =>
    obtain ⟨k', v'⟩ := e'
    by_cases hk : k' = k
    · subst hk
      simp only [store, if_true, List.mem_cons] at h
      rcases h with h | h
      · exact Or.inl h
      · by_cases he : e.1 = k'
        · exact Or.inr (Or.inr ⟨List.mem_cons_of_mem _ h, by simp, he⟩)
        · exact Or.inr (Or.inl ⟨List.mem_cons_of_mem _ h, he⟩)
    · simp only [store, hk, if_false, List.mem_cons] at h
      rcases h with h | h
      · subst h
        exact Or.inr (Or.inl ⟨by simp, hk⟩)
      · rcases ih h with h | h | h
        · exact Or.inl h
        · exact Or.inr (Or.inl ⟨List.mem_cons_of_mem _ h.1, h.2⟩)
        · exact Or.inr (Or.inr ⟨List.mem_cons_of_mem _ h.1, by simp [h.2.1], h.2.2⟩)

theorem mem_store_cases {m : List (K × V)} {k : K} {v : V} {e : K × V}
    (h : e ∈ store m k v) : e = (k, v) ∨ e ∈ m := by
  rcases mem_store h with h | h | h
  · exact Or.inl h
  · exact Or.inr h.1
  · exact Or.inr h.1

theorem keys_store (m : List (K × V)) (k : K) (v : V) :
    (store m k v).map Prod.fst = if k ∈ m.map Prod.fst then m.map Prod.fst else m.map Prod.fst ++ [k] := by
  induction m with
  | nil => simp [store]
  | cons e m ih =>
    obtain ⟨k', v'⟩ := e
    by_cases hk : k' = k
    · subst hk
      simp [store]
    · simp only [store, hk, if_false, List.map_cons, ih, List.mem_cons, Ne.symm hk, false_or]
      split <;> simp

theorem mem_keys_store (m : List (K × V)) (k k' : K) (v : V) :
    k' ∈ (store m k v).map Prod.fst ↔ k' = k ∨ k' ∈ m.map Prod.fst := by
  rw [keys_store]
  split
  · constructor
    · exact Or.inr
    · rintro (rfl | h)
      · assumption
      · exact h
  · simp [or_comm]

theorem nodup_keys_store {m : List (K × V)} (k : K) (v : V)
    (h : (m.map Prod.fst).Nodup) : ((store m k v).map Prod.fst).Nodup := by
  rw [keys_store]
  split
  · exact h
  · rename_i hk
    exact List.Nodup.append h (List.nodup_singleton k) (by simpa using hk)

theorem length_store (m : List (K × V)) (k : K) (v : V) :
    (store m k v).length = if k ∈ m.map Prod.fst then m.length else m.length + 1 := by
  have := congrArg List.length (keys_store m k v)
  simp only [List.length_map] at this
  rw [this]
  split <;> simp

theorem lookup_store (m : List (K × V)) (k k' : K) (v : V) :
    lookup (store m k v) k' = if k = k' then some v else lookup m k' := by
  induction m with
  | nil => simp [store, lookup]
  | cons e m ih =>
    obtain ⟨k0, v0⟩ := e
    by_cases hk : k0 = k
    · subst hk
      by_cases hk' : k0 = k' <;> simp [store, lookup, hk']
    · by_cases hk' : k = k'
      · subst hk'
        simp [store, lookup, hk, ih]
      · simp [store, lookup, hk, ih, hk']

end Maps

section NewDocument
variable {F : Type}

theorem foldl_step_false_fst (env : Env F) (ws : List String)
    (st : List (String × Int) × List (Int × Int)) :
    (ws.foldl (newDocument.step env false) st).1 = st.1 := by
  induction ws generalizing st with
  | nil => rfl
  | cons w ws ih =>
    rw [List.foldl_cons, ih]
    unfold newDocument.step
    dsimp only
    split <;> simp

theorem count_false_fst (env : Env F) (d : List (String × Int)) (text : String) :
    (newDocument.count env d text false).1 = d :=
  foldl_step_false_fst env _ _

theorem newDocument_false_fst (env : Env F) (knn : KNN F) (text : String) :
    (newDocument env knn text false).1 = knn := by
  simp [newDocument, count_false_fst]

theorem newDocument_fst_postings (env : Env F) (knn : KNN F) (text : String) (b : Bool) :
    (newDocument env knn text b).1.postings = knn.postings := rfl

theorem newDocument_fst_classes (env : Env F) (knn : KNN F) (text : String) (b : Bool) :
    (newDocument env knn text b).1.classes = knn.classes := rfl

theorem newDocument_fst_documents (env : Env F) (knn : KNN F) (text : String) (b : Bool) :
    (newDocument env knn text b).1.documents = knn.documents := rfl

/-- Keys of a map built by successive writes. -/
theorem mem_keys_foldl_store {K A V : Type} [DecidableEq K] (key : A → K) (val : List (K × V) → A → V)
    (l : List A) (m : List (K × V)) (k : K) :
    k ∈ (l.foldl (fun m a => store m (key a) (val m a)) m).map Prod.fst ↔
      k ∈ m.map Prod.fst ∨ k ∈ l.map key := by
  induction l generalizing m with
  | nil => simp
  | cons a l ih =>
    rw [List.foldl_cons, ih, mem_keys_store]
    simp only [List.map_cons, List.mem_cons]
    tauto

theorem nodup_keys_foldl_store {K A V : Type} [DecidableEq K] (key : A → K) (val : List (K × V) → A → V)
    (l : List A) (m : List (K × V)) (h : (m.map Prod.fst).Nodup) :
    ((l.foldl (fun m a => store m (key a) (val m a)) m).map Prod.fst).Nodup := by
  induction l generalizing m with
  | nil => exact h
  | cons a l ih =>
    rw [List.foldl_cons]
    exact ih _ (nodup_keys_store _ _ h)

theorem mem_keys_normalize (env : Env F) (terms : List (Int × Int)) (mag : F) (k : Int) :
    k ∈ (newDocument.normalize env terms mag).map Prod.fst ↔ k ∈ terms.map Prod.fst := by
  unfold newDocument.normalize
  rw [mem_keys_foldl_store (fun tc : Int × Int => tc.1) (fun _ tc => env.div (env.float64 tc.2) mag)]
  simp

theorem nodup_keys_normalize (env : Env F) (terms : List (Int × Int)) (mag : F) :
    ((newDocument.normalize env terms mag).map Prod.fst).Nodup := by
  unfold newDocument.normalize
  exact nodup_keys_foldl_store (fun tc : Int × Int => tc.1)
    (fun _ tc => env.div (env.float64 tc.2) mag) _ _ (by simp)

theorem mem_keys_increment (terms : List (Int × Int)) (t k : Int) :
    k ∈ (increment terms t).map Prod.fst ↔ k = t ∨ k ∈ terms.map Prod.fst :=
  mem_keys_store _ _ _ _

/-- The loop over the words keeps the ids of the dictionary non-negative, and the
keys of the counts are `-1` or ids of the dictionary. -/
theorem foldl_step_inv (env : Env F) (b : Bool) (ws : List String)
    (st : List (String × Int) × List (Int × Int))
    (hd : ∀ e ∈ st.1, 0 ≤ e.2)
    (ht : ∀ k ∈ st.2.map Prod.fst, (b = true → 0 ≤ k) ∧ (b = false → k = -1 ∨ k ∈ st.1.map Prod.snd)) :
    (∀ e ∈ (ws.foldl (newDocument.step env b) st).1, 0 ≤ e.2) ∧
    (∀ k ∈ (ws.foldl (newDocument.step env b) st).2.map Prod.fst,
      (b = true → 0 ≤ k) ∧
      (b = false → k = -1 ∨ k ∈ st.1.map Prod.snd)) := by
  induction ws generalizing st with
  | nil => exact ⟨hd, ht⟩
  | cons w ws ih =>
    rw [List.foldl_cons]
    have key : (∀ e ∈ (newDocument.step env b st w).1, 0 ≤ e.2) ∧
        (∀ k ∈ (newDocument.step env b st w).2.map Prod.fst,
          (b = true → 0 ≤ k) ∧
          (b = false → k = -1 ∨ k ∈ (newDocument.step env b st w).1.map Prod.snd)) ∧
        (b = false → (newDocument.step env b st w).1 = st.1) := by
      unfold newDocument.step
      dsimp only
      split
      · rename_i termId hl
        have hmem := mem_of_lookup_eq_some hl
        refine ⟨hd, ?_, fun _ => rfl⟩
        intro k hk
        rcases (mem_keys_increment _ _ _).1 hk with rfl | hk
        · exact ⟨fun _ => hd _ hmem, fun _ => Or.inr (List.mem_map.2 ⟨_, hmem, rfl⟩)⟩
        · exact ht k hk
      · cases b
        · refine ⟨hd, ?_, fun _ => rfl⟩
          intro k hk
          rcases (mem_keys_increment _ _ _).1 hk with rfl | hk
          · exact ⟨by simp, fun _ => Or.inl rfl⟩
          · exact ht k hk
        · simp only [if_true]
          refine ⟨?_, ?_, by simp⟩
          · intro e he
            rcases mem_store_cases he with rfl | he
            · exact Int.natCast_nonneg _
            · exact hd e he
          · intro k hk
            rcases (mem_keys_increment _ _ _).1 hk with rfl | hk
            · exact ⟨fun _ => Int.natCast_nonneg _, by simp⟩
            · exact ⟨fun _ => (ht k hk).1 rfl, by simp⟩
    obtain ⟨h1, h2, h3⟩ := key
    obtain ⟨r1, r2⟩ := ih _ h1 h2
    refine ⟨r1, fun k hk => ⟨(r2 k hk).1, fun hb => ?_⟩⟩
    have := (r2 k hk).2 hb
    rwa [h3 hb] at this

end NewDocument

section Invariant
variable {F : Type}

theorem inv_new : Inv (NewKNN : KNN F) := by
  constructor <;> simp [NewKNN]

theorem post_inv (n : Nat) (terms : List (Int × F)) (p : List (Int × List Nat))
    (hn : (terms.map Prod.fst).Nodup) (h0 : ∀ k ∈ terms.map Prod.fst, 0 ≤ k)
    (hp : ∀ e ∈ p, 0 ≤ e.1 ∧ e.2.Sublist (List.range (n + 1)) ∧
      (e.1 ∈ terms.map Prod.fst → e.2.Sublist (List.range n))) :
    ∀ e ∈ Train.post p terms n, 0 ≤ e.1 ∧ e.2.Sublist (List.range (n + 1)) := by
  induction terms generalizing p with
  | nil => exact fun e he => ⟨(hp e he).1, (hp e he).2.1⟩
  | cons tw terms ih =>
    obtain ⟨t, w⟩ := tw
    simp only [List.map_cons, List.nodup_cons] at hn
    unfold Train.post
    rw [List.foldl_cons]
    refine ih _ hn.2 (fun k hk => h0 k (by simp [hk])) ?_
    intro e he
    rcases mem_store_cases he with rfl | he
    · refine ⟨h0 t (by simp), ?_, fun h => absurd h hn.1⟩
      have hold : (lookupD p t []).Sublist (List.range n) := by
        unfold lookupD
        cases hl : lookup p t with
        | none => simp
        | some l => exact (hp _ (mem_of_lookup_eq_some hl)).2.2 (by simp)
      rw [List.range_succ]
      exact hold.append (List.Sublist.refl _)
    · exact ⟨(hp e he).1, (hp e he).2.1, fun h => (hp e he).2.2 (by simp [h])⟩

theorem register_nonneg (classes : List (String × Int)) (cls : String)
    (h : ∀ e ∈ classes, 0 ≤ e.2) : ∀ e ∈ Train.register classes cls, 0 ≤ e.2 := by
  unfold Train.register
  split
  · exact h
  · intro e he
    rcases mem_store_cases he with rfl | he
    · exact Int.natCast_nonneg _
    · exact h e he

theorem lookupD_nonneg (classes : List (String × Int)) (cls : String)
    (h : ∀ e ∈ classes, 0 ≤ e.2) : 0 ≤ lookupD classes cls 0 := by
  unfold lookupD
  cases hl : lookup classes cls with
  | none => simp
  | some i => exact h _ (mem_of_lookup_eq_some hl)

theorem inv_train (env : Env F) (knn : KNN F) (text cls : String) (h : Inv knn) :
    Inv (Train env knn text cls) := by
  have hcount := foldl_step_inv env true (FieldsFunc text (isAlphaNum env)) (knn.dictionary, [])
    h.dictionary_nonneg (by simp)
  have hreg := register_nonneg knn.classes cls h.classes_nonneg
  constructor
  · exact hcount.1
  · intro e he
    refine (post_inv knn.documents.length _ _ (nodup_keys_normalize _ _ _) ?_ ?_ e
      (by simpa [Train, newDocument] using he)).1
    · intro k hk
      exact (hcount.2 k ((mem_keys_normalize _ _ _ _).1 hk)).1 rfl
    · intro e he
      have := h.postings_sublist e he
      exact ⟨h.postings_nonneg e he, this.trans (List.range_sublist.2 (Nat.le_succ _)), fun _ => this⟩
  · intro e he
    have hlen : (Train env knn text cls).documents.length = knn.documents.length + 1 := by
      simp [Train, newDocument]
    rw [hlen]
    refine (post_inv knn.documents.length _ _ (nodup_keys_normalize _ _ _) ?_ ?_ e
      (by simpa [Train, newDocument] using he)).2
    · intro k hk
      exact (hcount.2 k ((mem_keys_normalize _ _ _ _).1 hk)).1 rfl
    · intro e he
      have := h.postings_sublist e he
      exact ⟨h.postings_nonneg e he, this.trans (List.range_sublist.2 (Nat.le_succ _)), fun _ => this⟩
  · exact hreg
  · intro d hd
    simp only [Train, newDocument, List.mem_append, List.mem_singleton] at hd
    rcases hd with hd | rfl
    · exact h.documents_nonneg d hd
    · exact lookupD_nonneg _ _ hreg

theorem Predict_fst (env : Env F) (knn : KNN F) (text : String) (k : Int) (o : Runtime F)
    (r : KNN F × String) (h : Predict env knn text k o = some r) : r.1 = knn := by
  unfold Predict Predict.run at h
  simp only [Option.map_eq_some', Option.bind_eq_bind, Option.bind_eq_some, Option.pure_def,
    Option.some.injEq] at h
  obtain ⟨t, ⟨s, _, ns, _, rfl⟩, rfl⟩ := h
  exact newDocument_false_fst env knn text

theorem inv_of_reachable (env : Env F) {knn : KNN F} (h : Reachable env knn) : Inv knn := by
  induction h with
  | new => exact inv_new
  | train text cls _ ih => exact inv_train env _ text cls ih
  | predict text k o r _ hp ih => rw [Predict_fst env _ text k o r hp]; exact ih

end Invariant

section Scoring
variable {F : Type}

theorem scoreDoc_eq_some (env : Env F) (knn : KNN F) (document : Document F) (termId : Int)
    (sims sims' : List (Nat × F)) (i : Nat)
    (h : Predict.scoreDoc env knn document termId sims i = some sims') :
    i < knn.documents.length ∧ ∃ v, sims' = store sims i v := by
  unfold Predict.scoreDoc at h
  simp only [Option.bind_eq_bind, Option.bind_eq_some, Option.pure_def, Option.some.injEq] at h
  obtain ⟨d, hd, rfl⟩ := h
  exact ⟨(List.getElem?_eq_some_iff.1 hd).1, _, rfl⟩

theorem scoreDoc_isSome (env : Env F) (knn : KNN F) (document : Document F) (termId : Int)
    (sims : List (Nat × F)) (i : Nat) (h : i < knn.documents.length) :
    ∃ sims', Predict.scoreDoc env knn document termId sims i = some sims' := by
  unfold Predict.scoreDoc
  simp [List.getElem?_eq_getElem h]

theorem foldlM_scoreDoc_eq_some (env : Env F) (knn : KNN F) (document : Document F) (termId : Int)
    (ids : List Nat) (sims sims' : List (Nat × F))
    (h : ids.foldlM (Predict.scoreDoc env knn document termId) sims = some sims') :
    (∀ i ∈ ids, i < knn.documents.length) ∧
    (∀ k, k ∈ sims'.map Prod.fst ↔ k ∈ sims.map Prod.fst ∨ k ∈ ids) ∧
    ((sims.map Prod.fst).Nodup → (sims'.map Prod.fst).Nodup) := by
  induction ids generalizing sims with
  | nil =>
    simp only [List.foldlM_nil, Option.pure_def, Option.some.injEq] at h
    subst h
    simp
  | cons i ids ih =>
    simp only [List.foldlM_cons, Option.bind_eq_bind, Option.bind_eq_some] at h
    obtain ⟨s1, h1, h2⟩ := h
    obtain ⟨hi, v, rfl⟩ := scoreDoc_eq_some env knn document termId sims s1 i h1
    obtain ⟨r1, r2, r3⟩ := ih _ h2
    refine ⟨?_, ?_, fun hn => r3 (nodup_keys_store _ _ hn)⟩
    · intro j hj
      rcases List.mem_cons.1 hj with rfl | hj
      · exact hi
      · exact r1 j hj
    · intro k
      rw [r2, mem_keys_store]
      simp only [List.mem_cons]
      tauto

theorem foldlM_scoreDoc_isSome (env : Env F) (knn : KNN F) (document : Document F) (termId : Int)
    (ids : List Nat) (sims : List (Nat × F)) (h : ∀ i ∈ ids, i < knn.documents.length) :
    ∃ sims', ids.foldlM (Predict.scoreDoc env knn document termId) sims = some sims' := by
  induction ids generalizing sims with
  | nil => exact ⟨sims, rfl⟩
  | cons i ids ih =>
    obtain ⟨s1, h1⟩ := scoreDoc_isSome env knn document termId sims i (h i (by simp))
    obtain ⟨s2, h2⟩ := ih s1 (fun j hj => h j (by simp [hj]))
    exact ⟨s2, by simp [List.foldlM_cons, h1, h2]⟩

/-- What a successful run of the scoring loop from `sims` over the terms `order` yields. -/
theorem foldlM_scoreTerm_eq_some (env : Env F) (knn : KNN F) (document : Document F)
    (order : List (Int × F)) (sims sims' : List (Nat × F))
    (h : order.foldlM (fun s tw => Predict.scoreTerm env knn document s tw.1) sims = some sims') :
    (∀ tw ∈ order, (lookupD knn.postings tw.1 []).length ≤ knn.documents.length) ∧
    (∀ k, k ∈ sims'.map Prod.fst ↔
      k ∈ sims.map Prod.fst ∨ ∃ tw ∈ order, k < (lookupD knn.postings tw.1 []).length) ∧
    ((sims.map Prod.fst).Nodup → (sims'.map Prod.fst).Nodup) := by
  induction order generalizing sims with
  | nil =>
    simp only [List.foldlM_nil, Option.pure_def, Option.some.injEq] at h
    subst h
    simp
  | cons tw order ih =>
    simp only [List.foldlM_cons, Option.bind_eq_bind, Option.bind_eq_some] at h
    obtain ⟨s1, h1, h2⟩ := h
    obtain ⟨a1, a2, a3⟩ := foldlM_scoreDoc_eq_some env knn document tw.1 _ sims s1 h1
    obtain ⟨r1, r2, r3⟩ := ih _ h2
    refine ⟨?_, ?_, fun hn => r3 (a3 hn)⟩
    · intro tw' htw'
      rcases List.mem_cons.1 htw' with rfl | htw'
      · by_contra hlt
        have := a1 knn.documents.length (List.mem_range.2 (not_le.1 hlt))
        exact lt_irrefl _ this
      · exact r1 tw' htw'
    · intro k
      rw [r2, a2]
      simp only [List.mem_range, List.mem_cons, exists_eq_or_imp]
      tauto

theorem foldlM_scoreTerm_isSome (env : Env F) (knn : KNN F) (document : Document F)
    (order : List (Int × F)) (sims : List (Nat × F))
    (h : ∀ tw ∈ order, (lookupD knn.postings tw.1 []).length ≤ knn.documents.length) :
    ∃ sims', order.foldlM (fun s tw => Predict.scoreTerm env knn document s tw.1) sims
      = some sims' := by
  induction order generalizing sims with
  | nil => exact ⟨sims, rfl⟩
  | cons tw order ih =>
    obtain ⟨s1, h1⟩ := foldlM_scoreDoc_isSome env knn document tw.1
      (List.range (lookupD knn.postings tw.1 []).length) sims
      (fun i hi => lt_of_lt_of_le (List.mem_range.1 hi) (h tw (by simp)))
    obtain ⟨s2, h2⟩ := ih s1 (fun tw' htw' => h tw' (by simp [htw']))
    refine ⟨s2, ?_⟩
    simp only [List.foldlM_cons, Option.bind_eq_bind]
    rw [show Predict.scoreTerm env knn document sims tw.1 = some s1 from h1]
    exact h2

/-- The keys of `similarities` after a successful scoring: the indices below the
length of the postings list of some term of the query. -/
theorem score_eq_some (env : Env F) (knn : KNN F) (document : Document F)
    (order : List (Int × F)) (sims : List (Nat × F))
    (h : Predict.score env knn document order = some sims) :
    (∀ k, k ∈ sims.map Prod.fst ↔ ∃ tw ∈ order, k < (lookupD knn.postings tw.1 []).length) ∧
    (sims.map Prod.fst).Nodup ∧ (∀ k ∈ sims.map Prod.fst, k < knn.documents.length) := by
  obtain ⟨r1, r2, r3⟩ := foldlM_scoreTerm_eq_some env knn document order [] sims h
  have hk : ∀ k, k ∈ sims.map Prod.fst ↔
      ∃ tw ∈ order, k < (lookupD knn.postings tw.1 []).length := by
    intro k
    rw [r2]
    simp
  refine ⟨hk, r3 (by simp), fun k hk' => ?_⟩
  obtain ⟨tw, htw, hlt⟩ := (hk k).1 hk'
  exact lt_of_lt_of_le hlt (r1 tw htw)

theorem score_isSome (env : Env F) (knn : KNN F) (document : Document F)
    (order : List (Int × F))
    (h : ∀ tw ∈ order, (lookupD knn.postings tw.1 []).length ≤ knn.documents.length) :
    ∃ sims, Predict.score env knn document order = some sims :=
  foldlM_scoreTerm_isSome env knn document order [] h

theorem postings_length_le {knn : KNN F} (h : Inv knn) (t : Int) :
    (lookupD knn.postings t []).length ≤ knn.documents.length := by
  unfold lookupD
  cases hl : lookup knn.postings t with
  | none => simp
  | some l =>
    have := (h.postings_sublist _ (mem_of_lookup_eq_some hl)).length_le
    simpa using this

theorem foldlM_collectDoc_eq_some (knn : KNN F) (order : List (Nat × F))
    (acc ns : List (Neighbour F)) (h : order.foldlM (Predict.collectDoc knn) acc = some ns) :
    ∃ added, ns = acc ++ added ∧
      List.Forall₂ (fun ds nb => knn.documents[ds.1]? = some nb.document ∧ nb.similarity = ds.2)
        order added := by
  induction order generalizing acc with
  | nil =>
    simp only [List.foldlM_nil, Option.pure_def, Option.some.injEq] at h
    exact ⟨[], by simp [h], List.Forall₂.nil⟩
  | cons ds order ih =>
    simp only [List.foldlM_cons, Option.bind_eq_bind, Option.bind_eq_some] at h
    obtain ⟨a1, h1, h2⟩ := h
    unfold Predict.collectDoc at h1
    simp only [Option.bind_eq_bind, Option.bind_eq_some, Option.pure_def, Option.some.injEq] at h1
    obtain ⟨d, hd, rfl⟩ := h1
    obtain ⟨added, rfl, hf⟩ := ih _ h2
    exact ⟨({ document := d, similarity := ds.2 } : Neighbour F) :: added, by simp,
      List.Forall₂.cons ⟨hd, rfl⟩ hf⟩

theorem collect_eq_some (knn : KNN F) (order : List (Nat × F)) (ns : List (Neighbour F))
    (h : Predict.collect knn order = some ns) :
    List.Forall₂ (fun ds nb => knn.documents[ds.1]? = some nb.document ∧ nb.similarity = ds.2)
      order ns := by
  obtain ⟨added, rfl, hf⟩ := foldlM_collectDoc_eq_some knn order [] ns h
  simpa using hf

theorem foldlM_collectDoc_isSome (knn : KNN F) (order : List (Nat × F))
    (acc : List (Neighbour F)) (h : ∀ ds ∈ order, ds.1 < knn.documents.length) :
    ∃ ns, order.foldlM (Predict.collectDoc knn) acc = some ns := by
  induction order generalizing acc with
  | nil => exact ⟨acc, rfl⟩
  | cons ds order ih =>
    obtain ⟨d, hd⟩ : ∃ d, knn.documents[ds.1]? = some d :=
      ⟨_, List.getElem?_eq_getElem (h ds (by simp))⟩
    obtain ⟨ns, hns⟩ := ih (acc ++ [{ document := d, similarity := ds.2 }])
      (fun e he => h e (by simp [he]))
    refine ⟨ns, ?_⟩
    simp only [List.foldlM_cons, Option.bind_eq_bind]
    rw [show Predict.collectDoc knn acc ds = some (acc ++ [{ document := d, similarity := ds.2 }]) by
      unfold Predict.collectDoc
      simp [hd]]
    exact hns

theorem collect_isSome (knn : KNN F) (order : List (Nat × F))
    (h : ∀ ds ∈ order, ds.1 < knn.documents.length) :
    ∃ ns, Predict.collect knn order = some ns :=
  foldlM_collectDoc_isSome knn order [] h

end Scoring

section Voting
variable {F : Type}

theorem lookupD_store {K V : Type} [DecidableEq K] (m : List (K × V)) (k k' : K) (v z : V) :
    lookupD (store m k v) k' z = if k = k' then v else lookupD m k' z := by
  unfold lookupD
  rw [lookup_store]
  split <;> rfl

theorem lookupD_foldl_count (V : List (Neighbour F)) (acc : List (Int × Int)) (c : Int) :
    lookupD (V.foldl (fun classCount n => store classCount n.document.classId
      (lookupD classCount n.document.classId 0 + 1)) acc) c 0
    = lookupD acc c 0 + List.count c (V.map (fun n => n.document.classId)) := by
  induction V generalizing acc with
  | nil => simp
  | cons n V ih =>
    rw [List.foldl_cons, ih, lookupD_store, List.map_cons, List.count_cons]
    by_cases h : n.document.classId = c
    · subst h
      simp
      ring
    · simp [h]

/-- The map `classCount` holds, for each class id among the first `k` neighbours, the
number of its occurrences there. -/
theorem countClasses_spec (ns : List (Neighbour F)) (k : Int) :
    ((Predict.countClasses ns k).map Prod.fst).Nodup ∧
    (∀ c, c ∈ (Predict.countClasses ns k).map Prod.fst ↔
      c ∈ (ns.take k.toNat).map (fun n => n.document.classId)) ∧
    (∀ e ∈ Predict.countClasses ns k,
      e.2 = List.count e.1 ((ns.take k.toNat).map (fun n => n.document.classId))) := by
  refine ⟨?_, ?_, ?_⟩
  · exact nodup_keys_foldl_store (fun n : Neighbour F => n.document.classId)
      (fun m n => lookupD m n.document.classId 0 + 1) _ _ (by simp)
  · intro c
    unfold Predict.countClasses
    rw [mem_keys_foldl_store (fun n : Neighbour F => n.document.classId)
      (fun m n => lookupD m n.document.classId 0 + 1)]
    simp
  · intro e he
    have hn : ((Predict.countClasses ns k).map Prod.fst).Nodup :=
      nodup_keys_foldl_store (fun n : Neighbour F => n.document.classId)
        (fun m n => lookupD m n.document.classId 0 + 1) _ _ (by simp)
    have hl := lookup_eq_some_of_mem hn (show (e.1, e.2) ∈ _ from he)
    have h2 : lookupD (Predict.countClasses ns k) e.1 0 = e.2 := by simp [lookupD, hl]
    have h3 := lookupD_foldl_count (ns.take k.toNat) [] e.1
    have h4 : lookupD ([] : List (Int × Int)) e.1 0 = 0 := rfl
    rw [h4, zero_add] at h3
    exact h2.symm.trans h3

theorem foldl_mostPopular (order : List (Int × Int)) (best : Int × Int) :
    let r := order.foldl (fun best ic => if ic.2 > best.2 then (ic.1, ic.2) else best) best
    best.2 ≤ r.2 ∧ (∀ e ∈ order, e.2 ≤ r.2) ∧ (r = best ∨ r ∈ order) := by
  induction order generalizing best with
  | nil => simp
  | cons ic order ih =>
    simp only [List.foldl_cons]
    by_cases h : ic.2 > best.2
    · simp only [h, if_true]
      obtain ⟨r1, r2, r3⟩ := ih (ic.1, ic.2)
      refine ⟨le_trans (le_of_lt h) r1, ?_, ?_⟩
      · intro e he
        rcases List.mem_cons.1 he with rfl | he
        · exact r1
        · exact r2 e he
      · rcases r3 with r3 | r3
        · right
          rw [r3]
          simp
        · exact Or.inr (List.mem_cons_of_mem _ r3)
    · simp only [h, if_false]
      obtain ⟨r1, r2, r3⟩ := ih best
      refine ⟨r1, ?_, ?_⟩
      · intro e he
        rcases List.mem_cons.1 he with rfl | he
        · exact le_trans (not_lt.1 h) r1
        · exact r2 e he
      · rcases r3 with r3 | r3
        · exact Or.inl r3
        · exact Or.inr (List.mem_cons_of_mem _ r3)

/-- The search for the most popular class returns `(-1, 0)` or an entry of the map, and
no entry has a greater count. -/
theorem mostPopular_spec (order : List (Int × Int)) :
    (∀ e ∈ order, e.2 ≤ (Predict.mostPopular order).2) ∧
    (Predict.mostPopular order = (-1, 0) ∨ Predict.mostPopular order ∈ order) := by
  have := foldl_mostPopular order (-1, 0)
  exact ⟨this.2.1, this.2.2⟩

theorem className_eq_empty (order : List (String × Int)) (classId : Int)
    (h : ∀ e ∈ order, e.2 ≠ classId) : Predict.className order classId = "" := by
  induction order with
  | nil => rfl
  | cons e order ih =>
    obtain ⟨c, i⟩ := e
    have hi : i ≠ classId := h (c, i) (by simp)
    simp only [Predict.className, hi, if_false]
    exact ih (fun e he => h e (by simp [he]))

theorem className_mem (order : List (String × Int)) (classId : Int)
    (h : classId ∈ order.map Prod.snd) : (Predict.className order classId, classId) ∈ order := by
  induction order with
  | nil => simp at h
  | cons e order ih =>
    obtain ⟨c, i⟩ := e
    by_cases hi : i = classId
    · subst hi
      simp [Predict.className]
    · simp only [Predict.className, hi, if_false]
      simp only [List.map_cons, List.mem_cons] at h
      rcases h with h | h
      · exact absurd h.symm hi
      · exact List.mem_cons_of_mem _ (ih h)

/-- The steps of `Predict.run`. -/
theorem run_eq_some (env : Env F) (knn : KNN F) (text : String) (k : Int) (o : Runtime F)
    (t : Predict.Trace F) (h : Predict.run env knn text k o = some t) :
    ∃ ns, t.knn = knn ∧ t.document = (newDocument env knn text false).2 ∧
      Predict.score env knn t.document (o.rangeTerms t.document.terms) = some t.similarities ∧
      Predict.collect knn (o.rangeSimilarities t.similarities) = some ns ∧
      t.neighbours = o.sort ns ∧
      t.classCount = Predict.countClasses t.neighbours k ∧
      t.classId = (Predict.mostPopular (o.rangeClassCount t.classCount)).1 ∧
      t.cls = Predict.className (o.rangeClasses knn.classes) t.classId := by
  unfold Predict.run at h
  simp only [Option.bind_eq_bind, Option.bind_eq_some, Option.pure_def, Option.some.injEq,
    newDocument_false_fst] at h
  obtain ⟨sims, hs, ns, hns, rfl⟩ := h
  exact ⟨ns, rfl, rfl, hs, hns, rfl, rfl, rfl, rfl⟩

/-- In a state that satisfies the invariant `Predict` runs to its end. -/
theorem run_isSome [LinearOrder F] (env : Env F) (knn : KNN F) (text : String) (k : Int)
    (o : Runtime F) (ho : o.Valid) (h : Inv knn) : ∃ t, Predict.run env knn text k o = some t := by
  obtain ⟨sims, hs⟩ := score_isSome env knn (newDocument env knn text false).2
    (o.rangeTerms (newDocument env knn text false).2.terms) (fun tw _ => postings_length_le h tw.1)
  obtain ⟨_, _, hlt⟩ := score_eq_some env knn _ _ sims hs
  obtain ⟨ns, hns⟩ := collect_isSome knn (o.rangeSimilarities sims) (by
    intro ds hds
    exact hlt ds.1 (List.mem_map.2 ⟨ds, (ho.rangeSimilarities sims).mem_iff.1 hds, rfl⟩))
  unfold Predict.run
  simp only [Option.bind_eq_bind, Option.pure_def, newDocument_false_fst]
  rw [hs]
  simp only [Option.some_bind]
  rw [hns]
  exact ⟨_, rfl⟩

end Voting

section Outcome
variable {F : Type}

theorem Runtime.inOrder_valid (F : Type) [LinearOrder F] : (Runtime.inOrder F).Valid := by
  constructor
  · exact fun m => List.Perm.refl m
  · exact fun m => List.Perm.refl m
  · exact fun ns => List.perm_insertionSort _ ns
  · intro ns
    have h : ∀ r : Neighbour F → Neighbour F → Prop, [DecidableRel r] → [IsTotal _ r] →
        [IsTrans _ r] → (List.insertionSort r ns).Pairwise r :=
      fun r _ _ _ => List.sorted_insertionSort r ns
    haveI : IsTotal (Neighbour F) (fun a b => b.similarity ≤ a.similarity) :=
      ⟨fun a b => le_total b.similarity a.similarity⟩
    haveI : IsTrans (Neighbour F) (fun a b => b.similarity ≤ a.similarity) :=
      ⟨fun a b c hab hbc => le_trans hbc hab⟩
    exact (h (fun a b => b.similarity ≤ a.similarity)).imp (fun hab => not_lt.2 hab)
  · exact fun m => List.Perm.refl m
  · exact fun m => List.Perm.refl m

theorem forall₂_mem_right {A B : Type} {R : A → B → Prop} {l₁ : List A} {l₂ : List B}
    (h : List.Forall₂ R l₁ l₂) : ∀ b ∈ l₂, ∃ a ∈ l₁, R a b := by
  induction h with
  | nil => simp
  | cons hab _ ih =>
    intro b hb
    rcases List.mem_cons.1 hb with rfl | hb
    · exact ⟨_, by simp, hab⟩
    · obtain ⟨a, ha, hr⟩ := ih b hb
      exact ⟨a, List.mem_cons_of_mem _ ha, hr⟩

theorem length_le_of_nodup_of_lt {l : List Nat} {n : Nat} (hn : l.Nodup) (h : ∀ x ∈ l, x < n) :
    l.length ≤ n := by
  have hs : l.toFinset ⊆ Finset.range n := by
    intro x hx
    exact Finset.mem_range.2 (h x (List.mem_toFinset.1 hx))
  have := Finset.card_le_card hs
  rwa [List.toFinset_card_of_nodup hn, Finset.card_range] at this

/-- The sorted list of neighbours is in non-increasing order of similarity, every
neighbour holds a stored document, and there are as many neighbours as scored
documents, which is at most the number of stored documents. -/
theorem run_neighbours [LinearOrder F] (env : Env F) (knn : KNN F) (text : String) (k : Int)
    (o : Runtime F) (ho : o.Valid) (t : Predict.Trace F)
    (h : Predict.run env knn text k o = some t) :
    t.neighbours.Pairwise (fun a b => b.similarity ≤ a.similarity) ∧
    (∀ nb ∈ t.neighbours, nb.document ∈ knn.documents) ∧
    t.neighbours.length = t.similarities.length ∧
    t.similarities.length ≤ knn.documents.length := by
  obtain ⟨ns, hk, hd, hs, hc, hn, hcc, hid, hcls⟩ := run_eq_some env knn text k o t h
  have hf := collect_eq_some knn _ ns hc
  obtain ⟨_, s2, s3⟩ := score_eq_some env knn _ _ _ hs
  refine ⟨?_, ?_, ?_, ?_⟩
  · rw [hn]
    exact (ho.sort_sorted ns).imp (fun hab => not_lt.1 hab)
  · intro nb hnb
    rw [hn] at hnb
    obtain ⟨ds, _, hds, _⟩ := forall₂_mem_right hf nb ((ho.sort_perm ns).mem_iff.1 hnb)
    exact List.getElem?_mem hds
  · rw [hn, (ho.sort_perm ns).length_eq, ← hf.length_eq,
      (ho.rangeSimilarities t.similarities).length_eq]
  · have := length_le_of_nodup_of_lt s2 s3
    simpa using this

theorem run_no_votes [LinearOrder F] (env : Env F) (knn : KNN F) (text : String) (k : Int)
    (o : Runtime F) (ho : o.Valid) (t : Predict.Trace F)
    (h : Predict.run env knn text k o = some t) (hV : t.neighbours.take k.toNat = []) :
    t.classCount = [] ∧ t.classId = -1 := by
  obtain ⟨ns, hk, hd, hs, hc, hn, hcc, hid, hcls⟩ := run_eq_some env knn text k o t h
  have hcc' : t.classCount = [] := by
    rw [hcc]
    unfold Predict.countClasses
    rw [hV]
    rfl
  refine ⟨hcc', ?_⟩
  rw [hid, hcc', (ho.rangeClassCount []).eq_nil]
  rfl

theorem run_cls_empty [LinearOrder F] (env : Env F) (knn : KNN F) (text : String) (k : Int)
    (o : Runtime F) (ho : o.Valid) (t : Predict.Trace F)
    (h : Predict.run env knn text k o = some t) (hid : t.classId = -1)
    (hc : ∀ e ∈ knn.classes, 0 ≤ e.2) : t.cls = "" := by
  obtain ⟨ns, _, _, _, _, _, _, _, hcls⟩ := run_eq_some env knn text k o t h
  rw [hcls, hid]
  apply className_eq_empty
  intro e he
  have := hc e ((ho.rangeClasses knn.classes).mem_iff.1 he)
  omega

theorem run_no_similarities [LinearOrder F] (env : Env F) (knn : KNN F) (text : String) (k : Int)
    (o : Runtime F) (ho : o.Valid) (t : Predict.Trace F)
    (h : Predict.run env knn text k o = some t)
    (hp : ∀ tw ∈ t.document.terms, lookupD knn.postings tw.1 [] = []) :
    t.similarities = [] ∧ t.neighbours = [] := by
  obtain ⟨ns, hk, hd, hs, hc, hn, hcc, hid, hcls⟩ := run_eq_some env knn text k o t h
  obtain ⟨s1, _, _⟩ := score_eq_some env knn _ _ _ hs
  have hsims : t.similarities = [] := by
    apply List.eq_nil_iff_forall_not_mem.2
    intro ds hds
    obtain ⟨tw, htw, hlt⟩ := (s1 ds.1).1 (List.mem_map.2 ⟨ds, hds, rfl⟩)
    rw [hp tw ((ho.rangeTerms _).mem_iff.1 htw)] at hlt
    simp at hlt
  refine ⟨hsims, ?_⟩
  rw [hsims, (ho.rangeSimilarities []).eq_nil] at hc
  have : ns = [] := by
    unfold Predict.collect at hc
    simpa using hc.symm
  rw [hn, this, (ho.sort_perm []).eq_nil]

theorem Predict_eq_of_run (env : Env F) (knn : KNN F) (text : String) (k : Int)
    (o : Runtime F) (t : Predict.Trace F) (h : Predict.run env knn text k o = some t) :
    Predict env knn text k o = some (t.knn, t.cls) := by
  unfold Predict
  rw [h]
  rfl

theorem foldl_step_false_absent (env : Env F) (ws : List String)
    (st : List (String × Int) × List (Int × Int))
    (hw : ∀ w ∈ ws, lookup st.1 (env.StemString w) = none)
    (ht : ∀ k ∈ st.2.map Prod.fst, k = -1) :
    ∀ k ∈ (ws.foldl (newDocument.step env false) st).2.map Prod.fst, k = -1 := by
  induction ws generalizing st with
  | nil => exact ht
  | cons w ws ih =>
    rw [List.foldl_cons]
    have hstep : newDocument.step env false st w = (st.1, increment st.2 (-1)) := by
      unfold newDocument.step
      simp [hw w (by simp)]
    rw [hstep]
    refine ih _ (fun w' hw' => hw w' (by simp [hw'])) ?_
    intro k hk
    rcases (mem_keys_increment _ _ _).1 hk with rfl | hk
    · rfl
    · exact ht k hk

theorem lookupD_postings_neg {knn : KNN F} (h : Inv knn) :
    lookupD knn.postings (-1) [] = [] := by
  unfold lookupD
  have : lookup knn.postings (-1) = none := by
    rw [lookup_eq_none_iff]
    intro hmem
    obtain ⟨e, he, h1⟩ := List.mem_map.1 hmem
    have := h.postings_nonneg e he
    omega
  rw [this]
  rfl

end Outcome

section General
variable {F : Type}

/-- C5 (majority vote). Let `V` be the first `min(k, n)` entries of the sorted
neighbour list of a call of `Predict` (`n` scored documents). For every legal
choice of the runtime, the selected class id occurs in `V` at least as often as
any other class id; it is `-1` when `V` is empty, and in a reachable state only
then. -/
theorem Predict_majority_vote [LinearOrder F] (env : Env F) (knn : KNN F) (text : String)
    (k : Int) (o : Runtime F) (ho : o.Valid) (t : Predict.Trace F)
    (h : Predict.run env knn text k o = some t) :
    t.neighbours.Pairwise (fun a b => b.similarity ≤ a.similarity) ∧
    (t.neighbours.take k.toNat).length = min k.toNat t.similarities.length ∧
    (∀ c, List.count c ((t.neighbours.take k.toNat).map (fun n => n.document.classId)) ≤
      List.count t.classId ((t.neighbours.take k.toNat).map (fun n => n.document.classId))) ∧
    (t.neighbours.take k.toNat = [] → t.classId = -1) ∧
    (Reachable env knn → t.classId = -1 → t.neighbours.take k.toNat = []) := by
  obtain ⟨n1, n2, n3, _⟩ := run_neighbours env knn text k o ho t h
  obtain ⟨ns, hk, hd, hs, hc, hn, hcc, hid, hcls⟩ := run_eq_some env knn text k o t h
  obtain ⟨c1, c2, c3⟩ := countClasses_spec t.neighbours k
  obtain ⟨m1, m2⟩ := mostPopular_spec (o.rangeClassCount t.classCount)
  have hperm := ho.rangeClassCount t.classCount
  rw [← hcc] at c1 c2 c3
  -- every entry of `classCount` counts at least one vote
  have hpos : ∀ e ∈ t.classCount, 1 ≤ e.2 := by
    intro e he
    have hmem := (c2 e.1).1 (List.mem_map.2 ⟨e, he, rfl⟩)
    have := List.count_pos_iff.2 hmem
    rw [c3 e he]
    exact_mod_cast this
  -- a selected entry of `classCount` is a class of `V`
  have hsel : Predict.mostPopular (o.rangeClassCount t.classCount) ∈ t.classCount →
      t.classId ∈ (t.neighbours.take k.toNat).map (fun n => n.document.classId) := by
    intro hb
    rw [hid]
    exact (c2 _).1 (List.mem_map.2 ⟨_, hb, rfl⟩)
  refine ⟨n1, by rw [List.length_take, n3], ?_, ?_, ?_⟩
  · intro c
    by_cases hcmem : c ∈ (t.neighbours.take k.toNat).map (fun n => n.document.classId)
    · obtain ⟨e, he, rfl⟩ := List.mem_map.1 ((c2 c).2 hcmem)
      have hle := m1 e (hperm.mem_iff.2 he)
      rcases m2 with m2 | m2
      · have := hpos e he
        rw [m2] at hle
        simp only at hle
        omega
      · have hb := hperm.mem_iff.1 m2
        have h1 := c3 e he
        have h2 := c3 _ hb
        rw [h1, h2, ← hid] at hle
        exact_mod_cast hle
    · rw [List.count_eq_zero.2 hcmem]
      exact Nat.zero_le _
  · exact fun hV => (run_no_votes env knn text k o ho t h hV).2
  · intro hr hneg
    by_contra hV
    obtain ⟨nb, hnb⟩ := List.exists_mem_of_ne_nil _ hV
    have hvote : nb.document.classId ∈
        (t.neighbours.take k.toNat).map (fun n => n.document.classId) :=
      List.mem_map.2 ⟨nb, hnb, rfl⟩
    obtain ⟨e, he, _⟩ := List.mem_map.1 ((c2 _).2 hvote)
    have hle := m1 e (hperm.mem_iff.2 he)
    have h1 := hpos e he
    rcases m2 with m2 | m2
    · rw [m2] at hle
      simp only at hle
      omega
    · have := hsel (hperm.mem_iff.1 m2)
      rw [hneg] at this
      obtain ⟨nb', hnb', hcl⟩ := List.mem_map.1 this
      have hdoc := n2 nb' (List.mem_of_mem_take hnb')
      have := (inv_of_reachable env hr).documents_nonneg _ hdoc
      omega

/-- C6 (no shared term). In a reachable state, when no word of the text has its
stem in the dictionary, `Predict` returns the empty string, for every `k` and every
legal choice of the runtime, without an index out of range. -/
theorem Predict_unknown_stems [LinearOrder F] (env : Env F) (knn : KNN F) (text : String)
    (k : Int) (o : Runtime F) (hr : Reachable env knn) (ho : o.Valid)
    (habs : ∀ w ∈ FieldsFunc text (isAlphaNum env),
      lookup knn.dictionary (env.StemString w) = none) :
    Predict env knn text k o = some (knn, "") := by
  have hinv := inv_of_reachable env hr
  obtain ⟨t, ht⟩ := run_isSome env knn text k o ho hinv
  obtain ⟨ns, hk, hd, _⟩ := run_eq_some env knn text k o t ht
  have hkeys : ∀ tw ∈ t.document.terms, lookupD knn.postings tw.1 [] = [] := by
    intro tw htw
    have h1 : tw.1 ∈ (newDocument.count env knn.dictionary text false).2.map Prod.fst := by
      rw [hd] at htw
      exact (mem_keys_normalize env _ _ _).1 (List.mem_map.2 ⟨tw, htw, rfl⟩)
    have h2 := foldl_step_false_absent env (FieldsFunc text (isAlphaNum env))
      (knn.dictionary, []) habs (by simp) tw.1 h1
    rw [h2]
    exact lookupD_postings_neg hinv
  obtain ⟨_, hnb⟩ := run_no_similarities env knn text k o ho t ht hkeys
  have hid := (run_no_votes env knn text k o ho t ht (by rw [hnb]; simp)).2
  have hcls := run_cls_empty env knn text k o ho t ht hid hinv.classes_nonneg
  rw [Predict_eq_of_run env knn text k o t ht, hk, hcls]

/-- C7 (untrained classifier). On the state `NewKNN()`, `Predict` returns the empty
string for every text, every `k` and every legal choice of the runtime, without an
index out of range. -/
theorem Predict_untrained [LinearOrder F] (env : Env F) (text : String) (k : Int)
    (o : Runtime F) (ho : o.Valid) :
    Predict env NewKNN text k o = some (NewKNN, "") := by
  obtain ⟨t, ht⟩ := run_isSome env NewKNN text k o ho inv_new
  obtain ⟨ns, hk, _⟩ := run_eq_some env NewKNN text k o t ht
  obtain ⟨_, hnb⟩ := run_no_similarities env NewKNN text k o ho t ht (fun _ _ => rfl)
  have hid := (run_no_votes env NewKNN text k o ho t ht (by rw [hnb]; simp)).2
  have hcls := run_cls_empty env NewKNN text k o ho t ht hid inv_new.classes_nonneg
  rw [Predict_eq_of_run env NewKNN text k o t ht, hk, hcls]

/-- C8 (non-positive `k`). In a reachable state and for `k ≤ 0`, `Predict` returns
the empty string for every text and every legal choice of the runtime: no neighbour
votes, the selected class id stays `-1`, and no registered label has the id `-1`. -/
theorem Predict_nonpositive_k [LinearOrder F] (env : Env F) (knn : KNN F) (text : String)
    (k : Int) (o : Runtime F) (hr : Reachable env knn) (ho : o.Valid) (hk : k ≤ 0) :
    Predict env knn text k o = some (knn, "") ∧
    (∀ t, Predict.run env knn text k o = some t → t.classCount = [] ∧ t.classId = -1) ∧
    (∀ e ∈ knn.classes, e.2 ≠ -1) := by
  have hinv := inv_of_reachable env hr
  have hV : ∀ t : Predict.Trace F, t.neighbours.take k.toNat = [] := by
    intro t
    rw [Int.toNat_eq_zero.2 hk]
    rfl
  refine ⟨?_, fun t ht => run_no_votes env knn text k o ho t ht (hV t), ?_⟩
  · obtain ⟨t, ht⟩ := run_isSome env knn text k o ho hinv
    obtain ⟨ns, hknn, _⟩ := run_eq_some env knn text k o t ht
    have hid := (run_no_votes env knn text k o ho t ht (hV t)).2
    have hcls := run_cls_empty env knn text k o ho t ht hid hinv.classes_nonneg
    rw [Predict_eq_of_run env knn text k o t ht, hknn, hcls]
  · intro e he
    have := hinv.classes_nonneg e he
    omega

theorem countClasses_of_length_le (ns : List (Neighbour F)) (k : Int)
    (h : (ns.length : Int) ≤ k) : Predict.countClasses ns k = Predict.countClasses ns ns.length := by
  unfold Predict.countClasses
  rw [List.take_of_length_le (by omega), List.take_of_length_le (by simp)]

/-- For `k` above the number of stored documents a call of `Predict` computes what
the call with `k` equal to that number computes. -/
theorem run_k_bounding [LinearOrder F] (env : Env F) (knn : KNN F) (text : String)
    (k : Int) (o : Runtime F) (ho : o.Valid) (hk : (knn.documents.length : Int) < k) :
    Predict.run env knn text k o = Predict.run env knn text knn.documents.length o := by
  unfold Predict.run
  simp only [Option.bind_eq_bind, Option.pure_def, newDocument_false_fst]
  cases hs : Predict.score env knn (newDocument env knn text false).2
      (o.rangeTerms (newDocument env knn text false).2.terms) with
  | none => rfl
  | some sims =>
    simp only [Option.some_bind]
    cases hc : Predict.collect knn (o.rangeSimilarities sims) with
    | none => rfl
    | some ns =>
      simp only [Option.some_bind]
      obtain ⟨_, s2, s3⟩ := score_eq_some env knn _ _ _ hs
      have hlen : (o.sort ns).length ≤ knn.documents.length := by
        rw [(ho.sort_perm ns).length_eq, ← (collect_eq_some knn _ ns hc).length_eq,
          (ho.rangeSimilarities sims).length_eq]
        simpa using length_le_of_nodup_of_lt s2 s3
      have e1 := countClasses_of_length_le (o.sort ns) k (by omega)
      have e2 := countClasses_of_length_le (o.sort ns) knn.documents.length (by omega)
      rw [e1, e2]

/-- C9 (`k` bounding). With `n` stored documents and `k > n`, `Predict(text, k)` and
`Predict(text, n)` give the same result under every legal choice of the runtime, so
the labels they can return are the same; the neighbour list has at most `n`
entries, and in a reachable state the call returns. -/
theorem Predict_k_bounding [LinearOrder F] (env : Env F) (knn : KNN F) (text : String)
    (k : Int) (hk : (knn.documents.length : Int) < k) :
    (∀ o : Runtime F, o.Valid →
      Predict env knn text k o = Predict env knn text knn.documents.length o) ∧
    (∀ label, (∃ o : Runtime F, o.Valid ∧ Predict env knn text k o = some (knn, label)) ↔
      (∃ o : Runtime F, o.Valid ∧
        Predict env knn text knn.documents.length o = some (knn, label))) ∧
    (∀ (o : Runtime F) (t : Predict.Trace F), o.Valid →
      Predict.run env knn text k o = some t → t.neighbours.length ≤ knn.documents.length) ∧
    (Reachable env knn → ∀ o : Runtime F, o.Valid →
      ∃ label, Predict env knn text k o = some (knn, label)) := by
  have hpt : ∀ o : Runtime F, o.Valid →
      Predict env knn text k o = Predict env knn text knn.documents.length o := by
    intro o ho
    unfold Predict
    rw [run_k_bounding env knn text k o ho hk]
  refine ⟨hpt, ?_, ?_, ?_⟩
  · intro label
    constructor
    · rintro ⟨o, ho, h⟩
      exact ⟨o, ho, by rw [← hpt o ho]; exact h⟩
    · rintro ⟨o, ho, h⟩
      exact ⟨o, ho, by rw [hpt o ho]; exact h⟩
  · intro o t ho ht
    obtain ⟨_, _, n3, n4⟩ := run_neighbours env knn text k o ho t ht
    omega
  · intro hr o ho
    obtain ⟨t, ht⟩ := run_isSome env knn text k o ho (inv_of_reachable env hr)
    obtain ⟨ns, hknn, _⟩ := run_eq_some env knn text k o t ht
    exact ⟨t.cls, by rw [Predict_eq_of_run env knn text k o t ht, hknn]⟩

/-- C10 (prediction is read-only). For every state, text, `k` and choice of the
runtime, the state after `Predict` is the state before it: dictionary, classes,
documents and postings are unchanged. In particular `newDocument` without
`addTerms` leaves the dictionary as it is. In a reachable state the call returns. -/
theorem Predict_read_only [LinearOrder F] (env : Env F) (knn : KNN F) (text : String)
    (k : Int) (o : Runtime F) :
    (∀ r, Predict env knn text k o = some r → r.1 = knn) ∧
    (newDocument env knn text false).1 = knn ∧
    (Reachable env knn → o.Valid → ∃ label, Predict env knn text k o = some (knn, label)) := by
  refine ⟨fun r hr => Predict_fst env knn text k o r hr, newDocument_false_fst env knn text, ?_⟩
  intro hr ho
  obtain ⟨t, ht⟩ := run_isSome env knn text k o ho (inv_of_reachable env hr)
  obtain ⟨ns, hknn, _⟩ := run_eq_some env knn text k o t ht
  exact ⟨t.cls, by rw [Predict_eq_of_run env knn text k o t ht, hknn]⟩

end General

section Tokens
variable {F : Type}

theorem FieldsFunc.loop_congr (f g : Char → Bool) (cs cur : List Char)
    (h : ∀ c ∈ cs, f c = g c) : FieldsFunc.loop f cs cur = FieldsFunc.loop g cs cur := by
  induction cs generalizing cur with
  | nil => rfl
  | cons c cs ih =>
    have hc : f c = g c := h c (by simp)
    have ih' := fun cur => ih cur (fun c' hc' => h c' (by simp [hc']))
    simp only [FieldsFunc.loop, hc, ih']

theorem FieldsFunc_ascii (env : Env F) (h : env.Ascii) (text : String)
    (ht : ∀ c ∈ text.toList, c.toNat < 128) :
    FieldsFunc text (isAlphaNum env) = FieldsFunc text (fun c => !c.isAlpha && !c.isDigit) := by
  unfold FieldsFunc
  apply FieldsFunc.loop_congr
  intro c hc
  unfold isAlphaNum
  rw [(h c (ht c hc)).1, (h c (ht c hc)).2]

end Tokens

section Scenario
variable {F : Type}

theorem train_eq (env : Env F) (knn : KNN F) (text cls : String) (tokens : List String)
    (htok : FieldsFunc text (isAlphaNum env) = tokens) :
    Train env knn text cls =
      { dictionary := (tokens.foldl (newDocument.step env true) (knn.dictionary, [])).1
        postings := Train.post knn.postings
          (newDocument.normalize env
            (tokens.foldl (newDocument.step env true) (knn.dictionary, [])).2
            (newDocument.magnitude env
              (tokens.foldl (newDocument.step env true) (knn.dictionary, [])).2))
          knn.documents.length
        classes := Train.register knn.classes cls
        documents := knn.documents ++ [{
          classId := lookupD (Train.register knn.classes cls) cls 0
          terms := newDocument.normalize env
            (tokens.foldl (newDocument.step env true) (knn.dictionary, [])).2
            (newDocument.magnitude env
              (tokens.foldl (newDocument.step env true) (knn.dictionary, [])).2) }] } := by
  subst htok
  simp [Train, newDocument, newDocument.count]

theorem query_eq (env : Env F) (knn : KNN F) (text : String) (tokens : List String)
    (htok : FieldsFunc text (isAlphaNum env) = tokens) :
    (newDocument env knn text false).2 =
      { classId := -1
        terms := newDocument.normalize env
          (tokens.foldl (newDocument.step env false) (knn.dictionary, [])).2
          (newDocument.magnitude env
            (tokens.foldl (newDocument.step env false) (knn.dictionary, [])).2) } := by
  subst htok
  simp [newDocument, newDocument.count]

theorem eq_singleton_of_nodup {l : List Nat} {p : Nat} (hn : l.Nodup) (h : ∀ j, j ∈ l ↔ j = p) :
    l = [p] :=
  List.perm_singleton.1
    ((List.perm_ext_iff_of_nodup hn (List.nodup_singleton p)).2 (fun j => by simpa using h j))

theorem eq_singleton_of_keys {V : Type} {m : List (Nat × V)} {p : Nat}
    (h : m.map Prod.fst = [p]) : ∃ v, m = [(p, v)] := by
  match m, h with
  | [(p', v)], h =>
    simp only [List.map_cons, List.map_nil, List.cons.injEq, and_true] at h
    exact ⟨v, by rw [h]⟩

/-- When the indices the scoring loop visits are the single index `p`, the document at
position `p` is the only neighbour. -/
theorem run_single [LinearOrder F] (env : Env F) (knn : KNN F) (text : String) (k : Int)
    (o : Runtime F) (ho : o.Valid) (t : Predict.Trace F)
    (h : Predict.run env knn text k o = some t) (p : Nat)
    (hkeys : ∀ j, (∃ tw ∈ t.document.terms, j < (lookupD knn.postings tw.1 []).length) ↔ j = p) :
    ∃ d v, knn.documents[p]? = some d ∧ t.similarities = [(p, v)] ∧
      t.neighbours = [{ document := d, similarity := v }] ∧ (0 < k → t.classId = d.classId) := by
  obtain ⟨ns, hk, hd, hs, hc, hn, hcc, hid, hcls⟩ := run_eq_some env knn text k o t h
  obtain ⟨s1, s2, _⟩ := score_eq_some env knn _ _ _ hs
  have hkeys' : t.similarities.map Prod.fst = [p] := by
    apply eq_singleton_of_nodup s2
    intro j
    rw [s1, ← hkeys]
    constructor
    · rintro ⟨tw, htw, hlt⟩
      exact ⟨tw, (ho.rangeTerms _).mem_iff.1 htw, hlt⟩
    · rintro ⟨tw, htw, hlt⟩
      exact ⟨tw, (ho.rangeTerms _).mem_iff.2 htw, hlt⟩
  obtain ⟨v, hsims⟩ := eq_singleton_of_keys hkeys'
  rw [hsims, List.perm_singleton.1 (ho.rangeSimilarities _)] at hc
  have hf := collect_eq_some knn _ ns hc
  obtain ⟨nb, l, ⟨hdoc, hsim⟩, hl, rfl⟩ := List.forall₂_cons_left_iff.1 hf
  have hl' : l = [] := by simpa using hl
  subst hl'
  have hnb : nb = { document := nb.document, similarity := v } := by
    cases nb
    simp only at hsim
    simp [hsim]
  rw [List.perm_singleton.1 (ho.sort_perm _)] at hn
  refine ⟨nb.document, v, hdoc, hsims, by rw [hn]; exact congrArg (fun x => [x]) hnb, ?_⟩
  intro hk0
  have hk1 : k.toNat = (k.toNat - 1) + 1 := by omega
  have hcount : t.classCount = [(nb.document.classId, 1)] := by
    rw [hcc, hn]
    unfold Predict.countClasses
    rw [hk1]
    simp [store, lookupD, lookup]
  rw [hid, hcount, List.perm_singleton.1 (ho.rangeClassCount _)]
  simp [Predict.mostPopular]

theorem className_of_unique (order : List (String × Int)) (classId : Int) (c : String)
    (hmem : (c, classId) ∈ order) (huniq : ∀ e ∈ order, e.2 = classId → e.1 = c) :
    Predict.className order classId = c :=
  huniq _ (className_mem order classId (List.mem_map.2 ⟨_, hmem, rfl⟩)) rfl

theorem scenario_eq (env : Env F) (h : env.Ascii)
    (hs : (["cats", "are", "great", "dogs", "stocks", "rose", "today", "and"].map
      env.StemString).Nodup) :
    scenario env =
      { dictionary := [(env.StemString "cats", 0), (env.StemString "are", 1),
          (env.StemString "great", 2), (env.StemString "dogs", 3), (env.StemString "stocks", 4),
          (env.StemString "rose", 5), (env.StemString "today", 6)]
        postings := [(0, [0]), (1, [0, 1]), (2, [0, 1]), (3, [1]), (4, [2]), (5, [2]), (6, [2])]
        classes := [("animal", 0), ("finance", 1)]
        documents := [
          { classId := 0
            terms := newDocument.normalize env [(0, 1), (1, 1), (2, 1)]
              (newDocument.magnitude env [(0, 1), (1, 1), (2, 1)]) },
          { classId := 0
            terms := newDocument.normalize env [(3, 1), (1, 1), (2, 1)]
              (newDocument.magnitude env [(3, 1), (1, 1), (2, 1)]) },
          { classId := 1
            terms := newDocument.normalize env [(4, 1), (5, 1), (6, 1)]
              (newDocument.magnitude env [(4, 1), (5, 1), (6, 1)]) }] } := by
  have t1 : FieldsFunc "cats are great" (isAlphaNum env) = ["cats", "are", "great"] := by
    rw [FieldsFunc_ascii env h _ (by decide)]; decide
  have t2 : FieldsFunc "dogs are great" (isAlphaNum env) = ["dogs", "are", "great"] := by
    rw [FieldsFunc_ascii env h _ (by decide)]; decide
  have t3 : FieldsFunc "stocks rose today" (isAlphaNum env) = ["stocks", "rose", "today"] := by
    rw [FieldsFunc_ascii env h _ (by decide)]; decide
  simp only [List.map_cons, List.map_nil, List.nodup_cons, List.mem_cons, List.mem_singleton,
    not_or, List.not_mem_nil, not_false_eq_true, List.nodup_nil, and_true] at hs
  obtain ⟨⟨h12, h13, h14, h15, h16, h17, h18⟩, ⟨h23, h24, h25, h26, h27, h28⟩,
    ⟨h34, h35, h36, h37, h38⟩, ⟨h45, h46, h47, h48⟩, ⟨h56, h57, h58⟩, ⟨h67, h68⟩, h78⟩ := hs
  unfold scenario
  rw [train_eq env _ _ _ _ t3, train_eq env _ _ _ _ t2, train_eq env _ _ _ _ t1]
  simp [newDocument.step, NewKNN, lookup, store, increment, lookupD, newDocument.normalize,
    Train.post, Train.register, *, Ne.symm]

theorem scenario_reachable (env : Env F) : Reachable env (scenario env) :=
  Reachable.train _ _ (Reachable.train _ _ (Reachable.train _ _ Reachable.new))

/-- C1 (concrete scenario). After `Train("cats are great", "animal")`,
`Train("dogs are great", "animal")` and `Train("stocks rose today", "finance")` on a
new classifier, `Predict("cats and dogs", 1)` returns `"animal"` for every legal choice
of the runtime (map-iteration orders and sort outcome) and every arithmetic, when the
stemmer sends the eight words to eight different stems and the ASCII letters and
digits are the ASCII characters that `unicode.IsLetter` and `unicode.IsNumber` accept. -/
theorem Predict_scenario [LinearOrder F] (env : Env F) (o : Runtime F) (h : env.Ascii)
    (hs : (["cats", "are", "great", "dogs", "stocks", "rose", "today", "and"].map
      env.StemString).Nodup)
    (ho : o.Valid) :
    Predict env (scenario env) "cats and dogs" 1 o = some (scenario env, "animal") := by
  obtain ⟨t, ht⟩ := run_isSome env (scenario env) "cats and dogs" 1 o ho
    (inv_of_reachable env (scenario_reachable env))
  obtain ⟨ns, hknn, hdoc, _, _, _, _, _, hcls⟩ := run_eq_some env _ _ _ o t ht
  have hS := scenario_eq env h hs
  have tq : FieldsFunc "cats and dogs" (isAlphaNum env) = ["cats", "and", "dogs"] := by
    rw [FieldsFunc_ascii env h _ (by decide)]; decide
  simp only [List.map_cons, List.map_nil, List.nodup_cons, List.mem_cons, List.mem_singleton,
    not_or, List.not_mem_nil, not_false_eq_true, List.nodup_nil, and_true] at hs
  obtain ⟨⟨h12, h13, h14, h15, h16, h17, h18⟩, ⟨h23, h24, h25, h26, h27, h28⟩,
    ⟨h34, h35, h36, h37, h38⟩, ⟨h45, h46, h47, h48⟩, ⟨h56, h57, h58⟩, ⟨h67, h68⟩, h78⟩ := hs
  have hq : t.document.terms.map Prod.fst = [0, -1, 3] := by
    rw [hdoc, query_eq env _ _ _ tq, hS]
    simp [newDocument.step, lookup, store, increment, lookupD, newDocument.normalize, *, Ne.symm]
  obtain ⟨d, v, hd, _, _, hid⟩ := run_single env _ _ _ o ho t ht 0 (by
    intro j
    have : ∀ P : Int → Prop, (∃ tw ∈ t.document.terms, P tw.1) ↔
        ∃ i ∈ t.document.terms.map Prod.fst, P i := by
      intro P
      simp
    rw [this (fun i => j < (lookupD (scenario env).postings i []).length), hq, hS]
    simp [lookupD, lookup])
  have hd0 : d.classId = 0 := by
    rw [hS] at hd
    simp at hd
    rw [← hd]
  have hcls' : t.cls = "animal" := by
    rw [hcls, hid (by decide), hd0]
    apply className_of_unique
    · exact (ho.rangeClasses _).mem_iff.2 (by rw [hS]; simp)
    · intro e he
      have := (ho.rangeClasses _).mem_iff.1 he
      rw [hS] at this
      simp at this
      rcases this with rfl | rfl <;> simp
  rw [Predict_eq_of_run env _ _ _ o t ht, hknn, hcls']

end Scenario

section TrainedPairs
variable {F : Type}

theorem perm_pair {A : Type} {l : List A} {a b : A} (h : l.Perm [a, b]) :
    l = [a, b] ∨ l = [b, a] := by
  obtain ⟨s, r, rfl⟩ := List.append_of_mem (h.mem_iff.2 (List.mem_cons_self a [b]))
  have h' : (s ++ r).Perm [b] := (List.perm_middle.symm.trans h).cons_inv
  have h'' := List.perm_singleton.1 h'
  cases s with
  | nil =>
    simp only [List.nil_append] at h''
    simp [h'']
  | cons x s =>
    simp only [List.cons_append, List.cons.injEq, List.append_eq_nil] at h''
    obtain ⟨rfl, rfl, rfl⟩ := h''
    simp

theorem trainedPairs_eq (env : Env F) (h : env.Ascii)
    (hs : (["a", "b", "c", "d"].map env.StemString).Nodup) :
    trainedPairs env =
      { dictionary := [(env.StemString "a", 0), (env.StemString "b", 1),
          (env.StemString "c", 2), (env.StemString "d", 3)]
        postings := [(0, [0]), (1, [0]), (2, [1]), (3, [1])]
        classes := [("x", 0), ("y", 1)]
        documents := [
          { classId := 0
            terms := newDocument.normalize env [(0, 1), (1, 1)]
              (newDocument.magnitude env [(0, 1), (1, 1)]) },
          { classId := 1
            terms := newDocument.normalize env [(2, 1), (3, 1)]
              (newDocument.magnitude env [(2, 1), (3, 1)]) }] } := by
  have t1 : FieldsFunc "a b" (isAlphaNum env) = ["a", "b"] := by
    rw [FieldsFunc_ascii env h _ (by decide)]; decide
  have t2 : FieldsFunc "c d" (isAlphaNum env) = ["c", "d"] := by
    rw [FieldsFunc_ascii env h _ (by decide)]; decide
  simp only [List.map_cons, List.map_nil, List.nodup_cons, List.mem_cons, List.mem_singleton,
    not_or, List.not_mem_nil, not_false_eq_true, List.nodup_nil, and_true] at hs
  obtain ⟨⟨h12, h13, h14⟩, ⟨h23, h24⟩, h34⟩ := hs
  unfold trainedPairs
  rw [train_eq env _ _ _ _ t2, train_eq env _ _ _ _ t1]
  simp [newDocument.step, NewKNN, lookup, store, increment, lookupD, newDocument.normalize,
    Train.post, Train.register, *, Ne.symm]

theorem trainedNested_eq (env : Env F) (h : env.Ascii)
    (hs : env.StemString "a" ≠ env.StemString "b") :
    trainedNested env =
      { dictionary := [(env.StemString "a", 0), (env.StemString "b", 1)]
        postings := [(0, [0, 1]), (1, [1])]
        classes := [("x", 0), ("y", 1)]
        documents := [
          { classId := 0
            terms := newDocument.normalize env [(0, 1)] (newDocument.magnitude env [(0, 1)]) },
          { classId := 1
            terms := newDocument.normalize env [(0, 1), (1, 1)]
              (newDocument.magnitude env [(0, 1), (1, 1)]) }] } := by
  have t1 : FieldsFunc "a" (isAlphaNum env) = ["a"] := by
    rw [FieldsFunc_ascii env h _ (by decide)]; decide
  have t2 : FieldsFunc "a b" (isAlphaNum env) = ["a", "b"] := by
    rw [FieldsFunc_ascii env h _ (by decide)]; decide
  unfold trainedNested
  rw [train_eq env _ _ _ _ t2, train_eq env _ _ _ _ t1]
  simp [newDocument.step, NewKNN, lookup, store, increment, lookupD, newDocument.normalize,
    Train.post, Train.register, hs, Ne.symm hs]

theorem trainedDisjoint_eq (env : Env F) (h : env.Ascii)
    (hs : env.StemString "a" ≠ env.StemString "b") :
    trainedDisjoint env =
      { dictionary := [(env.StemString "a", 0), (env.StemString "b", 1)]
        postings := [(0, [0]), (1, [1])]
        classes := [("x", 0), ("y", 1)]
        documents := [
          { classId := 0
            terms := newDocument.normalize env [(0, 1)] (newDocument.magnitude env [(0, 1)]) },
          { classId := 1
            terms := newDocument.normalize env [(1, 1)] (newDocument.magnitude env [(1, 1)]) }] } := by
  have t1 : FieldsFunc "a" (isAlphaNum env) = ["a"] := by
    rw [FieldsFunc_ascii env h _ (by decide)]; decide
  have t2 : FieldsFunc "b" (isAlphaNum env) = ["b"] := by
    rw [FieldsFunc_ascii env h _ (by decide)]; decide
  unfold trainedDisjoint
  rw [train_eq env _ _ _ _ t2, train_eq env _ _ _ _ t1]
  simp [newDocument.step, NewKNN, lookup, store, increment, lookupD, newDocument.normalize,
    Train.post, Train.register, hs, Ne.symm hs]

/-- The values of `Predict("c d", k)` in the state `trainedPairs env`: the only scored
index is `0`, with two products whose first factor is the zero value of an absent
term. -/
theorem run_trainedPairs [LinearOrder F] (env : Env F) (o : Runtime F) (k : Int)
    (h : env.Ascii) (hs : (["a", "b", "c", "d"].map env.StemString).Nodup) (ho : o.Valid)
    (t : Predict.Trace F) (ht : Predict.run env (trainedPairs env) "c d" k o = some t) :
    t.neighbours = [{
      document := { classId := 0
                    terms := newDocument.normalize env [(0, 1), (1, 1)]
                      (newDocument.magnitude env [(0, 1), (1, 1)]) }
      similarity := env.add
        (env.add (env.float64 0) (env.mul (env.float64 0)
          (env.div (env.float64 1) (newDocument.magnitude env [(2, 1), (3, 1)]))))
        (env.mul (env.float64 0)
          (env.div (env.float64 1) (newDocument.magnitude env [(2, 1), (3, 1)]))) }] ∧
    (0 < k → t.classId = 0) := by
  have hS := trainedPairs_eq env h hs
  have tq : FieldsFunc "c d" (isAlphaNum env) = ["c", "d"] := by
    rw [FieldsFunc_ascii env h _ (by decide)]; decide
  simp only [List.map_cons, List.map_nil, List.nodup_cons, List.mem_cons, List.mem_singleton,
    not_or, List.not_mem_nil, not_false_eq_true, List.nodup_nil, and_true] at hs
  obtain ⟨⟨h12, h13, h14⟩, ⟨h23, h24⟩, h34⟩ := hs
  obtain ⟨ns, hknn, hdoc, hscore, _⟩ := run_eq_some env _ _ _ o t ht
  have hq : t.document.terms =
      [(2, env.div (env.float64 1) (newDocument.magnitude env [(2, 1), (3, 1)])),
       (3, env.div (env.float64 1) (newDocument.magnitude env [(2, 1), (3, 1)]))] := by
    rw [hdoc, query_eq env _ _ _ tq, hS]
    simp [newDocument.step, lookup, store, increment, lookupD, newDocument.normalize, *,
      Ne.symm, -Prod.mk_one_one]
  obtain ⟨d, v, hd, hsims, hnb, hid⟩ := run_single env _ _ _ o ho t ht 0 (by
    intro j
    rw [hq, hS]
    simp [lookupD, lookup])
  have hr1 : List.range 1 = [0] := rfl
  have hperm := ho.rangeTerms t.document.terms
  rw [hS] at hscore hd
  rw [hq] at hperm hscore
  simp only [List.getElem?_cons_zero, Option.some.injEq] at hd
  subst hd
  have hv : v = env.add
      (env.add (env.float64 0) (env.mul (env.float64 0)
        (env.div (env.float64 1) (newDocument.magnitude env [(2, 1), (3, 1)]))))
      (env.mul (env.float64 0)
        (env.div (env.float64 1) (newDocument.magnitude env [(2, 1), (3, 1)]))) := by
    rcases perm_pair hperm with hord | hord
    · rw [hord, hsims] at hscore
      simp [Predict.score, Predict.scoreTerm, Predict.scoreDoc, lookupD, lookup, store,
        newDocument.normalize, hr1, hq, -Prod.mk_one_one] at hscore
      exact hscore.symm
    · rw [hord, hsims] at hscore
      simp [Predict.score, Predict.scoreTerm, Predict.scoreDoc, lookupD, lookup, store,
        newDocument.normalize, hr1, hq, -Prod.mk_one_one] at hscore
      exact hscore.symm
  subst hv
  exact ⟨hnb, hid⟩

/-- C2 (self-similarity), the program at `NewKNN(); Train("a b", "x");
Train("c d", "y"); Predict("c d", 1)`: for every legal choice of the runtime the
neighbour list holds the first document alone, with a similarity `0 + 0 * q + 0 * q`,
which is the zero of the arithmetic when `0 * x = 0` and `0 + 0 = 0`; the document
just trained (the last of the corpus) is not in the list, and `Predict` returns `"x"`,
not the label `"y"` of the text just trained. -/
theorem Predict_trainedPairs [LinearOrder F] (env : Env F) (o : Runtime F) (h : env.Ascii)
    (hs : (["a", "b", "c", "d"].map env.StemString).Nodup) (ho : o.Valid) :
    Predict env (trainedPairs env) "c d" 1 o = some (trainedPairs env, "x") ∧
    ∀ t, Predict.run env (trainedPairs env) "c d" 1 o = some t →
      ∃ d0 d1 q, (trainedPairs env).documents = [d0, d1] ∧
        d0.classId = 0 ∧ d1.classId = 1 ∧
        t.neighbours = [{
          document := d0
          similarity := env.add (env.add (env.float64 0) (env.mul (env.float64 0) q))
            (env.mul (env.float64 0) q) }] ∧
        (∀ nb ∈ t.neighbours, nb.document ≠ d1) ∧
        ((∀ x, env.mul (env.float64 0) x = env.float64 0) →
          env.add (env.float64 0) (env.float64 0) = env.float64 0 →
          ∀ nb ∈ t.neighbours, nb.similarity = env.float64 0) := by
  have hS := trainedPairs_eq env h hs
  constructor
  · obtain ⟨t, ht⟩ := run_isSome env (trainedPairs env) "c d" 1 o ho
      (inv_of_reachable env (Reachable.train _ _ (Reachable.train _ _ Reachable.new)))
    obtain ⟨ns, hknn, _, _, _, _, _, _, hcls⟩ := run_eq_some env _ _ _ o t ht
    have hid := (run_trainedPairs env o 1 h hs ho t ht).2 (by decide)
    have hcls' : t.cls = "x" := by
      rw [hcls, hid]
      apply className_of_unique
      · exact (ho.rangeClasses _).mem_iff.2 (by rw [hS]; simp)
      · intro e he
        have := (ho.rangeClasses _).mem_iff.1 he
        rw [hS] at this
        simp at this
        rcases this with rfl | rfl <;> simp
    rw [Predict_eq_of_run env _ _ _ o t ht, hknn, hcls']
  · intro t ht
    have hnb := (run_trainedPairs env o 1 h hs ho t ht).1
    rw [hS]
    refine ⟨_, _, _, rfl, rfl, rfl, hnb, ?_, ?_⟩
    · intro nb hmem
      rw [hnb] at hmem
      simp only [List.mem_singleton] at hmem
      subst hmem
      intro heq
      have := congrArg Document.classId heq
      simp at this
    · intro hmul hadd nb hmem
      rw [hnb] at hmem
      simp only [List.mem_singleton] at hmem
      subst hmem
      simp only [hmul, hadd]

end TrainedPairs

section TrainedDisjoint
variable {F : Type}

/-- C4 (candidate pruning), the program at `NewKNN(); Train("a", "x");
Train("b", "y"); Predict("b", k)`: for every legal choice of the runtime the only
neighbour is the first document, which shares no term id with the query, with the
similarity `0 + 0 * q`, which is the zero of the arithmetic, hence not above it, when
`0 * x = 0` and `0 + 0 = 0`; the second document, which holds the term id of the
query, is not a neighbour. -/
theorem Predict_trainedDisjoint [LinearOrder F] (env : Env F) (o : Runtime F) (k : Int)
    (h : env.Ascii) (hs : env.StemString "a" ≠ env.StemString "b") (ho : o.Valid) :
    (∃ t, Predict.run env (trainedDisjoint env) "b" k o = some t) ∧
    ∀ t, Predict.run env (trainedDisjoint env) "b" k o = some t →
      ∃ d0 d1 q, (trainedDisjoint env).documents = [d0, d1] ∧
        d0.terms.map Prod.fst = [0] ∧ d1.terms.map Prod.fst = [1] ∧
        t.document.terms = [(1, q)] ∧
        t.neighbours = [{ document := d0
                          similarity := env.add (env.float64 0) (env.mul (env.float64 0) q) }] ∧
        d0 ≠ d1 ∧
        ((∀ x, env.mul (env.float64 0) x = env.float64 0) →
          env.add (env.float64 0) (env.float64 0) = env.float64 0 →
          ∀ nb ∈ t.neighbours,
            nb.similarity = env.float64 0 ∧ ¬ env.float64 0 < nb.similarity) := by
  have hS := trainedDisjoint_eq env h hs
  have tq : FieldsFunc "b" (isAlphaNum env) = ["b"] := by
    rw [FieldsFunc_ascii env h _ (by decide)]; decide
  refine ⟨run_isSome env _ _ _ o ho
    (inv_of_reachable env (Reachable.train _ _ (Reachable.train _ _ Reachable.new))), ?_⟩
  intro t ht
  obtain ⟨ns, hknn, hdoc, hscore, _⟩ := run_eq_some env _ _ _ o t ht
  have hq : t.document.terms =
      [(1, env.div (env.float64 1) (newDocument.magnitude env [(1, 1)]))] := by
    rw [hdoc, query_eq env _ _ _ tq, hS]
    simp [newDocument.step, lookup, store, increment, lookupD, newDocument.normalize, hs,
      Ne.symm hs, -Prod.mk_one_one]
  obtain ⟨d, v, hd, hsims, hnb, _⟩ := run_single env _ _ _ o ho t ht 0 (by
    intro j
    rw [hq, hS]
    simp [lookupD, lookup])
  rw [hq, List.perm_singleton.1 (ho.rangeTerms _), hS] at hscore
  simp [Predict.score, Predict.scoreTerm, Predict.scoreDoc, lookupD, lookup, store,
    newDocument.normalize, show List.range 1 = [0] from rfl, hq, -Prod.mk_one_one] at hscore
  rw [hsims] at hscore
  simp only [List.cons.injEq, Prod.mk.injEq, true_and, and_true] at hscore
  subst hscore
  rw [hS] at hd ⊢
  simp only [List.getElem?_cons_zero, Option.some.injEq] at hd
  subst hd
  refine ⟨_, _, _, rfl, ?_, ?_, hq, hnb, ?_, ?_⟩
  · simp [newDocument.normalize, store]
  · simp [newDocument.normalize, store]
  · intro heq
    have := congrArg Document.classId heq
    simp at this
  · intro hmul hadd nb hmem
    rw [hnb] at hmem
    simp only [List.mem_singleton] at hmem
    subst hmem
    simp only [hmul, hadd, lt_self_iff_false, not_false_eq_true, and_self]

end TrainedDisjoint

section TrainedNested
variable {F : Type}

/-- The values of `Predict("a b", k)` in the state `trainedNested env`: the entry of
`similarities` for the index `1` is one product. -/
theorem run_trainedNested [LinearOrder F] (env : Env F) (o : Runtime F) (k : Int)
    (h : env.Ascii) (hs : env.StemString "a" ≠ env.StemString "b") (ho : o.Valid)
    (t : Predict.Trace F) (ht : Predict.run env (trainedNested env) "a b" k o = some t) :
    t.document.terms =
      [(0, env.div (env.float64 1) (newDocument.magnitude env [(0, 1), (1, 1)])),
       (1, env.div (env.float64 1) (newDocument.magnitude env [(0, 1), (1, 1)]))] ∧
    lookup t.similarities 1 = some (env.add (env.float64 0)
      (env.mul (env.div (env.float64 1) (newDocument.magnitude env [(0, 1), (1, 1)]))
        (env.div (env.float64 1) (newDocument.magnitude env [(0, 1), (1, 1)])))) := by
  have hS := trainedNested_eq env h hs
  have tq : FieldsFunc "a b" (isAlphaNum env) = ["a", "b"] := by
    rw [FieldsFunc_ascii env h _ (by decide)]; decide
  obtain ⟨ns, hknn, hdoc, hscore, _⟩ := run_eq_some env _ _ _ o t ht
  have hq : t.document.terms =
      [(0, env.div (env.float64 1) (newDocument.magnitude env [(0, 1), (1, 1)])),
       (1, env.div (env.float64 1) (newDocument.magnitude env [(0, 1), (1, 1)]))] := by
    rw [hdoc, query_eq env _ _ _ tq, hS]
    simp [newDocument.step, lookup, store, increment, lookupD, newDocument.normalize, hs,
      Ne.symm hs, -Prod.mk_one_one]
  have hr1 : List.range 1 = [0] := rfl
  have hr2 : List.range 2 = [0, 1] := rfl
  refine ⟨hq, ?_⟩
  rw [hS] at hscore
  have hperm := ho.rangeTerms t.document.terms
  rw [hq] at hperm hscore
  rcases perm_pair hperm with hord | hord
  · rw [hord] at hscore
    simp [Predict.score, Predict.scoreTerm, Predict.scoreDoc, lookupD, lookup, store,
      newDocument.normalize, hr1, hr2, hq, -Prod.mk_one_one] at hscore
    rw [← hscore]
    simp [lookup]
  · rw [hord] at hscore
    simp [Predict.score, Predict.scoreTerm, Predict.scoreDoc, lookupD, lookup, store,
      newDocument.normalize, hr1, hr2, hq, -Prod.mk_one_one] at hscore
    rw [← hscore]
    simp [lookup]

/-- C3 (scoring and the dot product), the program at `NewKNN(); Train("a", "x");
Train("a b", "y"); Predict("a b", k)`: the term id `1` is in the query and in the
second document, and its postings list is `[1]`; for every legal choice of the runtime
the entry of `similarities` for the document id `1` is the single product for the term
id `0`: the index `0` of that postings list was visited, not its element `1`. -/
theorem Predict_trainedNested [LinearOrder F] (env : Env F) (o : Runtime F) (k : Int)
    (h : env.Ascii) (hs : env.StemString "a" ≠ env.StemString "b") (ho : o.Valid) :
    (∃ t, Predict.run env (trainedNested env) "a b" k o = some t) ∧
    ∀ t, Predict.run env (trainedNested env) "a b" k o = some t →
      ∃ d0 d1, (trainedNested env).documents = [d0, d1] ∧
        lookupD (trainedNested env).postings 1 [] = [1] ∧
        d1.terms.map Prod.fst = [0, 1] ∧ t.document.terms.map Prod.fst = [0, 1] ∧
        lookup t.similarities 1 = some (env.add (env.float64 0)
          (env.mul (lookupD d1.terms 0 (env.float64 0))
            (lookupD t.document.terms 0 (env.float64 0)))) := by
  have hS := trainedNested_eq env h hs
  refine ⟨run_isSome env _ _ _ o ho
    (inv_of_reachable env (Reachable.train _ _ (Reachable.train _ _ Reachable.new))), ?_⟩
  intro t ht
  obtain ⟨hq, hsim⟩ := run_trainedNested env o k h hs ho t ht
  rw [hS]
  refine ⟨_, _, rfl, by simp [lookupD, lookup], by simp [newDocument.normalize, store],
    by rw [hq]; rfl, ?_⟩
  rw [hsim, hq]
  simp [lookup, lookupD, newDocument.normalize, store]

theorem magnitude_pair_exact [LinearOrderedField F] (env : Env F) (he : env.Exact) (a b : Int) :
    newDocument.magnitude env [(a, 1), (b, 1)] * newDocument.magnitude env [(a, 1), (b, 1)] = 2 := by
  have h2 : newDocument.magnitude env [(a, 1), (b, 1)] = env.Sqrt 2 := by
    have h1 : env.float64 1 = 1 := by rw [he.float64_eq]; simp
    have h0 : env.float64 0 = 0 := by rw [he.float64_eq]; simp
    simp only [newDocument.magnitude, List.foldl_cons, List.foldl_nil, he.pow_two, he.add_eq,
      h1, h0]
    norm_num
  rw [h2]
  exact he.sqrt_mul_self 2 (by norm_num)

/-- In exact arithmetic, at `NewKNN(); Train("a", "x"); Train("a b", "y");
Predict("a b", k)`, the similarity the program gives to the second document is `1/2`,
and the dot product of its weights with the query is `1`. -/
theorem trainedNested_exact [LinearOrderedField F] (env : Env F) (o : Runtime F) (k : Int)
    (h : env.Ascii) (hs : env.StemString "a" ≠ env.StemString "b") (he : env.Exact)
    (ho : o.Valid) (t : Predict.Trace F)
    (ht : Predict.run env (trainedNested env) "a b" k o = some t) :
    ∃ d0 d1, (trainedNested env).documents = [d0, d1] ∧
      lookup t.similarities 1 = some (1 / 2) ∧
      (t.document.terms.map (fun tw => lookupD d1.terms tw.1 0 * tw.2)).sum = 1 := by
  have hS := trainedNested_eq env h hs
  obtain ⟨hq, hsim⟩ := run_trainedNested env o k h hs ho t ht
  have hm := magnitude_pair_exact env he 0 1
  have hne : newDocument.magnitude env [(0, 1), (1, 1)] ≠ 0 := by
    intro h0
    rw [h0] at hm
    norm_num at hm
  have h1 : env.float64 1 = 1 := by rw [he.float64_eq]; simp
  have h0 : env.float64 0 = 0 := by rw [he.float64_eq]; simp
  have hQ : (1 / newDocument.magnitude env [(0, 1), (1, 1)]) *
      (1 / newDocument.magnitude env [(0, 1), (1, 1)]) = 1 / 2 := by
    rw [div_mul_div_comm, hm]
    norm_num
  rw [hS]
  refine ⟨_, _, rfl, ?_, ?_⟩
  · rw [hsim, he.add_eq, he.mul_eq, he.div_eq, h0, h1, hQ]
    norm_num
  · rw [hq]
    simp only [newDocument.normalize, List.foldl_cons, List.foldl_nil, store, lookupD, lookup,
      he.div_eq, h1, List.map_cons, List.map_nil, List.sum_cons, List.sum_nil]
    simp only [show ((0 : Int) = 1) = False from by simp, if_false, if_true, lookup,
      Option.getD_some, hQ]
    norm_num

/-- The real numbers, with their operations and `Real.sqrt`, are an exact arithmetic. -/
theorem Env.exact_real :
    ∃ env : Env ℝ, env.Ascii ∧ env.Exact ∧ env.StemString = id :=
  ⟨{ IsLetter := Char.isAlpha, IsNumber := Char.isDigit, StemString := id,
     float64 := fun n => (n : ℝ), add := fun x y => x + y, mul := fun x y => x * y,
     div := fun x y => x / y, Pow := fun x y => x ^ y, Sqrt := Real.sqrt },
   fun _ _ => ⟨rfl, rfl⟩,
   { float64_eq := fun _ => rfl
     add_eq := fun _ _ => rfl
     mul_eq := fun _ _ => rfl
     div_eq := fun _ _ => rfl
     pow_two := fun x => by
       show x ^ (((2 : Int) : ℝ)) = x * x
       rw [show (((2 : Int) : ℝ)) = (2 : ℝ) by norm_num, Real.rpow_two, sq]
     sqrt_nonneg := fun x _ => Real.sqrt_nonneg x
     sqrt_mul_self := fun x hx => Real.mul_self_sqrt hx },
   rfl⟩

end TrainedNested

section Witnesses

theorem Env.rational_ascii : Env.rational.Ascii := fun _ _ => ⟨rfl, rfl⟩

/-- Witness of C1 in the environment `Env.rational` with the runtime `Runtime.inOrder`. -/
theorem Predict_scenario_witness :
    Env.rational.Ascii ∧
    (["cats", "are", "great", "dogs", "stocks", "rose", "today", "and"].map
      Env.rational.StemString).Nodup ∧
    (Runtime.inOrder ℚ).Valid ∧
    Predict Env.rational (scenario Env.rational) "cats and dogs" 1 (Runtime.inOrder ℚ)
      = some (scenario Env.rational, "animal") :=
  ⟨Env.rational_ascii, by decide, Runtime.inOrder_valid ℚ,
    Predict_scenario Env.rational (Runtime.inOrder ℚ) Env.rational_ascii (by decide)
      (Runtime.inOrder_valid ℚ)⟩

/-- Witness of the theorem of C2 in the environment `Env.rational` with the runtime
`Runtime.inOrder`. -/
theorem Predict_trainedPairs_witness :
    Env.rational.Ascii ∧
    (["a", "b", "c", "d"].map Env.rational.StemString).Nodup ∧
    (Runtime.inOrder ℚ).Valid ∧
    Predict Env.rational (trainedPairs Env.rational) "c d" 1 (Runtime.inOrder ℚ)
      = some (trainedPairs Env.rational, "x") ∧
    ∀ t, Predict.run Env.rational (trainedPairs Env.rational) "c d" 1 (Runtime.inOrder ℚ)
        = some t →
      ∃ d0 d1 q, (trainedPairs Env.rational).documents = [d0, d1] ∧
        d0.classId = 0 ∧ d1.classId = 1 ∧
        t.neighbours = [{
          document := d0
          similarity := Env.rational.add
            (Env.rational.add (Env.rational.float64 0)
              (Env.rational.mul (Env.rational.float64 0) q))
            (Env.rational.mul (Env.rational.float64 0) q) }] ∧
        (∀ nb ∈ t.neighbours, nb.document ≠ d1) ∧
        ((∀ x, Env.rational.mul (Env.rational.float64 0) x = Env.rational.float64 0) →
          Env.rational.add (Env.rational.float64 0) (Env.rational.float64 0)
            = Env.rational.float64 0 →
          ∀ nb ∈ t.neighbours, nb.similarity = Env.rational.float64 0) :=
  ⟨Env.rational_ascii, by decide, Runtime.inOrder_valid ℚ,
    Predict_trainedPairs Env.rational (Runtime.inOrder ℚ) Env.rational_ascii (by decide)
      (Runtime.inOrder_valid ℚ)⟩

/-- Witness of the theorem of C3 in the environment `Env.rational` with the runtime
`Runtime.inOrder`, for `k = 1`. -/
theorem Predict_trainedNested_witness :
    Env.rational.Ascii ∧
    Env.rational.StemString "a" ≠ Env.rational.StemString "b" ∧
    (Runtime.inOrder ℚ).Valid ∧
    (∃ t, Predict.run Env.rational (trainedNested Env.rational) "a b" 1 (Runtime.inOrder ℚ)
      = some t) ∧
    ∀ t, Predict.run Env.rational (trainedNested Env.rational) "a b" 1 (Runtime.inOrder ℚ)
        = some t →
      ∃ d0 d1, (trainedNested Env.rational).documents = [d0, d1] ∧
        lookupD (trainedNested Env.rational).postings 1 [] = [1] ∧
        d1.terms.map Prod.fst = [0, 1] ∧ t.document.terms.map Prod.fst = [0, 1] ∧
        lookup t.similarities 1 = some (Env.rational.add (Env.rational.float64 0)
          (Env.rational.mul (lookupD d1.terms 0 (Env.rational.float64 0))
            (lookupD t.document.terms 0 (Env.rational.float64 0)))) :=
  ⟨Env.rational_ascii, by decide, Runtime.inOrder_valid ℚ,
    Predict_trainedNested Env.rational (Runtime.inOrder ℚ) 1 Env.rational_ascii (by decide)
      (Runtime.inOrder_valid ℚ)⟩

/-- Witness of the theorem of C4 in the environment `Env.rational` with the runtime
`Runtime.inOrder`, for `k = 1`. -/
theorem Predict_trainedDisjoint_witness :
    Env.rational.Ascii ∧
    Env.rational.StemString "a" ≠ Env.rational.StemString "b" ∧
    (Runtime.inOrder ℚ).Valid ∧
    (∃ t, Predict.run Env.rational (trainedDisjoint Env.rational) "b" 1 (Runtime.inOrder ℚ)
      = some t) ∧
    ∀ t, Predict.run Env.rational (trainedDisjoint Env.rational) "b" 1 (Runtime.inOrder ℚ)
        = some t →
      ∃ d0 d1 q, (trainedDisjoint Env.rational).documents = [d0, d1] ∧
        d0.terms.map Prod.fst = [0] ∧ d1.terms.map Prod.fst = [1] ∧
        t.document.terms = [(1, q)] ∧
        t.neighbours = [{ document := d0
                          similarity := Env.rational.add (Env.rational.float64 0)
                            (Env.rational.mul (Env.rational.float64 0) q) }] ∧
        d0 ≠ d1 ∧
        ((∀ x, Env.rational.mul (Env.rational.float64 0) x = Env.rational.float64 0) →
          Env.rational.add (Env.rational.float64 0) (Env.rational.float64 0)
            = Env.rational.float64 0 →
          ∀ nb ∈ t.neighbours,
            nb.similarity = Env.rational.float64 0 ∧
              ¬ Env.rational.float64 0 < nb.similarity) :=
  ⟨Env.rational_ascii, by decide, Runtime.inOrder_valid ℚ,
    Predict_trainedDisjoint Env.rational (Runtime.inOrder ℚ) 1 Env.rational_ascii (by decide)
      (Runtime.inOrder_valid ℚ)⟩

/-- Witness of C5: `Predict("a b", 2)` after `Train("a", "x")` and `Train("a b", "y")`. -/
theorem Predict_majority_vote_witness :
    (Runtime.inOrder ℚ).Valid ∧
    Predict.run Env.rational (trainedNested Env.rational) "a b" 2 (Runtime.inOrder ℚ)
      = some sampleTrace ∧
    sampleTrace.neighbours.Pairwise (fun a b => b.similarity ≤ a.similarity) ∧
    (sampleTrace.neighbours.take (2 : Int).toNat).length
      = min (2 : Int).toNat sampleTrace.similarities.length ∧
    (∀ c, List.count c ((sampleTrace.neighbours.take (2 : Int).toNat).map
        (fun n => n.document.classId)) ≤
      List.count sampleTrace.classId ((sampleTrace.neighbours.take (2 : Int).toNat).map
        (fun n => n.document.classId))) ∧
    (sampleTrace.neighbours.take (2 : Int).toNat = [] → sampleTrace.classId = -1) ∧
    (Reachable Env.rational (trainedNested Env.rational) → sampleTrace.classId = -1 →
      sampleTrace.neighbours.take (2 : Int).toNat = []) :=
  ⟨Runtime.inOrder_valid ℚ, by decide!,
    Predict_majority_vote Env.rational (trainedNested Env.rational) "a b" 2 (Runtime.inOrder ℚ)
      (Runtime.inOrder_valid ℚ) sampleTrace (by decide!)⟩

/-- Witness of C6: no stem of `"zebra quagga"` is in the dictionary of the scenario. -/
theorem Predict_unknown_stems_witness :
    Reachable Env.rational (scenario Env.rational) ∧
    (Runtime.inOrder ℚ).Valid ∧
    (∀ w ∈ FieldsFunc "zebra quagga" (isAlphaNum Env.rational),
      lookup (scenario Env.rational).dictionary (Env.rational.StemString w) = none) ∧
    Predict Env.rational (scenario Env.rational) "zebra quagga" 3 (Runtime.inOrder ℚ)
      = some (scenario Env.rational, "") :=
  ⟨scenario_reachable Env.rational, Runtime.inOrder_valid ℚ, by decide,
    Predict_unknown_stems Env.rational (scenario Env.rational) "zebra quagga" 3
      (Runtime.inOrder ℚ) (scenario_reachable Env.rational) (Runtime.inOrder_valid ℚ)
      (by decide)⟩

/-- Witness of C7 at the text `"cats and dogs"` and `k = 1`. -/
theorem Predict_untrained_witness :
    (Runtime.inOrder ℚ).Valid ∧
    Predict Env.rational NewKNN "cats and dogs" 1 (Runtime.inOrder ℚ) = some (NewKNN, "") :=
  ⟨Runtime.inOrder_valid ℚ,
    Predict_untrained Env.rational "cats and dogs" 1 (Runtime.inOrder ℚ)
      (Runtime.inOrder_valid ℚ)⟩

/-- Witness of C8 at the scenario, the text `"cats and dogs"` and `k = 0`. -/
theorem Predict_nonpositive_k_witness :
    Reachable Env.rational (scenario Env.rational) ∧
    (Runtime.inOrder ℚ).Valid ∧ (0 : Int) ≤ 0 ∧
    Predict Env.rational (scenario Env.rational) "cats and dogs" 0 (Runtime.inOrder ℚ)
      = some (scenario Env.rational, "") ∧
    (∀ t, Predict.run Env.rational (scenario Env.rational) "cats and dogs" 0
        (Runtime.inOrder ℚ) = some t → t.classCount = [] ∧ t.classId = -1) ∧
    (∀ e ∈ (scenario Env.rational).classes, e.2 ≠ -1) :=
  ⟨scenario_reachable Env.rational, Runtime.inOrder_valid ℚ, le_refl 0,
    Predict_nonpositive_k Env.rational (scenario Env.rational) "cats and dogs" 0
      (Runtime.inOrder ℚ) (scenario_reachable Env.rational) (Runtime.inOrder_valid ℚ)
      (le_refl 0)⟩

/-- Witness of C9 at the scenario (three documents), the text `"cats and dogs"` and
`k = 5`. -/
theorem Predict_k_bounding_witness :
    (((scenario Env.rational).documents.length : Int) < 5) ∧
    (∀ o : Runtime ℚ, o.Valid →
      Predict Env.rational (scenario Env.rational) "cats and dogs" 5 o =
        Predict Env.rational (scenario Env.rational) "cats and dogs"
          (scenario Env.rational).documents.length o) ∧
    (∀ label, (∃ o : Runtime ℚ, o.Valid ∧
        Predict Env.rational (scenario Env.rational) "cats and dogs" 5 o
          = some (scenario Env.rational, label)) ↔
      (∃ o : Runtime ℚ, o.Valid ∧
        Predict Env.rational (scenario Env.rational) "cats and dogs"
          (scenario Env.rational).documents.length o = some (scenario Env.rational, label))) ∧
    (∀ (o : Runtime ℚ) (t : Predict.Trace ℚ), o.Valid →
      Predict.run Env.rational (scenario Env.rational) "cats and dogs" 5 o = some t →
      t.neighbours.length ≤ (scenario Env.rational).documents.length) ∧
    (Reachable Env.rational (scenario Env.rational) → ∀ o : Runtime ℚ, o.Valid →
      ∃ label, Predict Env.rational (scenario Env.rational) "cats and dogs" 5 o
        = some (scenario Env.rational, label)) :=
  ⟨by decide,
    Predict_k_bounding Env.rational (scenario Env.rational) "cats and dogs" 5 (by decide)⟩

end Witnesses

section TrainAppend
variable {F : Type}

/-- The postings list of `t` after the loop of `Train` over `terms`: the document id is
appended when `t` is a key of `terms`. -/
theorem lookupD_post (terms : List (Int × F)) (postings : List (Int × List Nat)) (n : Nat)
    (hn : (terms.map Prod.fst).Nodup) (t : Int) :
    lookupD (Train.post postings terms n) t [] =
      if t ∈ terms.map Prod.fst then lookupD postings t [] ++ [n] else lookupD postings t [] := by
  induction terms generalizing postings with
  | nil => simp [Train.post]
  | cons tw terms ih =>
    simp only [List.map_cons, List.nodup_cons] at hn
    have hstep : Train.post postings (tw :: terms) n =
        Train.post (store postings tw.1 (lookupD postings tw.1 [] ++ [n])) terms n := rfl
    rw [hstep, ih _ hn.2, lookupD_store]
    by_cases h1 : tw.1 = t
    · subst h1
      simp [hn.1]
    · simp only [List.map_cons, List.mem_cons, h1, if_false, Ne.symm h1, false_or]

theorem mem_keys_post (terms : List (Int × F)) (postings : List (Int × List Nat)) (n : Nat)
    (t : Int) :
    t ∈ (Train.post postings terms n).map Prod.fst ↔
      t ∈ postings.map Prod.fst ∨ t ∈ terms.map Prod.fst := by
  unfold Train.post
  exact mem_keys_foldl_store (fun tw : Int × F => tw.1)
    (fun p tw => lookupD p tw.1 [] ++ [n]) terms postings t

theorem nodup_keys_post (terms : List (Int × F)) (postings : List (Int × List Nat)) (n : Nat)
    (h : (postings.map Prod.fst).Nodup) :
    ((Train.post postings terms n).map Prod.fst).Nodup := by
  unfold Train.post
  exact nodup_keys_foldl_store (fun tw : Int × F => tw.1)
    (fun p tw => lookupD p tw.1 [] ++ [n]) terms postings h

theorem Train_documents (env : Env F) (knn : KNN F) (text cls : String) :
    (Train env knn text cls).documents = knn.documents ++
      [{ classId := lookupD (Train.register knn.classes cls) cls 0
         terms := (newDocument env knn text true).2.terms }] := rfl

theorem Train_classes (env : Env F) (knn : KNN F) (text cls : String) :
    (Train env knn text cls).classes = Train.register knn.classes cls := rfl

theorem Train_dictionary (env : Env F) (knn : KNN F) (text cls : String) :
    (Train env knn text cls).dictionary = (newDocument.count env knn.dictionary text true).1 :=
  rfl

theorem Train_postings (env : Env F) (knn : KNN F) (text cls : String) :
    (Train env knn text cls).postings =
      Train.post knn.postings (newDocument env knn text true).2.terms knn.documents.length := by
  simp [Train, newDocument]

theorem lookup_register (classes : List (String × Int)) (cls : String) :
    lookup (Train.register classes cls) cls = some (lookupD (Train.register classes cls) cls 0) := by
  unfold Train.register
  cases h : lookup classes cls with
  | some i => simp [lookupD, h]
  | none => simp [lookupD, lookup_store]

/-- C14 (`Train` is an append). For every state with `n` documents, every text and
label, after `Train(text, label)` the corpus has `n + 1` documents, the first `n` are
the documents before the call, the last has the class id that the registry gives to
the label and the weights of the vectorisation of the text, and `n` is the id appended
to the postings list of each of its term ids; the other postings lists are
unchanged. -/
theorem Train_append (env : Env F) (knn : KNN F) (text cls : String) :
    (Train env knn text cls).documents.length = knn.documents.length + 1 ∧
    (∀ i, i < knn.documents.length →
      (Train env knn text cls).documents[i]? = knn.documents[i]?) ∧
    (∃ d, (Train env knn text cls).documents = knn.documents ++ [d] ∧
      (Train env knn text cls).documents[knn.documents.length]? = some d ∧
      lookup (Train env knn text cls).classes cls = some d.classId ∧
      d.terms = (newDocument env knn text true).2.terms ∧
      (∀ t, t ∈ d.terms.map Prod.fst →
        lookupD (Train env knn text cls).postings t [] =
          lookupD knn.postings t [] ++ [knn.documents.length]) ∧
      (∀ t, t ∉ d.terms.map Prod.fst →
        lookupD (Train env knn text cls).postings t [] = lookupD knn.postings t [])) := by
  have hnodup : ((newDocument env knn text true).2.terms.map Prod.fst).Nodup :=
    nodup_keys_normalize env _ _
  refine ⟨by simp [Train_documents], ?_, _, Train_documents env knn text cls, ?_, ?_, rfl, ?_, ?_⟩
  · intro i hi
    rw [Train_documents, List.getElem?_append_left hi]
  · rw [Train_documents]
    simp
  · rw [Train_classes]
    exact lookup_register knn.classes cls
  · intro t ht
    rw [Train_postings, lookupD_post _ _ _ hnodup, if_pos ht]
  · intro t ht
    rw [Train_postings, lookupD_post _ _ _ hnodup, if_neg ht]

end TrainAppend

section Postings
variable {F : Type}

theorem postingsComplete_new : PostingsComplete (NewKNN : KNN F) := by
  intro t d
  simp [NewKNN, lookupD, lookup]

theorem postingsComplete_train (env : Env F) (knn : KNN F) (text cls : String)
    (h : PostingsComplete knn) : PostingsComplete (Train env knn text cls) := by
  intro t d
  have hnodup : ((newDocument env knn text true).2.terms.map Prod.fst).Nodup :=
    nodup_keys_normalize env _ _
  have hlt : ∀ d', d' ∈ lookupD knn.postings t [] → d' < knn.documents.length := by
    intro d' hd'
    obtain ⟨doc, hdoc, _⟩ := (h t d').1 hd'
    exact (List.getElem?_eq_some_iff.1 hdoc).1
  rw [Train_postings, lookupD_post _ _ _ hnodup, Train_documents]
  constructor
  · intro hd
    have hd' : d ∈ lookupD knn.postings t [] ∨
        (t ∈ (newDocument env knn text true).2.terms.map Prod.fst ∧ d = knn.documents.length) := by
      split at hd
      · rename_i ht
        rcases List.mem_append.1 hd with hd | hd
        · exact Or.inl hd
        · exact Or.inr ⟨ht, by simpa using hd⟩
      · exact Or.inl hd
    rcases hd' with hd' | ⟨ht, rfl⟩
    · obtain ⟨doc, hdoc, hkey⟩ := (h t d).1 hd'
      exact ⟨doc, by rw [List.getElem?_append_left (hlt d hd')]; exact hdoc, hkey⟩
    · exact ⟨_, List.getElem?_concat_length _ _, ht⟩
  · rintro ⟨doc, hdoc, hkey⟩
    by_cases hd : d < knn.documents.length
    · rw [List.getElem?_append_left hd] at hdoc
      have := (h t d).2 ⟨doc, hdoc, hkey⟩
      split
      · exact List.mem_append_left _ this
      · exact this
    · have hlen := (List.getElem?_eq_some_iff.1 hdoc).1
      simp only [List.length_append, List.length_singleton] at hlen
      have hdn : d = knn.documents.length := by omega
      subst hdn
      simp only [List.getElem?_concat_length, Option.some.injEq] at hdoc
      subst hdoc
      rw [if_pos hkey]
      simp

theorem postingsComplete_of_reachable (env : Env F) {knn : KNN F} (h : Reachable env knn) :
    PostingsComplete knn := by
  induction h with
  | new => exact postingsComplete_new
  | train text cls _ ih => exact postingsComplete_train env _ text cls ih
  | predict text k o r _ hp ih => rw [Predict_fst env _ text k o r hp]; exact ih

/-- C11 (postings invariant). In every state reachable from `NewKNN()` by calls of
`Train` and `Predict`, for every term id `t` and document id `d`, `d` occurs in
`postings[t]` if and only if `d < len(documents)` and `t` is a key of
`documents[d].terms`. -/
theorem postings_invariant (env : Env F) (knn : KNN F) (h : Reachable env knn)
    (t : Int) (d : Nat) :
    d ∈ lookupD knn.postings t [] ↔
      d < knn.documents.length ∧
        ∃ doc, knn.documents[d]? = some doc ∧ t ∈ doc.terms.map Prod.fst := by
  rw [postingsComplete_of_reachable env h t d]
  constructor
  · rintro ⟨doc, hdoc, hkey⟩
    exact ⟨(List.getElem?_eq_some_iff.1 hdoc).1, doc, hdoc, hkey⟩
  · rintro ⟨_, hrest⟩
    exact hrest

/-- C20 (no index out of range in `Predict`). In every state reachable from `NewKNN()`
by calls of `Train` and `Predict`, every postings list is strictly increasing with
entries below `len(documents)`, hence is not longer than `documents`; so, for every
text, `k` and legal choice of the runtime, `Predict` runs to its end, and the indices of
the scoring loop and the keys of `similarities`, which index `documents`, are below
`len(documents)`. -/
theorem Predict_in_range [LinearOrder F] (env : Env F) (knn : KNN F)
    (h : Reachable env knn) :
    (∀ e ∈ knn.postings, e.2.Sorted (· < ·) ∧ ∀ d ∈ e.2, d < knn.documents.length) ∧
    (∀ t, (lookupD knn.postings t []).length ≤ knn.documents.length) ∧
    (∀ (text : String) (k : Int) (o : Runtime F), o.Valid →
      ∃ tr, Predict.run env knn text k o = some tr ∧
        (∀ tw ∈ tr.document.terms, ∀ documentId,
          documentId < (lookupD knn.postings tw.1 []).length →
            documentId < knn.documents.length) ∧
        (∀ ds ∈ tr.similarities, ds.1 < knn.documents.length)) := by
  have hinv := inv_of_reachable env h
  refine ⟨?_, fun t => postings_length_le hinv t, ?_⟩
  · intro e he
    have hsub := hinv.postings_sublist e he
    refine ⟨(List.sorted_lt_range _).sublist hsub, fun d hd => ?_⟩
    exact List.mem_range.1 (hsub.subset hd)
  · intro text k o ho
    obtain ⟨tr, htr⟩ := run_isSome env knn text k o ho hinv
    obtain ⟨ns, _, _, hs, _⟩ := run_eq_some env knn text k o tr htr
    obtain ⟨_, _, s3⟩ := score_eq_some env knn _ _ _ hs
    refine ⟨tr, htr, ?_, ?_⟩
    · intro tw _ i hi
      exact lt_of_lt_of_le hi (postings_length_le hinv tw.1)
    · intro ds hds
      exact s3 ds.1 (List.mem_map.2 ⟨ds, hds, rfl⟩)

end Postings

section Ranks
variable {F : Type}

theorem mem_firstSeen (l : List String) (x : String) : x ∈ firstSeen l ↔ x ∈ l := by
  induction l with
  | nil => simp [firstSeen]
  | cons s l ih =>
    by_cases h : x = s
    · simp [firstSeen, h]
    · simp [firstSeen, h, ih]

theorem nodup_firstSeen (l : List String) : (firstSeen l).Nodup := by
  induction l with
  | nil => simp [firstSeen]
  | cons s l ih =>
    simp only [firstSeen, List.nodup_cons]
    exact ⟨by simp, ih.filter _⟩

theorem firstSeen_concat (l : List String) (s : String) :
    firstSeen (l ++ [s]) = if s ∈ l then firstSeen l else firstSeen l ++ [s] := by
  induction l with
  | nil => simp [firstSeen]
  | cons a l ih =>
    have e1 : firstSeen (a :: l ++ [s]) =
        a :: (firstSeen (l ++ [s])).filter (fun x => x ≠ a) := rfl
    have e2 : firstSeen (a :: l) = a :: (firstSeen l).filter (fun x => x ≠ a) := rfl
    rw [e1, e2, ih]
    by_cases h : s ∈ l
    · simp [h]
    · by_cases ha : s = a
      · subst ha
        simp [h]
      · simp [h, ha, List.filter_append]

theorem firstSeen_append_of_subset (l r : List String) (h : ∀ x ∈ r, x ∈ l) :
    firstSeen (l ++ r) = firstSeen l := by
  induction r generalizing l with
  | nil => simp
  | cons s r ih =>
    have : l ++ s :: r = (l ++ [s]) ++ r := by simp
    rw [this, ih (l ++ [s]) (fun x hx => by simp [h x (List.mem_cons_of_mem _ hx)]),
      firstSeen_concat, if_pos (h s (by simp))]

theorem length_ranks (l : List String) : (ranks l).length = l.length := by
  simp [ranks]

theorem keys_ranks (l : List String) : (ranks l).map Prod.fst = l :=
  List.map_fst_zip _ _ (by simp)

theorem values_ranks (l : List String) :
    (ranks l).map Prod.snd = (List.range l.length).map (fun (i : Nat) => (i : Int)) :=
  List.map_snd_zip _ _ (by simp)

theorem ranks_concat (l : List String) (s : String) :
    ranks (l ++ [s]) = ranks l ++ [(s, (l.length : Int))] := by
  unfold ranks
  rw [List.length_append, List.length_singleton, List.range_succ, List.map_append,
    List.zip_append (by simp)]
  rfl

theorem store_of_not_mem {K V : Type} [DecidableEq K] (m : List (K × V)) (k : K) (v : V)
    (h : k ∉ m.map Prod.fst) : store m k v = m ++ [(k, v)] := by
  induction m with
  | nil => rfl
  | cons e m ih =>
    obtain ⟨k', v'⟩ := e
    simp only [List.map_cons, List.mem_cons, not_or] at h
    simp [store, Ne.symm h.1, ih h.2]

theorem lookup_ranks_eq_none (l : List String) (s : String) :
    lookup (ranks l) s = none ↔ s ∉ l := by
  rw [lookup_eq_none_iff, keys_ranks]

theorem lookup_ranks (l : List String) (hn : l.Nodup) (i : Nat) (s : String)
    (h : l[i]? = some s) : lookup (ranks l) s = some (i : Int) := by
  apply lookup_eq_some_of_mem (by rw [keys_ranks]; exact hn)
  apply List.mem_iff_getElem?.2
  refine ⟨i, ?_⟩
  unfold ranks
  rw [List.getElem?_zip_eq_some]
  refine ⟨h, ?_⟩
  have hi : i < l.length := (List.getElem?_eq_some_iff.1 h).1
  simp [List.getElem?_range hi]

theorem lookup_ranks_inv (l : List String) (i : Int) (s : String)
    (h : lookup (ranks l) s = some i) : ∃ j : Nat, i = j ∧ l[j]? = some s := by
  obtain ⟨j, hj⟩ := List.mem_iff_getElem?.1 (mem_of_lookup_eq_some h)
  unfold ranks at hj
  rw [List.getElem?_zip_eq_some] at hj
  obtain ⟨h1, h2⟩ := hj
  have hj' : j < l.length := (List.getElem?_eq_some_iff.1 h1).1
  simp [List.getElem?_range hj'] at h2
  exact ⟨j, h2.symm, h1⟩

/-- The loop over the words, from a dictionary that ranks the distinct stems seen so
far, ends with the dictionary that ranks the distinct stems seen then. -/
theorem foldl_step_ranks (env : Env F) (ws : List String) (prev : List String)
    (terms : List (Int × Int)) :
    (ws.foldl (newDocument.step env true) (ranks (firstSeen prev), terms)).1 =
      ranks (firstSeen (prev ++ ws.map env.StemString)) := by
  induction ws generalizing prev terms with
  | nil => simp
  | cons w ws ih =>
    rw [List.foldl_cons]
    have hstep : ∃ terms', newDocument.step env true (ranks (firstSeen prev), terms) w =
        (ranks (firstSeen (prev ++ [env.StemString w])), terms') := by
      unfold newDocument.step
      dsimp only
      rw [firstSeen_concat]
      cases hl : lookup (ranks (firstSeen prev)) (env.StemString w) with
      | some termId =>
        have hmem : env.StemString w ∈ prev := by
          have := mem_of_lookup_eq_some hl
          have := (List.of_mem_zip this).1
          exact (mem_firstSeen _ _).1 this
        exact ⟨increment terms termId, by simp [hmem]⟩
      | none =>
        have hnot : env.StemString w ∉ prev := by
          intro hmem
          exact (lookup_ranks_eq_none _ _).1 hl ((mem_firstSeen _ _).2 hmem)
        refine ⟨increment terms ((ranks (firstSeen prev)).length : Int), ?_⟩
        simp only [if_true, hnot, if_false, length_ranks]
        rw [store_of_not_mem _ _ _ (by rw [keys_ranks]; exact fun hm => hnot ((mem_firstSeen _ _).1 hm)),
          ranks_concat]
    obtain ⟨terms', hterms'⟩ := hstep
    rw [hterms', ih]
    simp

theorem trainAll_concat (env : Env F) (calls : List (String × String)) (text cls : String) :
    trainAll env (calls ++ [(text, cls)]) = Train env (trainAll env calls) text cls := by
  simp [trainAll, List.foldl_append]

theorem eq_trainAll_of_reachableBy (env : Env F) {calls : List (String × String)} {knn : KNN F}
    (h : ReachableBy env calls knn) : knn = trainAll env calls := by
  induction h with
  | new => rfl
  | train text cls _ ih => rw [trainAll_concat, ← ih]
  | predict text k o r _ hp ih => rw [Predict_fst env _ text k o r hp]; exact ih

theorem reachableBy_trainAll (env : Env F) (calls : List (String × String)) :
    ReachableBy env calls (trainAll env calls) := by
  induction calls using List.reverseRecOn with
  | nil => exact ReachableBy.new
  | append_singleton calls c ih =>
    obtain ⟨text, cls⟩ := c
    rw [trainAll_concat]
    exact ReachableBy.train text cls ih

theorem reachable_of_reachableBy (env : Env F) {calls : List (String × String)} {knn : KNN F}
    (h : ReachableBy env calls knn) : Reachable env knn := by
  induction h with
  | new => exact Reachable.new
  | train text cls _ ih => exact Reachable.train text cls ih
  | predict text k o r _ hp ih => exact Reachable.predict text k o r ih hp

theorem reachableBy_of_reachable (env : Env F) {knn : KNN F} (h : Reachable env knn) :
    ∃ calls, ReachableBy env calls knn := by
  induction h with
  | new => exact ⟨[], ReachableBy.new⟩
  | train text cls _ ih =>
    obtain ⟨calls, hc⟩ := ih
    exact ⟨_, ReachableBy.train text cls hc⟩
  | predict text k o r _ hp ih =>
    obtain ⟨calls, hc⟩ := ih
    exact ⟨calls, ReachableBy.predict text k o r hc hp⟩

theorem trainingStems_concat (env : Env F) (calls : List (String × String)) (text cls : String) :
    trainingStems env (calls ++ [(text, cls)]) =
      trainingStems env calls ++ (FieldsFunc text (isAlphaNum env)).map env.StemString := by
  simp [trainingStems, List.flatMap_append]

/-- The dictionary after the calls `calls` ranks the distinct stems of the training
texts in the order of their first occurrence. -/
theorem dictionary_trainAll (env : Env F) (calls : List (String × String)) :
    (trainAll env calls).dictionary = ranks (firstSeen (trainingStems env calls)) := by
  induction calls using List.reverseRecOn with
  | nil => rfl
  | append_singleton calls c ih =>
    obtain ⟨text, cls⟩ := c
    rw [trainAll_concat, Train_dictionary, newDocument.count, ih, foldl_step_ranks,
      trainingStems_concat]

theorem register_ranks (prev : List String) (cls : String) :
    Train.register (ranks (firstSeen prev)) cls = ranks (firstSeen (prev ++ [cls])) := by
  unfold Train.register
  rw [firstSeen_concat]
  cases hl : lookup (ranks (firstSeen prev)) cls with
  | some i =>
    have hmem : cls ∈ prev :=
      (mem_firstSeen _ _).1 (List.of_mem_zip (mem_of_lookup_eq_some hl)).1
    simp [hmem]
  | none =>
    have hnot : cls ∉ prev := fun hmem =>
      (lookup_ranks_eq_none _ _).1 hl ((mem_firstSeen _ _).2 hmem)
    simp only [hnot, if_false, length_ranks]
    rw [store_of_not_mem _ _ _ (by rw [keys_ranks]; exact fun hm => hnot ((mem_firstSeen _ _).1 hm)),
      ranks_concat]

/-- The class registry after the calls `calls` ranks the distinct labels in the order of
their first occurrence. -/
theorem classes_trainAll (env : Env F) (calls : List (String × String)) :
    (trainAll env calls).classes = ranks (firstSeen (calls.map Prod.snd)) := by
  induction calls using List.reverseRecOn with
  | nil => rfl
  | append_singleton calls c ih =>
    obtain ⟨text, cls⟩ := c
    rw [trainAll_concat, Train_classes, ih, register_ranks]
    simp

end Ranks

section FirstSeen
variable {F : Type}

theorem firstSeen_append (l r : List String) : ∃ r', firstSeen (l ++ r) = firstSeen l ++ r' := by
  induction r using List.reverseRecOn with
  | nil => exact ⟨[], by simp⟩
  | append_singleton r s ih =>
    obtain ⟨r', hr'⟩ := ih
    rw [← List.append_assoc, firstSeen_concat, hr']
    split
    · exact ⟨r', rfl⟩
    · exact ⟨r' ++ [s], by simp⟩

/-- An id given by the ranking of the distinct elements of `l` is the id given by the
ranking of the distinct elements of a longer list. -/
theorem lookup_ranks_append (l r : List String) (s : String) (i : Int)
    (h : lookup (ranks (firstSeen l)) s = some i) :
    lookup (ranks (firstSeen (l ++ r))) s = some i := by
  obtain ⟨j, rfl, hj⟩ := lookup_ranks_inv _ _ _ h
  obtain ⟨r', hr'⟩ := firstSeen_append l r
  apply lookup_ranks _ (nodup_firstSeen _)
  rw [hr', List.getElem?_append_left (List.getElem?_eq_some_iff.1 hj).1]
  exact hj

theorem nodup_range_cast (n : Nat) : ((List.range n).map (fun (i : Nat) => (i : Int))).Nodup :=
  (List.nodup_range n).map (fun _ _ h => Int.ofNat.inj h)

/-- C12 (vocabulary ids are first-seen ranks). In a state reached from `NewKNN()` by
calls of `Train` and `Predict`, the stem that was the `i`-th distinct stem met in the
training texts (in the order of the calls, then of the words of a text, from `0`) has
the term id `i`; the ids are `0 .. N-1` without duplicates, and no later call of
`Train` or `Predict` changes an id. -/
theorem dictionary_first_seen (env : Env F) (calls : List (String × String)) (knn : KNN F)
    (h : ReachableBy env calls knn) :
    knn.dictionary = ranks (firstSeen (trainingStems env calls)) ∧
    (∀ (i : Nat) (s : String), (firstSeen (trainingStems env calls))[i]? = some s →
      lookup knn.dictionary s = some (i : Int)) ∧
    knn.dictionary.map Prod.snd =
      (List.range knn.dictionary.length).map (fun (i : Nat) => (i : Int)) ∧
    (knn.dictionary.map Prod.fst).Nodup ∧ (knn.dictionary.map Prod.snd).Nodup ∧
    (∀ (s : String) (i : Int), lookup knn.dictionary s = some i →
      (∀ text cls, lookup (Train env knn text cls).dictionary s = some i) ∧
      (∀ text k o r, Predict env knn text k o = some r →
        lookup r.1.dictionary s = some i)) := by
  have hknn := eq_trainAll_of_reachableBy env h
  have hd : knn.dictionary = ranks (firstSeen (trainingStems env calls)) := by
    rw [hknn, dictionary_trainAll]
  refine ⟨hd, ?_, ?_, ?_, ?_, ?_⟩
  · intro i s his
    rw [hd]
    exact lookup_ranks _ (nodup_firstSeen _) i s his
  · rw [hd, values_ranks, length_ranks]
  · rw [hd, keys_ranks]
    exact nodup_firstSeen _
  · rw [hd, values_ranks]
    exact nodup_range_cast _
  · intro s i hsi
    constructor
    · intro text cls
      have := dictionary_trainAll env (calls ++ [(text, cls)])
      rw [trainAll_concat, ← hknn, trainingStems_concat] at this
      rw [this]
      rw [hd] at hsi
      exact lookup_ranks_append _ _ s i hsi
    · intro text k o r hr
      rw [Predict_fst env knn text k o r hr]
      exact hsi

/-- C13 (class ids are first-seen ranks). In a state reached from `NewKNN()` by calls
of `Train` and `Predict`, the `i`-th distinct label given to `Train` (from `0`) has
the class id `i`; the ids are `0 .. M-1` without duplicates; `Train` with a registered
label leaves the registry as it is, and no call of `Train` or `Predict` changes an
id. -/
theorem classes_first_seen (env : Env F) (calls : List (String × String)) (knn : KNN F)
    (h : ReachableBy env calls knn) :
    knn.classes = ranks (firstSeen (calls.map Prod.snd)) ∧
    (∀ (i : Nat) (c : String), (firstSeen (calls.map Prod.snd))[i]? = some c →
      lookup knn.classes c = some (i : Int)) ∧
    knn.classes.map Prod.snd =
      (List.range knn.classes.length).map (fun (i : Nat) => (i : Int)) ∧
    (knn.classes.map Prod.fst).Nodup ∧ (knn.classes.map Prod.snd).Nodup ∧
    (∀ (c : String) (i : Int), lookup knn.classes c = some i →
      (∀ text, (Train env knn text c).classes = knn.classes) ∧
      (∀ text cls, lookup (Train env knn text cls).classes c = some i) ∧
      (∀ text k o r, Predict env knn text k o = some r →
        lookup r.1.classes c = some i)) := by
  have hknn := eq_trainAll_of_reachableBy env h
  have hc : knn.classes = ranks (firstSeen (calls.map Prod.snd)) := by
    rw [hknn, classes_trainAll]
  refine ⟨hc, ?_, ?_, ?_, ?_, ?_⟩
  · intro i c hic
    rw [hc]
    exact lookup_ranks _ (nodup_firstSeen _) i c hic
  · rw [hc, values_ranks, length_ranks]
  · rw [hc, keys_ranks]
    exact nodup_firstSeen _
  · rw [hc, values_ranks]
    exact nodup_range_cast _
  · intro c i hci
    refine ⟨?_, ?_, ?_⟩
    · intro text
      rw [Train_classes]
      unfold Train.register
      rw [hci]
    · intro text cls
      have := classes_trainAll env (calls ++ [(text, cls)])
      rw [trainAll_concat, ← hknn, List.map_append] at this
      rw [this]
      rw [hc] at hci
      exact lookup_ranks_append _ _ c i hci
    · intro text k o r hr
      rw [Predict_fst env knn text k o r hr]
      exact hci

end FirstSeen

section Labels
variable {F : Type}

theorem length_documents_trainAll (env : Env F) (calls : List (String × String)) :
    (trainAll env calls).documents.length = calls.length := by
  induction calls using List.reverseRecOn with
  | nil => rfl
  | append_singleton calls c ih =>
    obtain ⟨text, cls⟩ := c
    rw [trainAll_concat, Train_documents]
    simp [ih]

/-- The document at position `i` has the class id that the registry gives to the label
of the `i`-th call of `Train`. -/
theorem documents_trainAll (env : Env F) (calls : List (String × String)) (i : Nat)
    (d : Document F) (c : String × String) (hd : (trainAll env calls).documents[i]? = some d)
    (hc : calls[i]? = some c) : lookup (trainAll env calls).classes c.2 = some d.classId := by
  induction calls using List.reverseRecOn generalizing i d c with
  | nil => simp at hc
  | append_singleton calls c' ih =>
    obtain ⟨text, cls⟩ := c'
    have hlen := length_documents_trainAll env calls
    rw [trainAll_concat] at hd ⊢
    by_cases hi : i < calls.length
    · rw [Train_documents, List.getElem?_append_left (by omega)] at hd
      rw [List.getElem?_append_left hi] at hc
      have hold := ih i d c hd hc
      have hcl := classes_trainAll env (calls ++ [(text, cls)])
      rw [trainAll_concat, List.map_append] at hcl
      rw [hcl]
      rw [classes_trainAll] at hold
      exact lookup_ranks_append _ _ _ _ hold
    · have hi' : i = calls.length := by
        have := (List.getElem?_eq_some_iff.1 hc).1
        simp at this
        omega
      subst hi'
      rw [Train_documents, ← hlen, List.getElem?_concat_length] at hd
      rw [List.getElem?_concat_length] at hc
      simp only [Option.some.injEq] at hd hc
      subst hd hc
      exact lookup_register _ _

theorem eq_of_mem_of_nodup_values {K V : Type} {m : List (K × V)} (hn : (m.map Prod.snd).Nodup)
    {a b : K} {v : V} (ha : (a, v) ∈ m) (hb : (b, v) ∈ m) : a = b := by
  have := List.inj_on_of_nodup_map hn ha hb rfl
  exact congrArg Prod.fst this

/-- When a neighbour votes, the selected class id is the class id of a voting
neighbour. -/
theorem run_classId_mem [LinearOrder F] (env : Env F) (knn : KNN F) (text : String) (k : Int)
    (o : Runtime F) (ho : o.Valid) (t : Predict.Trace F)
    (h : Predict.run env knn text k o = some t) (hV : t.neighbours.take k.toNat ≠ []) :
    ∃ nb ∈ t.neighbours.take k.toNat, nb.document.classId = t.classId := by
  obtain ⟨ns, hk, hd, hs, hc, hn, hcc, hid, hcls⟩ := run_eq_some env knn text k o t h
  obtain ⟨c1, c2, c3⟩ := countClasses_spec t.neighbours k
  obtain ⟨m1, m2⟩ := mostPopular_spec (o.rangeClassCount t.classCount)
  have hperm := ho.rangeClassCount t.classCount
  rw [← hcc] at c1 c2 c3
  obtain ⟨nb, hnb⟩ := List.exists_mem_of_ne_nil _ hV
  have hvote : nb.document.classId ∈
      (t.neighbours.take k.toNat).map (fun n => n.document.classId) :=
    List.mem_map.2 ⟨nb, hnb, rfl⟩
  obtain ⟨e, he, he1⟩ := List.mem_map.1 ((c2 _).2 hvote)
  have hpos : 1 ≤ e.2 := by
    have hmem := (c2 e.1).1 (List.mem_map.2 ⟨e, he, rfl⟩)
    have := List.count_pos_iff.2 hmem
    rw [c3 e he]
    exact_mod_cast this
  have hle := m1 e (hperm.mem_iff.2 he)
  rcases m2 with m2 | m2
  · rw [m2] at hle
    simp only at hle
    omega
  · have hb := hperm.mem_iff.1 m2
    have hkey := (c2 _).1 (List.mem_map.2 ⟨_, hb, rfl⟩)
    rw [← hid] at hkey
    obtain ⟨nb', hnb', hcl⟩ := List.mem_map.1 hkey
    exact ⟨nb', hnb', hcl⟩

/-- C18 (label resolution). In a state reached from `NewKNN()` by calls of `Train` and
`Predict`, for `k ≥ 1` and a query that scores at least one document, `Predict` returns
the label that the class registry maps to the selected class id; it is the label given
to `Train` for one of the voting neighbours, and it is the only label with this id:
every stored class id is registered and no two labels share an id. -/
theorem Predict_label_resolution [LinearOrder F] (env : Env F)
    (calls : List (String × String)) (knn : KNN F) (text : String) (k : Int) (o : Runtime F)
    (t : Predict.Trace F) (h : ReachableBy env calls knn) (ho : o.Valid) (hk : 1 ≤ k)
    (ht : Predict.run env knn text k o = some t) (hs : t.similarities ≠ []) :
    Predict env knn text k o = some (knn, t.cls) ∧
    lookup knn.classes t.cls = some t.classId ∧
    (∀ c, (c, t.classId) ∈ knn.classes → c = t.cls) ∧
    (∃ nb ∈ t.neighbours.take k.toNat, nb.document.classId = t.classId ∧
      ∃ (i : Nat) (c : String × String),
        knn.documents[i]? = some nb.document ∧ calls[i]? = some c ∧ c.2 = t.cls) ∧
    (∀ d ∈ knn.documents, d.classId ∈ knn.classes.map Prod.snd) ∧
    (∀ c c' i, (c, i) ∈ knn.classes → (c', i) ∈ knn.classes → c = c') := by
  have hknn := eq_trainAll_of_reachableBy env h
  have hcl : knn.classes = ranks (firstSeen (calls.map Prod.snd)) := by
    rw [hknn, classes_trainAll]
  have hkeys : (knn.classes.map Prod.fst).Nodup := by
    rw [hcl, keys_ranks]
    exact nodup_firstSeen _
  have hvals : (knn.classes.map Prod.snd).Nodup := by
    rw [hcl, values_ranks]
    exact nodup_range_cast _
  -- every stored document has the registered id of the label of its call
  have hdocs : ∀ d ∈ knn.documents, ∃ (i : Nat) (c : String × String),
      knn.documents[i]? = some d ∧ calls[i]? = some c ∧
      lookup knn.classes c.2 = some d.classId := by
    intro d hd
    obtain ⟨i, hi⟩ := List.mem_iff_getElem?.1 hd
    have hlt : i < calls.length := by
      have := (List.getElem?_eq_some_iff.1 hi).1
      rwa [hknn, length_documents_trainAll] at this
    refine ⟨i, calls[i], hi, List.getElem?_eq_getElem hlt, ?_⟩
    have := documents_trainAll env calls i d calls[i] (by rw [← hknn]; exact hi)
      (List.getElem?_eq_getElem hlt)
    rwa [← hknn] at this
  obtain ⟨n1, n2, n3, _⟩ := run_neighbours env knn text k o ho t ht
  obtain ⟨ns, hknn', _, _, _, _, _, _, hcls⟩ := run_eq_some env knn text k o t ht
  have hV : t.neighbours.take k.toNat ≠ [] := by
    intro hnil
    have hlen := congrArg List.length hnil
    rw [List.length_take, n3] at hlen
    have h1 : 0 < t.similarities.length := List.length_pos.2 hs
    have h2 : 0 < k.toNat := by omega
    simp only [List.length_nil] at hlen
    omega
  obtain ⟨nb, hnb, hnbc⟩ := run_classId_mem env knn text k o ho t ht hV
  obtain ⟨i, c, hi, hc, hreg⟩ := hdocs nb.document (n2 nb (List.mem_of_mem_take hnb))
  rw [hnbc] at hreg
  have hmem : (c.2, t.classId) ∈ knn.classes := mem_of_lookup_eq_some hreg
  have hcname : t.cls = c.2 := by
    rw [hcls]
    have := className_mem (o.rangeClasses knn.classes) t.classId
      (List.mem_map.2 ⟨_, (ho.rangeClasses _).mem_iff.2 hmem, rfl⟩)
    exact eq_of_mem_of_nodup_values hvals ((ho.rangeClasses _).mem_iff.1 this) hmem
  refine ⟨?_, ?_, ?_, ⟨nb, hnb, hnbc, i, c, hi, hc, hcname.symm⟩, ?_, ?_⟩
  · rw [Predict_eq_of_run env knn text k o t ht, hknn']
  · rw [hcname]
    exact hreg
  · intro c' hc'
    rw [hcname]
    exact eq_of_mem_of_nodup_values hvals hc' hmem
  · intro d hd
    obtain ⟨_, c', _, _, hreg'⟩ := hdocs d hd
    exact List.mem_map.2 ⟨_, mem_of_lookup_eq_some hreg', rfl⟩
  · intro c c' i' hc1 hc2
    exact eq_of_mem_of_nodup_values hvals hc1 hc2

end Labels

section Normalise
variable {F : Type}

theorem increment_ne_nil (terms : List (Int × Int)) (t : Int) : increment terms t ≠ [] := by
  unfold increment
  cases terms with
  | nil => simp [store]
  | cons e m =>
    obtain ⟨k', v'⟩ := e
    simp only [store]
    split <;> simp

theorem step_snd (env : Env F) (b : Bool) (st : List (String × Int) × List (Int × Int))
    (w : String) : ∃ t, (newDocument.step env b st w).2 = increment st.2 t := by
  unfold newDocument.step
  dsimp only
  split
  · exact ⟨_, rfl⟩
  · cases b
    · exact ⟨_, rfl⟩
    · exact ⟨_, rfl⟩

/-- The counts after the loop over the words: one entry per key, every count at least
`1`, and no entry only when there is no word. -/
theorem foldl_step_counts (env : Env F) (b : Bool) (ws : List String)
    (st : List (String × Int) × List (Int × Int))
    (hn : (st.2.map Prod.fst).Nodup) (h1 : ∀ e ∈ st.2, 1 ≤ e.2) :
    ((ws.foldl (newDocument.step env b) st).2.map Prod.fst).Nodup ∧
    (∀ e ∈ (ws.foldl (newDocument.step env b) st).2, 1 ≤ e.2) ∧
    (ws ≠ [] → (ws.foldl (newDocument.step env b) st).2 ≠ []) ∧
    (st.2 ≠ [] → (ws.foldl (newDocument.step env b) st).2 ≠ []) := by
  induction ws generalizing st with
  | nil => exact ⟨hn, h1, fun h => absurd rfl h, fun h => h⟩
  | cons w ws ih =>
    rw [List.foldl_cons]
    obtain ⟨t, ht⟩ := step_snd env b st w
    have hn' : ((newDocument.step env b st w).2.map Prod.fst).Nodup := by
      rw [ht]
      exact nodup_keys_store _ _ hn
    have h1' : ∀ e ∈ (newDocument.step env b st w).2, 1 ≤ e.2 := by
      rw [ht]
      intro e he
      rcases mem_store_cases he with rfl | he
      · show 1 ≤ lookupD st.2 t 0 + 1
        have : 0 ≤ lookupD st.2 t 0 := by
          unfold lookupD
          cases hl : lookup st.2 t with
          | none => simp
          | some v =>
            have := h1 _ (mem_of_lookup_eq_some hl)
            simp only [Option.getD_some]
            omega
        omega
      · exact h1 e he
    have hne : (newDocument.step env b st w).2 ≠ [] := by
      rw [ht]
      exact increment_ne_nil _ _
    obtain ⟨r1, r2, _, r4⟩ := ih _ hn' h1'
    exact ⟨r1, r2, fun _ => r4 hne, fun _ => r4 hne⟩

theorem count_snd_nil (env : Env F) (d : List (String × Int)) (text : String) (b : Bool)
    (h : FieldsFunc text (isAlphaNum env) = []) : (newDocument.count env d text b) = (d, []) := by
  unfold newDocument.count
  rw [h]
  rfl

/-- Writes under keys that differ from one another and from the keys of the map extend
the map by one entry each. -/
theorem foldl_store_eq_append {K A V : Type} [DecidableEq K] (key : A → K) (val : A → V)
    (l : List A) (m : List (K × V)) (hn : (l.map key).Nodup)
    (hd : ∀ a ∈ l, key a ∉ m.map Prod.fst) :
    l.foldl (fun m a => store m (key a) (val a)) m = m ++ l.map (fun a => (key a, val a)) := by
  induction l generalizing m with
  | nil => simp
  | cons a l ih =>
    simp only [List.map_cons, List.nodup_cons] at hn
    rw [List.foldl_cons, store_of_not_mem _ _ _ (hd a (by simp)), ih _ hn.2]
    · simp
    · intro a' ha'
      simp only [List.map_append, List.map_cons, List.map_nil, List.mem_append,
        List.mem_singleton, not_or]
      refine ⟨hd a' (by simp [ha']), ?_⟩
      intro heq
      exact hn.1 (heq ▸ List.mem_map.2 ⟨a', ha', rfl⟩)

theorem normalize_eq_map (env : Env F) (terms : List (Int × Int)) (mag : F)
    (hn : (terms.map Prod.fst).Nodup) :
    newDocument.normalize env terms mag =
      terms.map (fun tc => (tc.1, env.div (env.float64 tc.2) mag)) := by
  unfold newDocument.normalize
  rw [foldl_store_eq_append (fun tc : Int × Int => tc.1)
    (fun tc => env.div (env.float64 tc.2) mag) terms [] hn (by simp)]
  simp

theorem foldl_add_eq_sum [LinearOrderedField F] {A : Type} (f : A → F) (l : List A) (a : F) :
    l.foldl (fun m x => m + f x) a = a + (l.map f).sum := by
  induction l generalizing a with
  | nil => simp
  | cons x l ih =>
    rw [List.foldl_cons, ih]
    simp [add_assoc]

/-- In exact arithmetic the magnitude is the square root of the sum of the squares of
the counts. -/
theorem magnitude_exact [LinearOrderedField F] (env : Env F) (he : env.Exact)
    (terms : List (Int × Int)) :
    newDocument.magnitude env terms =
      env.Sqrt ((terms.map (fun tc => (tc.2 : F) * (tc.2 : F))).sum) := by
  unfold newDocument.magnitude
  have h0 : env.float64 0 = 0 := by rw [he.float64_eq]; simp
  have hf : (fun (m : F) (tc : Int × Int) =>
      env.add m (env.Pow (env.float64 tc.2) (env.float64 2))) =
      (fun m tc => m + (tc.2 : F) * (tc.2 : F)) := by
    funext m tc
    rw [he.add_eq, he.pow_two, he.float64_eq]
  rw [hf, foldl_add_eq_sum, h0, zero_add]

theorem sum_squares_pos [LinearOrderedField F] (terms : List (Int × Int))
    (h1 : ∀ e ∈ terms, 1 ≤ e.2) (hne : terms ≠ []) :
    0 < (terms.map (fun tc => (tc.2 : F) * (tc.2 : F))).sum := by
  cases terms with
  | nil => exact absurd rfl hne
  | cons e terms =>
    simp only [List.map_cons, List.sum_cons]
    have he : (1 : F) ≤ (e.2 : F) := by exact_mod_cast h1 e (by simp)
    have h2 : 0 ≤ (terms.map (fun tc : Int × Int => (tc.2 : F) * (tc.2 : F))).sum := by
      apply List.sum_nonneg
      intro x hx
      obtain ⟨tc, _, rfl⟩ := List.mem_map.1 hx
      exact mul_self_nonneg _
    have h3 : 0 < (e.2 : F) * (e.2 : F) := by positivity
    linarith

/-- In exact arithmetic the magnitude of a vector of counts with an entry is
positive. -/
theorem magnitude_pos [LinearOrderedField F] (env : Env F) (he : env.Exact)
    (terms : List (Int × Int)) (h1 : ∀ e ∈ terms, 1 ≤ e.2) (hne : terms ≠ []) :
    0 < newDocument.magnitude env terms ∧
    newDocument.magnitude env terms * newDocument.magnitude env terms =
      (terms.map (fun tc => (tc.2 : F) * (tc.2 : F))).sum := by
  have hpos := sum_squares_pos (F := F) terms h1 hne
  rw [magnitude_exact env he]
  have hsq := he.sqrt_mul_self _ (le_of_lt hpos)
  refine ⟨?_, hsq⟩
  rcases (he.sqrt_nonneg _ (le_of_lt hpos)).lt_or_eq with h | h
  · exact h
  · rw [← h] at hsq
    simp at hsq
    rw [← hsq] at hpos
    exact absurd hpos (lt_irrefl _)

/-- In exact arithmetic the weights of a vector of counts with an entry are positive
and the sum of their squares is `1`. -/
theorem normalize_exact [LinearOrderedField F] (env : Env F) (he : env.Exact)
    (terms : List (Int × Int)) (hn : (terms.map Prod.fst).Nodup)
    (h1 : ∀ e ∈ terms, 1 ≤ e.2) (hne : terms ≠ []) :
    newDocument.normalize env terms (newDocument.magnitude env terms) =
      terms.map (fun tc => (tc.1, (tc.2 : F) /
        env.Sqrt ((terms.map (fun tc => (tc.2 : F) * (tc.2 : F))).sum))) ∧
    (∀ tw ∈ newDocument.normalize env terms (newDocument.magnitude env terms), 0 < tw.2) ∧
    ((newDocument.normalize env terms (newDocument.magnitude env terms)).map
      (fun tw => tw.2 * tw.2)).sum = 1 := by
  obtain ⟨hpos, hsq⟩ := magnitude_pos env he terms h1 hne
  have hform : newDocument.normalize env terms (newDocument.magnitude env terms) =
      terms.map (fun tc => (tc.1, (tc.2 : F) / newDocument.magnitude env terms)) := by
    rw [normalize_eq_map env terms _ hn]
    apply List.map_congr_left
    intro tc _
    rw [he.div_eq, he.float64_eq]
  refine ⟨by rw [hform, magnitude_exact env he], ?_, ?_⟩
  · intro tw htw
    rw [hform] at htw
    obtain ⟨tc, htc, rfl⟩ := List.mem_map.1 htw
    have : (1 : F) ≤ (tc.2 : F) := by exact_mod_cast h1 tc htc
    exact div_pos (by linarith) hpos
  · rw [hform, List.map_map]
    have hfun : ((fun tw : Int × F => tw.2 * tw.2) ∘
        fun tc : Int × Int => (tc.1, (tc.2 : F) / newDocument.magnitude env terms)) =
        fun tc => ((tc.2 : F) * (tc.2 : F)) *
          (newDocument.magnitude env terms * newDocument.magnitude env terms)⁻¹ := by
      funext tc
      simp only [Function.comp]
      field_simp
    rw [hfun, List.sum_map_mul_right, hsq]
    exact mul_inv_cancel₀ (ne_of_gt (sum_squares_pos terms h1 hne))

end Normalise

section Counts
variable {F : Type}

/-- One step of the loop over the words: the count of the term id of the word, under
the dictionary after the step, goes up by one, and the ids of the dictionary stay. -/
theorem step_spec (env : Env F) (b : Bool) (st : List (String × Int) × List (Int × Int))
    (w : String) :
    (newDocument.step env b st w).2 =
      increment st.2 (termIdOf env (newDocument.step env b st w).1 w) ∧
    (∀ s i, lookup st.1 s = some i → lookup (newDocument.step env b st w).1 s = some i) ∧
    (lookup (newDocument.step env b st w).1 (env.StemString w) = none → b = false) := by
  unfold newDocument.step termIdOf
  dsimp only
  cases hl : lookup st.1 (env.StemString w) with
  | some i =>
    refine ⟨?_, ?_, ?_⟩
    · simp [hl]
    · exact fun s i h => h
    · simp [hl]
  | none =>
    cases b
    · refine ⟨?_, ?_, ?_⟩
      · simp [hl]
      · exact fun s i h => h
      · simp
    · refine ⟨?_, ?_, ?_⟩
      · simp [lookup_store]
      · intro s i h
        have hne : env.StemString w ≠ s := by
          rintro rfl
          rw [hl] at h
          exact absurd h (by simp)
        simp [lookup_store, hne, h]
      · simp [lookup_store]

theorem foldl_step_lookup (env : Env F) (b : Bool) (ws : List String)
    (st : List (String × Int) × List (Int × Int)) (s : String) (i : Int)
    (h : lookup st.1 s = some i) :
    lookup (ws.foldl (newDocument.step env b) st).1 s = some i := by
  induction ws generalizing st with
  | nil => exact h
  | cons w ws ih =>
    rw [List.foldl_cons]
    exact ih _ ((step_spec env b st w).2.1 s i h)

/-- The term id of a word under the dictionary after a step is its term id under the
dictionary after the loop. -/
theorem termIdOf_foldl (env : Env F) (b : Bool) (ws : List String)
    (st : List (String × Int) × List (Int × Int)) (w : String) :
    termIdOf env (ws.foldl (newDocument.step env b) (newDocument.step env b st w)).1 w =
      termIdOf env (newDocument.step env b st w).1 w := by
  unfold termIdOf
  cases hl : lookup (newDocument.step env b st w).1 (env.StemString w) with
  | some i => rw [foldl_step_lookup env b ws _ _ i hl]
  | none =>
    have hb := (step_spec env b st w).2.2 hl
    subst hb
    rw [foldl_step_false_fst, hl]

theorem lookupD_increment (terms : List (Int × Int)) (t t' : Int) :
    lookupD (increment terms t) t' 0 = lookupD terms t' 0 + if t = t' then 1 else 0 := by
  unfold increment
  rw [lookupD_store]
  by_cases h : t = t'
  · subst h
    simp
  · simp [h]

/-- The counts after the loop over the words are the numbers of occurrences of the
term ids of the words, under the dictionary after the loop. -/
theorem lookupD_foldl_step (env : Env F) (b : Bool) (ws : List String)
    (st : List (String × Int) × List (Int × Int)) (t : Int) :
    lookupD (ws.foldl (newDocument.step env b) st).2 t 0 =
      lookupD st.2 t 0 +
        List.count t (ws.map (termIdOf env (ws.foldl (newDocument.step env b) st).1)) := by
  induction ws generalizing st with
  | nil => simp
  | cons w ws ih =>
    rw [List.foldl_cons, ih, (step_spec env b st w).1, lookupD_increment, List.map_cons,
      List.count_cons, termIdOf_foldl]
    by_cases h : termIdOf env (newDocument.step env b st w).1 w = t
    · simp [h]
      ring
    · simp [h, Ne.symm h]

/-- The sum over the counts of `count * g(term id)` is the sum over the words of
`g(term id of the word)`. -/
theorem sum_increment {M : Type} [CommRing M] (g : Int → M) (terms : List (Int × Int))
    (t : Int) :
    ((increment terms t).map (fun tc => (tc.2 : M) * g tc.1)).sum =
      (terms.map (fun tc => (tc.2 : M) * g tc.1)).sum + g t := by
  induction terms with
  | nil => simp [increment, store, lookupD, lookup]
  | cons e m ih =>
    obtain ⟨k', v'⟩ := e
    by_cases hk : k' = t
    · subst hk
      simp [increment, store, lookupD, lookup]
      ring
    · have hstep : increment ((k', v') :: m) t = (k', v') :: increment m t := by
        simp [increment, store, lookupD, lookup, hk]
      rw [hstep, List.map_cons, List.sum_cons, ih, List.map_cons, List.sum_cons]
      ring

theorem sum_foldl_step {M : Type} [CommRing M] (env : Env F) (b : Bool) (g : Int → M)
    (ws : List String) (st : List (String × Int) × List (Int × Int)) :
    ((ws.foldl (newDocument.step env b) st).2.map (fun tc => (tc.2 : M) * g tc.1)).sum =
      (st.2.map (fun tc => (tc.2 : M) * g tc.1)).sum +
        (ws.map (fun w => g (termIdOf env (ws.foldl (newDocument.step env b) st).1 w))).sum := by
  induction ws generalizing st with
  | nil => simp
  | cons w ws ih =>
    rw [List.foldl_cons, ih, (step_spec env b st w).1, sum_increment, List.map_cons,
      List.sum_cons, termIdOf_foldl]
    ring

end Counts

section Vectors
variable {F : Type}

/-- The real numbers with `Real.sqrt` and the real power are an exact arithmetic. -/
theorem Env.ofField_real_exact : (Env.ofField Real.sqrt (fun x y => x ^ y)).Exact :=
  { float64_eq := fun _ => rfl
    add_eq := fun _ _ => rfl
    mul_eq := fun _ _ => rfl
    div_eq := fun _ _ => rfl
    pow_two := fun x => by
      show x ^ (((2 : Int) : ℝ)) = x * x
      rw [show (((2 : Int) : ℝ)) = (2 : ℝ) by norm_num, Real.rpow_two, sq]
    sqrt_nonneg := fun x _ => Real.sqrt_nonneg x
    sqrt_mul_self := fun x hx => Real.mul_self_sqrt hx }

theorem Env.ofField_ascii [LinearOrderedField F] (sqrt : F → F) (pow : F → F → F) :
    (Env.ofField sqrt pow).Ascii := fun _ _ => ⟨rfl, rfl⟩

theorem count_facts (env : Env F) (d : List (String × Int)) (text : String) (b : Bool) :
    ((newDocument.count env d text b).2.map Prod.fst).Nodup ∧
    (∀ e ∈ (newDocument.count env d text b).2, 1 ≤ e.2) ∧
    (FieldsFunc text (isAlphaNum env) ≠ [] → (newDocument.count env d text b).2 ≠ []) := by
  obtain ⟨r1, r2, r3, _⟩ := foldl_step_counts env b (FieldsFunc text (isAlphaNum env)) (d, [])
    (by simp) (by simp)
  exact ⟨r1, r2, r3⟩

/-- In exact arithmetic every document stored from a text with a word has positive
weights whose squares add up to `1`. -/
theorem documents_normalised [LinearOrderedField F] (env : Env F) (he : env.Exact)
    (calls : List (String × String)) (i : Nat) (d : Document F) (c : String × String)
    (hd : (trainAll env calls).documents[i]? = some d) (hc : calls[i]? = some c)
    (htok : FieldsFunc c.1 (isAlphaNum env) ≠ []) :
    (∀ tw ∈ d.terms, 0 < tw.2) ∧ (d.terms.map (fun tw => tw.2 * tw.2)).sum = 1 := by
  induction calls using List.reverseRecOn generalizing i d c with
  | nil => simp at hc
  | append_singleton calls c' ih =>
    obtain ⟨text, cls⟩ := c'
    have hlen := length_documents_trainAll env calls
    rw [trainAll_concat] at hd
    by_cases hi : i < calls.length
    · rw [Train_documents, List.getElem?_append_left (by omega)] at hd
      rw [List.getElem?_append_left hi] at hc
      exact ih i d c hd hc htok
    · have hi' : i = calls.length := by
        have := (List.getElem?_eq_some_iff.1 hc).1
        simp at this
        omega
      subst hi'
      rw [Train_documents, ← hlen, List.getElem?_concat_length] at hd
      rw [List.getElem?_concat_length] at hc
      simp only [Option.some.injEq] at hd hc
      subst hd hc
      obtain ⟨c1, c2, c3⟩ := count_facts env (trainAll env calls).dictionary text true
      obtain ⟨_, n2, n3⟩ := normalize_exact env he _ c1 c2 (c3 htok)
      exact ⟨n2, n3⟩

/-- C15 (vector normalisation). In exact arithmetic, for a text with at least one
word, the document built by `newDocument` has for each term id the weight
`count / sqrt(sum of count^2)`, where the counts are the numbers of occurrences of the
term ids among the words of the text; every weight is positive and the squares of the
weights add up to `1`. So has the document that `Train` stores, and so has every stored
document of a reachable state whose text had a word. -/
theorem newDocument_normalised [LinearOrderedField F] (env : Env F) (knn : KNN F)
    (text : String) (addTerms : Bool) (he : env.Exact)
    (htok : FieldsFunc text (isAlphaNum env) ≠ []) :
    (∀ t, lookupD (newDocument.count env knn.dictionary text addTerms).2 t 0 =
      List.count t ((FieldsFunc text (isAlphaNum env)).map
        (termIdOf env (newDocument env knn text addTerms).1.dictionary))) ∧
    (newDocument env knn text addTerms).2.terms =
      (newDocument.count env knn.dictionary text addTerms).2.map (fun tc =>
        (tc.1, (tc.2 : F) / env.Sqrt
          (((newDocument.count env knn.dictionary text addTerms).2.map
            (fun tc => (tc.2 : F) * (tc.2 : F))).sum))) ∧
    (∀ tw ∈ (newDocument env knn text addTerms).2.terms, 0 < tw.2) ∧
    ((newDocument env knn text addTerms).2.terms.map (fun tw => tw.2 * tw.2)).sum = 1 ∧
    (∀ cls, ∃ d, (Train env knn text cls).documents = knn.documents ++ [d] ∧
      (∀ tw ∈ d.terms, 0 < tw.2) ∧ (d.terms.map (fun tw => tw.2 * tw.2)).sum = 1) ∧
    (∀ (calls : List (String × String)) (knn' : KNN F), ReachableBy env calls knn' →
      ∀ (i : Nat) (d : Document F) (c : String × String),
        knn'.documents[i]? = some d → calls[i]? = some c →
        FieldsFunc c.1 (isAlphaNum env) ≠ [] →
        (∀ tw ∈ d.terms, 0 < tw.2) ∧ (d.terms.map (fun tw => tw.2 * tw.2)).sum = 1) := by
  obtain ⟨c1, c2, c3⟩ := count_facts env knn.dictionary text addTerms
  obtain ⟨n1, n2, n3⟩ := normalize_exact env he _ c1 c2 (c3 htok)
  refine ⟨?_, n1, n2, n3, ?_, ?_⟩
  · intro t
    have := lookupD_foldl_step env addTerms (FieldsFunc text (isAlphaNum env))
      (knn.dictionary, []) t
    simpa [lookupD, lookup, newDocument, newDocument.count] using this
  · intro cls
    obtain ⟨c1', c2', c3'⟩ := count_facts env knn.dictionary text true
    obtain ⟨_, n2', n3'⟩ := normalize_exact env he _ c1' c2' (c3' htok)
    exact ⟨_, Train_documents env knn text cls, n2', n3'⟩
  · intro calls knn' hr i d c hd hc htok'
    rw [eq_trainAll_of_reachableBy env hr] at hd
    exact documents_normalised env he calls i d c hd hc htok'

/-- C16 (empty input never divides by zero). In exact arithmetic the magnitude computed
by `newDocument` is zero exactly when the text has no word; then the counts and the
weights of the returned document are empty, so that the loop that divides does not
run, and `Train` stores a document without weights and leaves the postings as they
are. -/
theorem newDocument_empty [LinearOrderedField F] (env : Env F) (knn : KNN F)
    (text : String) (addTerms : Bool) (he : env.Exact) :
    (newDocument.magnitude env (newDocument.count env knn.dictionary text addTerms).2 = 0 ↔
      FieldsFunc text (isAlphaNum env) = []) ∧
    (FieldsFunc text (isAlphaNum env) = [] →
      (newDocument.count env knn.dictionary text addTerms).2 = [] ∧
      (newDocument env knn text addTerms).2.terms = [] ∧
      ∀ cls, (Train env knn text cls).postings = knn.postings ∧
        ∃ d, (Train env knn text cls).documents = knn.documents ++ [d] ∧ d.terms = []) := by
  constructor
  · constructor
    · intro hmag
      by_contra htok
      obtain ⟨c1, c2, c3⟩ := count_facts env knn.dictionary text addTerms
      have := (magnitude_pos env he _ c2 (c3 htok)).1
      rw [hmag] at this
      exact lt_irrefl _ this
    · intro htok
      rw [count_snd_nil env _ _ _ htok, magnitude_exact env he]
      have h0 := he.sqrt_mul_self 0 (le_refl _)
      simpa using h0
  · intro htok
    have hcount : ∀ b, newDocument.count env knn.dictionary text b = (knn.dictionary, []) :=
      fun b => count_snd_nil env _ _ _ htok
    have hterms : ∀ b, (newDocument env knn text b).2.terms = [] := by
      intro b
      simp [newDocument, hcount b, newDocument.normalize]
    refine ⟨by rw [hcount], hterms addTerms, fun cls => ⟨?_, _, Train_documents env knn text cls,
      hterms true⟩⟩
    rw [Train_postings, hterms true]
    rfl

end Vectors

section Formula
variable {F : Type} [LinearOrderedField F]

theorem float64_zero (env : Env F) (he : env.Exact) : env.float64 0 = 0 := by
  rw [he.float64_eq]
  simp

theorem scoreDoc_value (env : Env F) (he : env.Exact) (knn : KNN F) (q : Document F)
    (termId : Int) (sims sims' : List (Nat × F)) (i : Nat)
    (h : Predict.scoreDoc env knn q termId sims i = some sims') (p : Nat) :
    lookupD sims' p 0 = lookupD sims p 0 +
      if i = p then storedWeight env knn p termId * lookupD q.terms termId 0 else 0 := by
  unfold Predict.scoreDoc at h
  simp only [Option.bind_eq_bind, Option.bind_eq_some, Option.pure_def, Option.some.injEq] at h
  obtain ⟨d, hd, rfl⟩ := h
  rw [lookupD_store]
  by_cases hip : i = p
  · subst hip
    simp only [if_true, storedWeight, hd, he.add_eq, he.mul_eq, float64_zero env he]
  · simp [hip]

theorem foldlM_scoreDoc_value (env : Env F) (he : env.Exact) (knn : KNN F) (q : Document F)
    (termId : Int) (ids : List Nat) (hn : ids.Nodup) (sims sims' : List (Nat × F))
    (h : ids.foldlM (Predict.scoreDoc env knn q termId) sims = some sims') (p : Nat) :
    lookupD sims' p 0 = lookupD sims p 0 +
      if p ∈ ids then storedWeight env knn p termId * lookupD q.terms termId 0 else 0 := by
  induction ids generalizing sims with
  | nil =>
    simp only [List.foldlM_nil, Option.pure_def, Option.some.injEq] at h
    subst h
    simp
  | cons i ids ih =>
    simp only [List.foldlM_cons, Option.bind_eq_bind, Option.bind_eq_some] at h
    obtain ⟨s1, h1, h2⟩ := h
    simp only [List.nodup_cons] at hn
    rw [ih hn.2 _ h2, scoreDoc_value env he knn q termId sims s1 i h1 p]
    by_cases hip : i = p
    · subst hip
      simp [hn.1]
    · simp [hip, Ne.symm hip]

/-- In exact arithmetic, what the scoring loop over the terms `order` adds to the entry
of `similarities` for `p`. -/
theorem foldlM_scoreTerm_value (env : Env F) (he : env.Exact) (knn : KNN F) (q : Document F)
    (order : List (Int × F)) (sims sims' : List (Nat × F))
    (h : order.foldlM (fun s tw => Predict.scoreTerm env knn q s tw.1) sims = some sims')
    (p : Nat) :
    lookupD sims' p 0 = lookupD sims p 0 +
      (order.map (fun tw => scoreShare env knn p tw.1 * lookupD q.terms tw.1 0)).sum := by
  induction order generalizing sims with
  | nil =>
    simp only [List.foldlM_nil, Option.pure_def, Option.some.injEq] at h
    subst h
    simp
  | cons tw order ih =>
    simp only [List.foldlM_cons, Option.bind_eq_bind, Option.bind_eq_some] at h
    obtain ⟨s1, h1, h2⟩ := h
    rw [ih _ h2, foldlM_scoreDoc_value env he knn q tw.1 _ (List.nodup_range _) sims s1 h1 p]
    simp only [List.mem_range, List.map_cons, List.sum_cons, scoreShare]
    split <;> ring

end Formula

section Unknown
variable {F : Type}

theorem lookupD_of_mem {K V : Type} [DecidableEq K] {m : List (K × V)}
    (hn : (m.map Prod.fst).Nodup) {e : K × V} (he : e ∈ m) (z : V) : lookupD m e.1 z = e.2 := by
  unfold lookupD
  rw [lookup_eq_some_of_mem hn (show (e.1, e.2) ∈ m from he)]
  rfl

/-- The keys of the counts are the term ids of the words. -/
theorem mem_keys_count (env : Env F) (d : List (String × Int)) (text : String) (b : Bool)
    (t : Int) :
    t ∈ (newDocument.count env d text b).2.map Prod.fst ↔
      t ∈ (FieldsFunc text (isAlphaNum env)).map
        (termIdOf env (newDocument.count env d text b).1) := by
  obtain ⟨c1, c2, _⟩ := count_facts env d text b
  have hl := lookupD_foldl_step env b (FieldsFunc text (isAlphaNum env)) (d, []) t
  have hl' : lookupD (newDocument.count env d text b).2 t 0 =
      List.count t ((FieldsFunc text (isAlphaNum env)).map
        (termIdOf env (newDocument.count env d text b).1)) := by
    simpa [lookupD, lookup, newDocument.count] using hl
  constructor
  · intro hk
    obtain ⟨e, he, rfl⟩ := List.mem_map.1 hk
    have h1 := c2 e he
    rw [lookupD_of_mem c1 he] at hl'
    apply List.count_pos_iff.1
    omega
  · intro hm
    have hpos := List.count_pos_iff.2 hm
    by_contra hk
    have : lookup (newDocument.count env d text b).2 t = none :=
      (lookup_eq_none_iff _ _).2 hk
    unfold lookupD at hl'
    rw [this] at hl'
    simp only [Option.getD_none] at hl'
    omega

theorem count_false_terms_sum [LinearOrderedField F] (env : Env F) (d : List (String × Int))
    (text : String) (g : Int → F) :
    ((newDocument.count env d text false).2.map (fun tc => (tc.2 : F) * g tc.1)).sum =
      ((FieldsFunc text (isAlphaNum env)).map (fun w => g (termIdOf env d w))).sum := by
  have := sum_foldl_step env false g (FieldsFunc text (isAlphaNum env)) (d, [])
  rw [foldl_step_false_fst] at this
  simpa [newDocument.count] using this

/-- In exact arithmetic the similarity that a call of `Predict` gives to the index `p`
is the sum, over the words of the query, of the share of the term id of the word,
divided by the magnitude of the query. -/
theorem run_similarity [LinearOrderedField F] (env : Env F) (he : env.Exact) (knn : KNN F)
    (text : String) (k : Int) (o : Runtime F) (ho : o.Valid) (t : Predict.Trace F)
    (h : Predict.run env knn text k o = some t) (p : Nat) :
    lookupD t.similarities p 0 =
      ((FieldsFunc text (isAlphaNum env)).map
        (fun w => scoreShare env knn p (termIdOf env knn.dictionary w))).sum /
      newDocument.magnitude env (newDocument.count env knn.dictionary text false).2 := by
  obtain ⟨ns, _, hd, hs, _⟩ := run_eq_some env knn text k o t h
  obtain ⟨c1, _, _⟩ := count_facts env knn.dictionary text false
  have hq : t.document.terms = (newDocument.count env knn.dictionary text false).2.map
      (fun tc => (tc.1, (tc.2 : F) /
        newDocument.magnitude env (newDocument.count env knn.dictionary text false).2)) := by
    rw [hd]
    show newDocument.normalize env _ _ = _
    rw [normalize_eq_map env _ _ c1]
    apply List.map_congr_left
    intro tc _
    rw [he.div_eq, he.float64_eq]
  have hqn : (t.document.terms.map Prod.fst).Nodup := by
    rw [hd]
    exact nodup_keys_normalize env _ _
  have hval := foldlM_scoreTerm_value env he knn t.document _ [] t.similarities hs p
  have hperm : ((o.rangeTerms t.document.terms).map
      (fun tw => scoreShare env knn p tw.1 * lookupD t.document.terms tw.1 0)).sum =
      (t.document.terms.map
        (fun tw => scoreShare env knn p tw.1 * lookupD t.document.terms tw.1 0)).sum :=
    ((ho.rangeTerms t.document.terms).map _).sum_eq
  have hself : t.document.terms.map
      (fun tw => scoreShare env knn p tw.1 * lookupD t.document.terms tw.1 0) =
      t.document.terms.map (fun tw => scoreShare env knn p tw.1 * tw.2) := by
    apply List.map_congr_left
    intro tw htw
    rw [lookupD_of_mem hqn htw]
  rw [hval, hperm, hself, hq, List.map_map, ← count_false_terms_sum env knn.dictionary text
    (fun t => scoreShare env knn p t)]
  simp only [lookupD, lookup, Option.getD_none, zero_add, Function.comp]
  rw [div_eq_mul_inv, ← List.sum_map_mul_right]
  apply congrArg
  apply List.map_congr_left
  intro tc _
  simp only [Function.comp, div_eq_mul_inv]
  ring

/-- The keys of `similarities` are the indices below the length of the postings list
of the term id of some word of the query. -/
theorem run_scored [LinearOrder F] (env : Env F) (knn : KNN F) (text : String) (k : Int)
    (o : Runtime F) (ho : o.Valid) (t : Predict.Trace F)
    (h : Predict.run env knn text k o = some t) (p : Nat) :
    p ∈ t.similarities.map Prod.fst ↔
      ∃ w ∈ FieldsFunc text (isAlphaNum env),
        p < (lookupD knn.postings (termIdOf env knn.dictionary w) []).length := by
  obtain ⟨ns, _, hd, hs, _⟩ := run_eq_some env knn text k o t h
  obtain ⟨s1, _, _⟩ := score_eq_some env knn _ _ _ hs
  have hkeys : ∀ i, i ∈ t.document.terms.map Prod.fst ↔
      i ∈ (FieldsFunc text (isAlphaNum env)).map (termIdOf env knn.dictionary) := by
    intro i
    rw [hd]
    show i ∈ (newDocument.normalize env _ _).map Prod.fst ↔ _
    rw [mem_keys_normalize, mem_keys_count, count_false_fst]
  rw [s1]
  constructor
  · rintro ⟨tw, htw, hlt⟩
    have := (hkeys tw.1).1 (List.mem_map.2 ⟨tw, (ho.rangeTerms _).mem_iff.1 htw, rfl⟩)
    obtain ⟨w, hw, hwt⟩ := List.mem_map.1 this
    exact ⟨w, hw, by rw [hwt]; exact hlt⟩
  · rintro ⟨w, hw, hlt⟩
    have := (hkeys _).2 (List.mem_map.2 ⟨w, hw, rfl⟩)
    obtain ⟨tw, htw, htw1⟩ := List.mem_map.1 this
    exact ⟨tw, (ho.rangeTerms _).mem_iff.2 htw, by rw [htw1]; exact hlt⟩

theorem Inserted.sum_eq {A M : Type} [AddCommMonoid M] {p : A → Prop} {ws ws' : List A}
    (h : Inserted p ws ws') (g : A → M) (hg : ∀ w, p w → g w = 0) :
    (ws'.map g).sum = (ws.map g).sum := by
  induction h with
  | nil => rfl
  | keep w _ ih => simp [ih]
  | insert w hw _ ih => simp [ih, hg w hw]

theorem Inserted.exists_iff {A : Type} {p : A → Prop} {ws ws' : List A}
    (h : Inserted p ws ws') (P : A → Prop) (hP : ∀ w, p w → ¬ P w) :
    (∃ w ∈ ws', P w) ↔ ∃ w ∈ ws, P w := by
  induction h with
  | nil => rfl
  | keep w _ ih =>
    simp only [List.mem_cons, exists_eq_or_imp, ih]
  | insert w hw _ ih =>
    simp only [List.mem_cons, exists_eq_or_imp, ih, hP w hw, false_or]

theorem Inserted.ne_nil {A : Type} {p : A → Prop} {ws ws' : List A}
    (h : Inserted p ws ws') (hne : ws ≠ []) : ws' ≠ [] := by
  cases h with
  | nil => exact hne
  | keep w _ => simp
  | insert w _ _ => simp

theorem termIdOf_unknown (env : Env F) (d : List (String × Int)) (w : String)
    (h : lookup d (env.StemString w) = none) : termIdOf env d w = -1 := by
  unfold termIdOf
  rw [h]
  rfl

theorem scoreShare_unknown [Zero F] (env : Env F) {knn : KNN F} (hinv : Inv knn) (p : Nat) :
    scoreShare env knn p (-1) = 0 := by
  unfold scoreShare
  rw [lookupD_postings_neg hinv]
  simp

end Unknown

section Transfer
variable {F : Type}

theorem Predict_eq_bind (env : Env F) (knn : KNN F) (text : String) (k : Int) (o : Runtime F) :
    Predict env knn text k o =
      (Predict.score env knn (newDocument env knn text false).2
        (o.rangeTerms (newDocument env knn text false).2.terms)).bind (fun sims =>
          (Predict.collect knn (o.rangeSimilarities sims)).map (fun ns =>
            (knn, Predict.className (o.rangeClasses knn.classes)
              (Predict.mostPopular (o.rangeClassCount
                (Predict.countClasses (o.sort ns) k))).1))) := by
  unfold Predict Predict.run
  simp only [Option.bind_eq_bind, Option.pure_def, newDocument_false_fst]
  cases Predict.score env knn (newDocument env knn text false).2
      (o.rangeTerms (newDocument env knn text false).2.terms) with
  | none => rfl
  | some sims =>
    simp only [Option.some_bind]
    cases Predict.collect knn (o.rangeSimilarities sims) with
    | none => rfl
    | some ns => rfl

theorem foldlM_collectDoc_map (knn : KNN F) (f : F → F) (order : List (Nat × F))
    (acc : List (Neighbour F)) :
    (order.map (fun e => (e.1, f e.2))).foldlM (Predict.collectDoc knn)
        (acc.map (fun nb => { document := nb.document, similarity := f nb.similarity })) =
      (order.foldlM (Predict.collectDoc knn) acc).map
        (List.map (fun nb => { document := nb.document, similarity := f nb.similarity })) := by
  induction order generalizing acc with
  | nil => rfl
  | cons e order ih =>
    simp only [List.map_cons, List.foldlM_cons, Option.bind_eq_bind]
    unfold Predict.collectDoc
    cases hd : knn.documents[e.1]? with
    | none => simp
    | some d =>
      simp only [Option.bind_eq_bind, Option.some_bind, Option.pure_def]
      have := ih (acc ++ [{ document := d, similarity := e.2 }])
      simp only [List.map_append, List.map_cons, List.map_nil] at this
      exact this

theorem collect_map (knn : KNN F) (f : F → F) (order : List (Nat × F)) :
    Predict.collect knn (order.map (fun e => (e.1, f e.2))) =
      (Predict.collect knn order).map
        (List.map (fun nb => { document := nb.document, similarity := f nb.similarity })) :=
  foldlM_collectDoc_map knn f order []

theorem countClasses_map (f : F → F) (ns : List (Neighbour F)) (k : Int) :
    Predict.countClasses
      (ns.map (fun nb => { document := nb.document, similarity := f nb.similarity })) k =
    Predict.countClasses ns k := by
  unfold Predict.countClasses
  rw [← List.map_take, List.foldl_map]

/-- Two maps with the same keys, the values of the second being the values of the first
times `c`: an order of the entries of the first, with the values times `c`, is an order of
the entries of the second. -/
theorem perm_scaled [LinearOrderedField F] (c : F) (sims sims' order : List (Nat × F))
    (hn : (sims.map Prod.fst).Nodup) (hn' : (sims'.map Prod.fst).Nodup)
    (hkeys : ∀ p, p ∈ sims'.map Prod.fst ↔ p ∈ sims.map Prod.fst)
    (hval : ∀ p, lookupD sims' p 0 = c * lookupD sims p 0) (hperm : order.Perm sims) :
    (order.map (fun e => (e.1, c * e.2))).Perm sims' := by
  have hno : (order.map Prod.fst).Nodup := (hperm.map Prod.fst).nodup_iff.2 hn
  have hn1 : (order.map (fun e : Nat × F => (e.1, c * e.2))).Nodup := by
    apply List.Nodup.of_map Prod.fst
    rw [List.map_map]
    exact hno
  apply (List.perm_ext_iff_of_nodup hn1 (List.Nodup.of_map Prod.fst hn')).2
  intro e
  constructor
  · intro he
    obtain ⟨e0, he0, rfl⟩ := List.mem_map.1 he
    have hs0 : e0 ∈ sims := hperm.mem_iff.1 he0
    have hk : e0.1 ∈ sims'.map Prod.fst := (hkeys _).2 (List.mem_map.2 ⟨e0, hs0, rfl⟩)
    obtain ⟨e1, he1, hk1⟩ := List.mem_map.1 hk
    have hv := hval e0.1
    rw [lookupD_of_mem hn hs0, ← hk1, lookupD_of_mem hn' he1] at hv
    have : e1 = (e0.1, c * e0.2) := Prod.ext hk1 hv
    rw [← this]
    exact he1
  · intro he
    have hk : e.1 ∈ sims.map Prod.fst := (hkeys _).1 (List.mem_map.2 ⟨e, he, rfl⟩)
    obtain ⟨e0, he0, hk0⟩ := List.mem_map.1 hk
    have hv := hval e.1
    rw [lookupD_of_mem hn' he, ← hk0, lookupD_of_mem hn he0] at hv
    apply List.mem_map.2
    exact ⟨e0, hperm.mem_iff.2 he0, Prod.ext hk0 hv.symm⟩

theorem sorted_scaled [LinearOrderedField F] (c : F) (hc : 0 < c) (ns : List (Neighbour F))
    (h : ns.Pairwise (fun a b => ¬ Less b a)) :
    (ns.map (fun nb => ({ document := nb.document, similarity := c * nb.similarity } :
      Neighbour F))).Pairwise (fun a b => ¬ Less b a) := by
  rw [List.pairwise_map]
  apply h.imp
  intro a b hab hlt
  apply hab
  unfold Less at hlt ⊢
  simp only [gt_iff_lt] at hlt ⊢
  exact lt_of_mul_lt_mul_left hlt (le_of_lt hc)

theorem Runtime.valid_sort_insertion [LinearOrder F] (ns : List (Neighbour F)) :
    (List.insertionSort (fun a b : Neighbour F => b.similarity ≤ a.similarity) ns).Perm ns ∧
    (List.insertionSort (fun a b : Neighbour F => b.similarity ≤ a.similarity) ns).Pairwise
      (fun a b => ¬ Less b a) :=
  ⟨(Runtime.inOrder_valid F).sort_perm ns, (Runtime.inOrder_valid F).sort_sorted ns⟩

/-- A runtime for a map of similarities that is the map `sims` with every value times a
positive `c`: it makes the choices that `o` makes for `sims`, and the rest of `Predict`
gives the class name that it gives with `o` for `sims`. -/
theorem exists_runtime_scaled [LinearOrderedField F] (knn : KNN F) (k : Int) (o : Runtime F)
    (ho : o.Valid) (c : F) (hc : 0 < c) (sims sims' : List (Nat × F))
    (hn : (sims.map Prod.fst).Nodup) (hn' : (sims'.map Prod.fst).Nodup)
    (hkeys : ∀ p, p ∈ sims'.map Prod.fst ↔ p ∈ sims.map Prod.fst)
    (hval : ∀ p, lookupD sims' p 0 = c * lookupD sims p 0) :
    ∃ o' : Runtime F, o'.Valid ∧ o'.rangeTerms = o.rangeTerms ∧
      (Predict.collect knn (o'.rangeSimilarities sims')).map (fun ns =>
        (knn, Predict.className (o'.rangeClasses knn.classes)
          (Predict.mostPopular (o'.rangeClassCount
            (Predict.countClasses (o'.sort ns) k))).1)) =
      (Predict.collect knn (o.rangeSimilarities sims)).map (fun ns =>
        (knn, Predict.className (o.rangeClasses knn.classes)
          (Predict.mostPopular (o.rangeClassCount
            (Predict.countClasses (o.sort ns) k))).1)) := by
  classical
  have hL := perm_scaled c sims sims' (o.rangeSimilarities sims) hn hn' hkeys hval
    (ho.rangeSimilarities sims)
  cases hcol : Predict.collect knn (o.rangeSimilarities sims) with
  | none =>
    refine ⟨{ rangeTerms := o.rangeTerms
              rangeSimilarities := fun m =>
                if m.Perm sims' then (o.rangeSimilarities sims).map (fun e => (e.1, c * e.2))
                else m
              sort := o.sort
              rangeClassCount := o.rangeClassCount
              rangeClasses := o.rangeClasses }, ?_, rfl, ?_⟩
    · constructor
      · exact ho.rangeTerms
      · intro m
        dsimp only
        split
        · rename_i hm
          exact hL.trans hm.symm
        · exact List.Perm.refl m
      · exact ho.sort_perm
      · exact ho.sort_sorted
      · exact ho.rangeClassCount
      · exact ho.rangeClasses
    · dsimp only
      rw [if_pos (List.Perm.refl sims'), collect_map, hcol]
      rfl
  | some ns =>
    refine ⟨{ rangeTerms := o.rangeTerms
              rangeSimilarities := fun m =>
                if m.Perm sims' then (o.rangeSimilarities sims).map (fun e => (e.1, c * e.2))
                else m
              sort := fun x =>
                if x.Perm (ns.map (fun nb =>
                  ({ document := nb.document, similarity := c * nb.similarity } : Neighbour F)))
                then (o.sort ns).map (fun nb =>
                  ({ document := nb.document, similarity := c * nb.similarity } : Neighbour F))
                else List.insertionSort (fun a b => b.similarity ≤ a.similarity) x
              rangeClassCount := o.rangeClassCount
              rangeClasses := o.rangeClasses }, ?_, rfl, ?_⟩
    · constructor
      · exact ho.rangeTerms
      · intro m
        dsimp only
        split
        · rename_i hm
          exact hL.trans hm.symm
        · exact List.Perm.refl m
      · intro x
        dsimp only
        split
        · rename_i hx
          exact ((ho.sort_perm ns).map _).trans hx.symm
        · exact (Runtime.valid_sort_insertion x).1
      · intro x
        dsimp only
        split
        · exact sorted_scaled c hc _ (ho.sort_sorted ns)
        · exact (Runtime.valid_sort_insertion x).2
      · exact ho.rangeClassCount
      · exact ho.rangeClasses
    · dsimp only
      rw [if_pos (List.Perm.refl sims'), collect_map, hcol]
      simp only [Option.map_some', if_pos (List.Perm.refl _), countClasses_map]

end Transfer

section UnknownTokens
variable {F : Type}

/-- In exact arithmetic and a state with the invariant, inserting words with unknown
stems in the query keeps the scored indices and multiplies every similarity by one
positive number. -/
theorem unknown_scaling [LinearOrderedField F] (env : Env F) (he : env.Exact) (knn : KNN F)
    (hinv : Inv knn) (text text' : String)
    (hins : Inserted (fun w => lookup knn.dictionary (env.StemString w) = none)
      (FieldsFunc text (isAlphaNum env)) (FieldsFunc text' (isAlphaNum env))) :
    ∃ c : F, 0 < c ∧ ∀ (k k' : Int) (o o' : Runtime F) (t t' : Predict.Trace F),
      o.Valid → o'.Valid →
      Predict.run env knn text k o = some t → Predict.run env knn text' k' o' = some t' →
      (∀ p, p ∈ t'.similarities.map Prod.fst ↔ p ∈ t.similarities.map Prod.fst) ∧
      (∀ p, lookupD t'.similarities p 0 = c * lookupD t.similarities p 0) := by
  have hkeys : ∀ (k k' : Int) (o o' : Runtime F) (t t' : Predict.Trace F),
      o.Valid → o'.Valid →
      Predict.run env knn text k o = some t → Predict.run env knn text' k' o' = some t' →
      ∀ p, p ∈ t'.similarities.map Prod.fst ↔ p ∈ t.similarities.map Prod.fst := by
    intro k k' o o' t t' ho ho' ht ht' p
    rw [run_scored env knn text' k' o' ho' t' ht' p, run_scored env knn text k o ho t ht p]
    apply hins.exists_iff
    intro w hw
    rw [termIdOf_unknown env _ w hw, lookupD_postings_neg hinv]
    simp
  have hsum : ∀ p, ((FieldsFunc text' (isAlphaNum env)).map
      (fun w => scoreShare env knn p (termIdOf env knn.dictionary w))).sum =
      ((FieldsFunc text (isAlphaNum env)).map
        (fun w => scoreShare env knn p (termIdOf env knn.dictionary w))).sum := by
    intro p
    apply hins.sum_eq
    intro w hw
    rw [termIdOf_unknown env _ w hw]
    exact scoreShare_unknown env hinv p
  by_cases htok : FieldsFunc text (isAlphaNum env) = []
  · refine ⟨1, one_pos, ?_⟩
    intro k k' o o' t t' ho ho' ht ht'
    refine ⟨hkeys k k' o o' t t' ho ho' ht ht', fun p => ?_⟩
    rw [run_similarity env he knn text' k' o' ho' t' ht' p,
      run_similarity env he knn text k o ho t ht p, hsum p, htok]
    simp
  · obtain ⟨_, c2, c3⟩ := count_facts env knn.dictionary text false
    obtain ⟨_, c2', c3'⟩ := count_facts env knn.dictionary text' false
    have hm := (magnitude_pos env he _ c2 (c3 htok)).1
    have hm' := (magnitude_pos env he _ c2' (c3' (hins.ne_nil htok))).1
    refine ⟨newDocument.magnitude env (newDocument.count env knn.dictionary text false).2 /
      newDocument.magnitude env (newDocument.count env knn.dictionary text' false).2,
      div_pos hm hm', ?_⟩
    intro k k' o o' t t' ho ho' ht ht'
    refine ⟨hkeys k k' o o' t t' ho ho' ht ht', fun p => ?_⟩
    rw [run_similarity env he knn text' k' o' ho' t' ht' p,
      run_similarity env he knn text k o ho t ht p, hsum p]
    field_simp
    ring

/-- When the runs for two queries score the same indices, with similarities that differ
by a positive factor, a label that `Predict` can return for the first query is a label
that it can return for the second. -/
theorem label_transfer [LinearOrderedField F] (env : Env F) (knn : KNN F) (hinv : Inv knn)
    (text₁ text₂ : String) (k : Int) (c : F) (hc : 0 < c)
    (H : ∀ (o : Runtime F) (t₁ t₂ : Predict.Trace F), o.Valid →
      Predict.run env knn text₁ k o = some t₁ → Predict.run env knn text₂ k o = some t₂ →
      (∀ p, p ∈ t₂.similarities.map Prod.fst ↔ p ∈ t₁.similarities.map Prod.fst) ∧
      (∀ p, lookupD t₂.similarities p 0 = c * lookupD t₁.similarities p 0))
    (o : Runtime F) (ho : o.Valid) (label : String)
    (h : Predict env knn text₁ k o = some (knn, label)) :
    ∃ o' : Runtime F, o'.Valid ∧ Predict env knn text₂ k o' = some (knn, label) := by
  obtain ⟨t₁, ht₁⟩ := run_isSome env knn text₁ k o ho hinv
  obtain ⟨t₂, ht₂⟩ := run_isSome env knn text₂ k o ho hinv
  obtain ⟨hk, hv⟩ := H o t₁ t₂ ho ht₁ ht₂
  obtain ⟨_, _, hd₁, hs₁, _⟩ := run_eq_some env knn text₁ k o t₁ ht₁
  obtain ⟨_, _, hd₂, hs₂, _⟩ := run_eq_some env knn text₂ k o t₂ ht₂
  obtain ⟨_, n₁, _⟩ := score_eq_some env knn _ _ _ hs₁
  obtain ⟨_, n₂, _⟩ := score_eq_some env knn _ _ _ hs₂
  obtain ⟨o', ho', hterms, heq⟩ := exists_runtime_scaled knn k o ho c hc t₁.similarities
    t₂.similarities n₁ n₂ hk hv
  refine ⟨o', ho', ?_⟩
  rw [Predict_eq_bind] at h ⊢
  rw [hd₁] at hs₁
  rw [hd₂] at hs₂
  rw [hs₁] at h
  rw [hterms, hs₂]
  simp only [Option.some_bind] at h ⊢
  rw [heq]
  exact h

theorem neg_one_not_key (env : Env F) {knn : KNN F} (h : Reachable env knn) :
    (-1 : Int) ∉ knn.postings.map Prod.fst ∧
    ∀ d ∈ knn.documents, (-1 : Int) ∉ d.terms.map Prod.fst := by
  have hinv := inv_of_reachable env h
  constructor
  · intro hmem
    obtain ⟨e, he, h1⟩ := List.mem_map.1 hmem
    have := hinv.postings_nonneg e he
    omega
  · intro d hd hmem
    obtain ⟨i, hi⟩ := List.mem_iff_getElem?.1 hd
    have := (postingsComplete_of_reachable env h (-1) i).2 ⟨d, hi, hmem⟩
    rw [lookupD_postings_neg hinv] at this
    simp at this

/-- C17 (unknown query terms are ignored for similarity). In exact arithmetic and a
reachable state, inserting in the query words whose stems are not in the dictionary
leaves the scored documents as they are and multiplies every similarity by one positive
number; so the order and the ties of the similarities are kept, and the labels that
`Predict` can return are the same, for every `k`. The id `-1` is no key of the postings
nor of the weights of a stored document. -/
theorem Predict_unknown_tokens [LinearOrderedField F] (env : Env F) (knn : KNN F)
    (text text' : String) (he : env.Exact) (hr : Reachable env knn)
    (hins : Inserted (fun w => lookup knn.dictionary (env.StemString w) = none)
      (FieldsFunc text (isAlphaNum env)) (FieldsFunc text' (isAlphaNum env))) :
    (∃ c : F, 0 < c ∧ ∀ (k k' : Int) (o o' : Runtime F) (t t' : Predict.Trace F),
      o.Valid → o'.Valid →
      Predict.run env knn text k o = some t → Predict.run env knn text' k' o' = some t' →
      (∀ p, p ∈ t'.similarities.map Prod.fst ↔ p ∈ t.similarities.map Prod.fst) ∧
      (∀ p, lookupD t'.similarities p 0 = c * lookupD t.similarities p 0) ∧
      (∀ p p', lookupD t'.similarities p 0 < lookupD t'.similarities p' 0 ↔
        lookupD t.similarities p 0 < lookupD t.similarities p' 0) ∧
      (∀ p p', lookupD t'.similarities p 0 = lookupD t'.similarities p' 0 ↔
        lookupD t.similarities p 0 = lookupD t.similarities p' 0)) ∧
    (∀ (k : Int) (label : String),
      (∃ o : Runtime F, o.Valid ∧ Predict env knn text k o = some (knn, label)) ↔
      (∃ o' : Runtime F, o'.Valid ∧ Predict env knn text' k o' = some (knn, label))) ∧
    (∀ (k : Int) (o : Runtime F), o.Valid →
      (∃ label, Predict env knn text k o = some (knn, label)) ∧
      (∃ label, Predict env knn text' k o = some (knn, label))) ∧
    ((-1 : Int) ∉ knn.postings.map Prod.fst ∧
      ∀ d ∈ knn.documents, (-1 : Int) ∉ d.terms.map Prod.fst) := by
  have hinv := inv_of_reachable env hr
  obtain ⟨c, hc, hscale⟩ := unknown_scaling env he knn hinv text text' hins
  refine ⟨⟨c, hc, ?_⟩, ?_, ?_, neg_one_not_key env hr⟩
  · intro k k' o o' t t' ho ho' ht ht'
    obtain ⟨h1, h2⟩ := hscale k k' o o' t t' ho ho' ht ht'
    refine ⟨h1, h2, ?_, ?_⟩
    · intro p p'
      rw [h2 p, h2 p']
      exact mul_lt_mul_left hc
    · intro p p'
      rw [h2 p, h2 p']
      exact mul_right_inj' (ne_of_gt hc)
  · intro k label
    constructor
    · rintro ⟨o, ho, h⟩
      exact label_transfer env knn hinv text text' k c hc
        (fun o t₁ t₂ ho h₁ h₂ => hscale k k o o t₁ t₂ ho ho h₁ h₂) o ho label h
    · rintro ⟨o, ho, h⟩
      refine label_transfer env knn hinv text' text k c⁻¹ (inv_pos.2 hc) ?_ o ho label h
      intro o t₁ t₂ ho h₁ h₂
      obtain ⟨h1, h2⟩ := hscale k k o o t₂ t₁ ho ho h₂ h₁
      refine ⟨fun p => (h1 p).symm, fun p => ?_⟩
      rw [h2 p, ← mul_assoc, inv_mul_cancel₀ (ne_of_gt hc), one_mul]
  · intro k o ho
    constructor
    · obtain ⟨t, ht⟩ := run_isSome env knn text k o ho hinv
      obtain ⟨ns, hknn, _⟩ := run_eq_some env knn text k o t ht
      exact ⟨t.cls, by rw [Predict_eq_of_run env knn text k o t ht, hknn]⟩
    · obtain ⟨t, ht⟩ := run_isSome env knn text' k o ho hinv
      obtain ⟨ns, hknn, _⟩ := run_eq_some env knn text' k o t ht
      exact ⟨t.cls, by rw [Predict_eq_of_run env knn text' k o t ht, hknn]⟩

end UnknownTokens

section ConcurrentTrain
variable {F : Type}

theorem Concurrent.inv_init : Concurrent.Inv (Concurrent.init : Concurrent.State F) := by
  refine ⟨⟨[], List.nodup_nil, rfl⟩, ?_, ?_, ?_⟩ <;> intro j <;> simp [Concurrent.init]

theorem Concurrent.inv_spawn (s : Concurrent.State F) (text cls : String)
    (h : Concurrent.Inv s) :
    Concurrent.Inv { s with calls := s.calls ++ [Call.start text cls] } := by
  have key : ∀ (j : Nat) (c : Call F), (s.calls ++ [Call.start text cls])[j]? = some c →
      c ≠ Call.start text cls → s.calls[j]? = some c := by
    intro j c hj hc
    rcases Nat.lt_or_ge j s.calls.length with hlt | hge
    · rwa [List.getElem?_append_left hlt] at hj
    · rw [List.getElem?_append_right hge] at hj
      rcases Nat.eq_zero_or_pos (j - s.calls.length) with h0 | hpos
      · rw [h0] at hj
        simp at hj
        exact absurd hj.symm hc
      · rw [List.getElem?_eq_none (by rw [List.length_singleton]; exact hpos)] at hj
        cases hj
  refine ⟨h.dense, ?_, ?_, ?_⟩
  · intro j c hj hc
    exact h.held j c (key j c hj (by rintro rfl; simp [Call.locked] at hc)) hc
  · intro j cls' words terms term hj
    exact h.absent j cls' words terms term (key j _ hj (by simp))
  · intro j cls' words terms term termId hj
    exact h.fresh j cls' words terms term termId (key j _ hj (by simp))

/-- The invariant after a step of the call at position `i` from `c` to `c'`. -/
theorem Concurrent.inv_set (s : Concurrent.State F) (h : Concurrent.Inv s) (i : Nat)
    (c c' : Call F) (hc : s.calls[i]? = some c) (knn' : KNN F) (lock' : Option Nat)
    (hd : ∃ l : List String, l.Nodup ∧ knn'.dictionary = ranks l)
    (hl : c'.locked = true → lock' = some i)
    (ho : c.locked = true ∨ s.dictionaryLock = none ∨
      (lock' = s.dictionaryLock ∧ knn'.dictionary = s.knn.dictionary))
    (hm : ∀ cls words terms term, c' = Call.missing cls words terms term →
      lookup knn'.dictionary term = none)
    (hs : ∀ cls words terms term termId, c' = Call.sized cls words terms term termId →
      lookup knn'.dictionary term = none ∧ termId = knn'.dictionary.length) :
    Concurrent.Inv { knn := knn', dictionaryLock := lock', calls := s.calls.set i c' } := by
  have hi : i < s.calls.length := (List.getElem?_eq_some_iff.1 hc).1
  have own : ∀ (j : Nat) (d : Call F), (s.calls.set i c')[j]? = some d →
      (j = i ∧ d = c') ∨ (j ≠ i ∧ s.calls[j]? = some d) := by
    intro j d hj
    by_cases hji : j = i
    · subst hji
      rw [List.getElem?_set_self hi] at hj
      exact Or.inl ⟨rfl, (Option.some.inj hj).symm⟩
    · rw [List.getElem?_set_ne (Ne.symm hji)] at hj
      exact Or.inr ⟨hji, hj⟩
  have others : ∀ (j : Nat) (d : Call F), j ≠ i → s.calls[j]? = some d → d.locked = true →
      lock' = s.dictionaryLock ∧ knn'.dictionary = s.knn.dictionary := by
    intro j d hji hj hlk
    have hj' := h.held j d hj hlk
    rcases ho with ho | ho | ho
    · have hi' := h.held i c hc ho
      rw [hj'] at hi'
      exact absurd (Option.some.inj hi') hji
    · rw [hj'] at ho
      cases ho
    · exact ho
  refine ⟨hd, ?_, ?_, ?_⟩
  · intro j d hj hlk
    rcases own j d hj with ⟨rfl, rfl⟩ | ⟨hji, hj'⟩
    · exact hl hlk
    · show lock' = some j
      rw [(others j d hji hj' hlk).1]
      exact h.held j d hj' hlk
  · intro j cls words terms term hj
    rcases own j _ hj with ⟨_, hc'⟩ | ⟨hji, hj'⟩
    · exact hm cls words terms term hc'.symm
    · show lookup knn'.dictionary term = none
      rw [(others j _ hji hj' rfl).2]
      exact h.absent j cls words terms term hj'
  · intro j cls words terms term termId hj
    rcases own j _ hj with ⟨_, hc'⟩ | ⟨hji, hj'⟩
    · exact hs cls words terms term termId hc'.symm
    · show lookup knn'.dictionary term = none ∧ termId = knn'.dictionary.length
      rw [(others j _ hji hj' rfl).2]
      exact h.fresh j cls words terms term termId hj'

/-- What a step does to the dictionary: nothing, or the write of a stem that is not a
key, with the length of the dictionary as its id. -/
theorem Concurrent.step_dictionary (env : Env F) (s s' : Concurrent.State F) (i : Nat)
    (h : Concurrent.Inv s) (hstep : Concurrent.step env s i = some s') :
    Concurrent.Inv s' ∧
    (s'.knn.dictionary = s.knn.dictionary ∨
      ∃ term : String, lookup s.knn.dictionary term = none ∧
        s'.knn.dictionary = s.knn.dictionary ++ [(term, (s.knn.dictionary.length : Int))]) := by
  unfold Concurrent.step at hstep
  split at hstep
  · cases hstep
  · rename_i text cls hc
    split at hstep
    · cases hstep
    · rename_i hlock
      cases hstep
      exact ⟨Concurrent.inv_set s h i _ _ hc s.knn (some i) h.dense (fun _ => rfl)
        (Or.inr (Or.inl hlock)) (by intro _ _ _ _ hx; cases hx)
        (by intro _ _ _ _ _ hx; cases hx), Or.inl rfl⟩
  · rename_i cls terms hc
    cases hstep
    exact ⟨Concurrent.inv_set s h i _ _ hc s.knn none h.dense
      (by intro hx; simp [Call.locked] at hx)
      (Or.inl rfl) (by intro _ _ _ _ hx; cases hx)
      (by intro _ _ _ _ _ hx; cases hx), Or.inl rfl⟩
  · rename_i cls term words terms hc
    have hheld := h.held i _ hc rfl
    dsimp only at hstep
    split at hstep
    · cases hstep
      exact ⟨Concurrent.inv_set s h i _ _ hc s.knn s.dictionaryLock h.dense (fun _ => hheld)
        (Or.inl rfl) (by intro _ _ _ _ hx; cases hx)
        (by intro _ _ _ _ _ hx; cases hx), Or.inl rfl⟩
    · rename_i hnone
      cases hstep
      refine ⟨Concurrent.inv_set s h i _ _ hc s.knn s.dictionaryLock h.dense (fun _ => hheld)
        (Or.inl rfl) ?_ (by intro _ _ _ _ _ hx; cases hx), Or.inl rfl⟩
      intro _ _ _ _ hx
      cases hx
      exact hnone
  · rename_i cls words terms term hc
    have hheld := h.held i _ hc rfl
    have habs := h.absent i _ _ _ _ hc
    cases hstep
    refine ⟨Concurrent.inv_set s h i _ _ hc s.knn s.dictionaryLock h.dense (fun _ => hheld)
      (Or.inl rfl) (by intro _ _ _ _ hx; cases hx) ?_, Or.inl rfl⟩
    intro _ _ _ _ _ hx
    cases hx
    exact ⟨habs, rfl⟩
  · rename_i cls words terms term termId hc
    have hheld := h.held i _ hc rfl
    obtain ⟨habs, hid⟩ := h.fresh i _ _ _ _ _ hc
    obtain ⟨l, hl, hdict⟩ := h.dense
    have hnot : term ∉ s.knn.dictionary.map Prod.fst := (lookup_eq_none_iff _ _).1 habs
    have hstore : store s.knn.dictionary term termId =
        s.knn.dictionary ++ [(term, (s.knn.dictionary.length : Int))] := by
      rw [store_of_not_mem _ _ _ hnot, hid]
    have hl' : term ∉ l := by
      rw [hdict, keys_ranks] at hnot
      exact hnot
    cases hstep
    refine ⟨Concurrent.inv_set s h i _ _ hc _ s.dictionaryLock ?_ (fun _ => hheld)
      (Or.inl rfl) (by intro _ _ _ _ hx; cases hx) (by intro _ _ _ _ _ hx; cases hx),
      Or.inr ⟨term, habs, hstore⟩⟩
    refine ⟨l ++ [term], List.Nodup.append hl (List.nodup_singleton _) ?_, ?_⟩
    · simpa using hl'
    · show store s.knn.dictionary term termId = ranks (l ++ [term])
      rw [hstore, ranks_concat, hdict, length_ranks]
  · rename_i cls terms hc
    cases hstep
    exact ⟨Concurrent.inv_set s h i _ _ hc _ s.dictionaryLock h.dense
      (by intro hx; simp [Call.locked] at hx)
      (Or.inr (Or.inr ⟨rfl, rfl⟩)) (by intro _ _ _ _ hx; cases hx)
      (by intro _ _ _ _ _ hx; cases hx), Or.inl rfl⟩
  · rename_i document hc
    cases hstep
    exact ⟨Concurrent.inv_set s h i _ _ hc _ s.dictionaryLock h.dense
      (by intro hx; simp [Call.locked] at hx)
      (Or.inr (Or.inr ⟨rfl, rfl⟩)) (by intro _ _ _ _ hx; cases hx)
      (by intro _ _ _ _ _ hx; cases hx), Or.inl rfl⟩
  · rename_i document documentId hc
    cases hstep
    exact ⟨Concurrent.inv_set s h i _ _ hc _ s.dictionaryLock h.dense
      (by intro hx; simp [Call.locked] at hx)
      (Or.inr (Or.inr ⟨rfl, rfl⟩)) (by intro _ _ _ _ hx; cases hx)
      (by intro _ _ _ _ _ hx; cases hx), Or.inl rfl⟩
  · cases hstep

theorem Concurrent.inv_of_trace (env : Env F) (s s' : Concurrent.State F)
    (h : Concurrent.Inv s) (ht : Concurrent.Trace env s s') : Concurrent.Inv s' := by
  induction ht with
  | refl => exact h
  | spawn text cls _ ih => exact Concurrent.inv_spawn _ text cls ih
  | step i _ hstep ih => exact (Concurrent.step_dictionary env _ _ i ih hstep).1

theorem Concurrent.lookup_of_trace (env : Env F) (s s' : Concurrent.State F)
    (h : Concurrent.Inv s) (ht : Concurrent.Trace env s s') (stem : String) (id : Int)
    (hl : lookup s.knn.dictionary stem = some id) :
    lookup s'.knn.dictionary stem = some id := by
  induction ht with
  | refl => exact hl
  | spawn text cls _ ih => exact ih
  | step i ht' hstep ih =>
    rcases (Concurrent.step_dictionary env _ _ i
      (Concurrent.inv_of_trace env _ _ h ht') hstep).2 with he | ⟨term, hnone, he⟩
    · rw [he]
      exact ih
    · rw [he, ← store_of_not_mem _ _ _ ((lookup_eq_none_iff _ _).1 hnone), lookup_store]
      have hne : term ≠ stem := by
        rintro rfl
        rw [ih] at hnone
        cases hnone
      rw [if_neg hne]
      exact ih

/-- C19 (vocabulary monotonicity under concurrency). In every state that concurrent
calls of `Train` on a new classifier reach, in any interleaving of their steps, the term
ids of the dictionary are `0 .. N-1`, no stem has two ids and no id two stems, and
whatever the calls do afterwards, a stem keeps its id.  The calls exclude one another
from the section of `dictionaryLock`: at most one call is inside it. -/
theorem dictionary_concurrent (env : Env F) (s : Concurrent.State F)
    (h : Concurrent.Reachable env s) :
    s.knn.dictionary.map Prod.snd =
      (List.range s.knn.dictionary.length).map (fun (i : Nat) => (i : Int)) ∧
    (s.knn.dictionary.map Prod.fst).Nodup ∧ (s.knn.dictionary.map Prod.snd).Nodup ∧
    (∀ s' : Concurrent.State F, Concurrent.Trace env s s' →
      ∀ (stem : String) (id : Int), lookup s.knn.dictionary stem = some id →
        lookup s'.knn.dictionary stem = some id) ∧
    (∀ (i j : Nat) (c c' : Call F), s.calls[i]? = some c → s.calls[j]? = some c' →
      c.locked = true → c'.locked = true → i = j) := by
  have hinv : Concurrent.Inv s := Concurrent.inv_of_trace env _ _ Concurrent.inv_init h
  obtain ⟨l, hl, hdict⟩ := hinv.dense
  have hvals : s.knn.dictionary.map Prod.snd =
      (List.range s.knn.dictionary.length).map (fun (i : Nat) => (i : Int)) := by
    rw [hdict, values_ranks, length_ranks]
  refine ⟨hvals, ?_, ?_, ?_, ?_⟩
  · rw [hdict, keys_ranks]
    exact hl
  · rw [hvals]
    exact nodup_range_cast _
  · intro s' ht stem id hlk
    exact Concurrent.lookup_of_trace env s s' hinv ht stem id hlk
  · intro i j c c' hi hj hc hc'
    have h1 := hinv.held i c hi hc
    have h2 := hinv.held j c' hj hc'
    rw [h1] at h2
    exact Option.some.inj h2

end ConcurrentTrain

section ConcurrentAlone
variable {F : Type}

theorem Concurrent.Trace.trans {env : Env F} {s s' s'' : Concurrent.State F}
    (h : Concurrent.Trace env s s') (h' : Concurrent.Trace env s' s'') :
    Concurrent.Trace env s s'' := by
  induction h' with
  | refl => exact h
  | spawn text cls _ ih => exact Concurrent.Trace.spawn text cls ih
  | step i _ hstep ih => exact Concurrent.Trace.step i ih hstep

/-- The steps of the loop over the words, when no other call takes a step, are the
loop of `newDocument`. -/
theorem Concurrent.trace_loop (env : Env F) (i : Nat) (cls : String) (words : List String) :
    ∀ (s : Concurrent.State F) (terms : List (Int × Int)),
      s.calls[i]? = some (Call.loop cls words terms) →
      Concurrent.Trace env s
        { knn := { s.knn with
            dictionary := (words.foldl (newDocument.step env true) (s.knn.dictionary, terms)).1 }
          dictionaryLock := s.dictionaryLock
          calls := s.calls.set i (Call.loop cls []
            (words.foldl (newDocument.step env true) (s.knn.dictionary, terms)).2) } := by
  induction words with
  | nil =>
    intro s terms hc
    have hi : i < s.calls.length := (List.getElem?_eq_some_iff.1 hc).1
    have hset : s.calls.set i (Call.loop cls [] terms) = s.calls := by
      apply List.ext_getElem? 
      intro j
      by_cases hji : i = j
      · subst hji
        rw [List.getElem?_set_self hi, hc]
      · rw [List.getElem?_set_ne hji]
    simp only [List.foldl_nil, hset]
    exact Concurrent.Trace.refl s
  | cons w words ih =>
    intro s terms hc
    have hi : i < s.calls.length := (List.getElem?_eq_some_iff.1 hc).1
    rw [List.foldl_cons]
    cases hlk : lookup s.knn.dictionary (env.StemString w) with
    | some termId =>
      have hstep : Concurrent.step env s i = some
          { s with calls := s.calls.set i (Call.loop cls words (increment terms termId)) } := by
        simp only [Concurrent.step, hc, hlk]
      have hnd : newDocument.step env true (s.knn.dictionary, terms) w =
          (s.knn.dictionary, increment terms termId) := by
        simp only [newDocument.step, hlk]
      have h2 := ih { s with
        calls := s.calls.set i (Call.loop cls words (increment terms termId)) }
        (increment terms termId) (by simp [List.getElem?_set_self hi])
      rw [hnd]
      simp only [List.set_set] at h2
      exact (Concurrent.Trace.step i (Concurrent.Trace.refl s) hstep).trans h2
    | none =>
      have hstep1 : Concurrent.step env s i = some
          { s with calls := s.calls.set i (Call.missing cls words terms (env.StemString w)) } := by
        simp only [Concurrent.step, hc, hlk]
      have hstep2 : Concurrent.step env
          { s with calls := s.calls.set i (Call.missing cls words terms (env.StemString w)) } i
          = some { s with
              calls := s.calls.set i
                (Call.sized cls words terms (env.StemString w) s.knn.dictionary.length) } := by
        simp only [Concurrent.step, List.getElem?_set_self hi, List.set_set]
      have hstep3 : Concurrent.step env
          { s with
              calls := s.calls.set i
                (Call.sized cls words terms (env.StemString w) s.knn.dictionary.length) } i
          = some { s with
              knn := { s.knn with
                dictionary := store s.knn.dictionary (env.StemString w)
                  s.knn.dictionary.length }
              calls := s.calls.set i
                (Call.loop cls words (increment terms s.knn.dictionary.length)) } := by
        simp only [Concurrent.step, List.getElem?_set_self hi, List.set_set]
      have hnd : newDocument.step env true (s.knn.dictionary, terms) w =
          (store s.knn.dictionary (env.StemString w) s.knn.dictionary.length,
            increment terms s.knn.dictionary.length) := by
        simp only [newDocument.step, hlk, if_true]
      have h2 := ih { s with
          knn := { s.knn with
            dictionary := store s.knn.dictionary (env.StemString w) s.knn.dictionary.length }
          calls := s.calls.set i
            (Call.loop cls words (increment terms s.knn.dictionary.length)) }
        (increment terms s.knn.dictionary.length) (by simp [List.getElem?_set_self hi])
      rw [hnd]
      simp only [List.set_set] at h2
      exact (Concurrent.Trace.step i (Concurrent.Trace.step i
        (Concurrent.Trace.step i (Concurrent.Trace.refl s) hstep1) hstep2) hstep3).trans h2

/-- A call that takes all its steps while the others take none does what `Train`
does. -/
theorem Concurrent.trace_alone (env : Env F) (s : Concurrent.State F) (i : Nat)
    (text cls : String) (hc : s.calls[i]? = some (Call.start text cls))
    (hl : s.dictionaryLock = none) :
    Concurrent.Trace env s
      { knn := Train env s.knn text cls
        dictionaryLock := none
        calls := s.calls.set i Call.done } := by
  have hi : i < s.calls.length := (List.getElem?_eq_some_iff.1 hc).1
  have hstep1 : Concurrent.step env s i = some
      { s with
        dictionaryLock := some i
        calls := s.calls.set i (Call.loop cls (FieldsFunc text (isAlphaNum env)) []) } := by
    simp only [Concurrent.step, hc, hl]
  have h2 := Concurrent.trace_loop env i cls (FieldsFunc text (isAlphaNum env))
    { s with
        dictionaryLock := some i
        calls := s.calls.set i (Call.loop cls (FieldsFunc text (isAlphaNum env)) []) }
    [] (by simp [List.getElem?_set_self hi])
  simp only [List.set_set] at h2
  have hstep2 : Concurrent.step env
      { knn := { s.knn with
          dictionary := (newDocument.count env s.knn.dictionary text true).1 }
        dictionaryLock := some i
        calls := s.calls.set i (Call.loop cls []
          (newDocument.count env s.knn.dictionary text true).2) } i
      = some
      { knn := { s.knn with
          dictionary := (newDocument.count env s.knn.dictionary text true).1 }
        dictionaryLock := none
        calls := s.calls.set i (Call.counted cls
          (newDocument.count env s.knn.dictionary text true).2) } := by
    simp only [Concurrent.step, List.getElem?_set_self hi, List.set_set]
  have hstep3 : Concurrent.step env
      { knn := { s.knn with
          dictionary := (newDocument.count env s.knn.dictionary text true).1 }
        dictionaryLock := none
        calls := s.calls.set i (Call.counted cls
          (newDocument.count env s.knn.dictionary text true).2) } i
      = some
      { knn := { (newDocument env s.knn text true).1 with
          classes := Train.register s.knn.classes cls }
        dictionaryLock := none
        calls := s.calls.set i (Call.classified
          { (newDocument env s.knn text true).2 with
            classId := lookupD (Train.register s.knn.classes cls) cls 0 }) } := by
    simp only [Concurrent.step, List.getElem?_set_self hi, List.set_set]
    rfl
  have hstep4 : Concurrent.step env
      { knn := { (newDocument env s.knn text true).1 with
          classes := Train.register s.knn.classes cls }
        dictionaryLock := none
        calls := s.calls.set i (Call.classified
          { (newDocument env s.knn text true).2 with
            classId := lookupD (Train.register s.knn.classes cls) cls 0 }) } i
      = some
      { knn := { (newDocument env s.knn text true).1 with
          classes := Train.register s.knn.classes cls
          documents := s.knn.documents ++
            [{ (newDocument env s.knn text true).2 with
              classId := lookupD (Train.register s.knn.classes cls) cls 0 }] }
        dictionaryLock := none
        calls := s.calls.set i (Call.stored
          { (newDocument env s.knn text true).2 with
            classId := lookupD (Train.register s.knn.classes cls) cls 0 }
          ((s.knn.documents ++
            [{ (newDocument env s.knn text true).2 with
              classId := lookupD (Train.register s.knn.classes cls) cls 0 }]).length - 1)) } := by
    simp only [Concurrent.step, List.getElem?_set_self hi, List.set_set]
    rfl
  have hstep5 : Concurrent.step env
      { knn := { (newDocument env s.knn text true).1 with
          classes := Train.register s.knn.classes cls
          documents := s.knn.documents ++
            [{ (newDocument env s.knn text true).2 with
              classId := lookupD (Train.register s.knn.classes cls) cls 0 }] }
        dictionaryLock := none
        calls := s.calls.set i (Call.stored
          { (newDocument env s.knn text true).2 with
            classId := lookupD (Train.register s.knn.classes cls) cls 0 }
          ((s.knn.documents ++
            [{ (newDocument env s.knn text true).2 with
              classId := lookupD (Train.register s.knn.classes cls) cls 0 }]).length - 1)) } i
      = some
      { knn := Train env s.knn text cls
        dictionaryLock := none
        calls := s.calls.set i Call.done } := by
    simp only [Concurrent.step, List.getElem?_set_self hi, List.set_set]
    rfl
  exact Concurrent.Trace.step i (Concurrent.Trace.step i (Concurrent.Trace.step i
    (Concurrent.Trace.step i ((Concurrent.Trace.step i (Concurrent.Trace.refl s) hstep1).trans
      h2) hstep2) hstep3) hstep4) hstep5

end ConcurrentAlone

section Witnesses2

theorem scenario_reachableBy {F : Type} (env : Env F) :
    ReachableBy env scenarioCalls (scenario env) :=
  ReachableBy.train _ _ (ReachableBy.train _ _ (ReachableBy.train _ _ ReachableBy.new))

/-- Witness of C11 at the scenario: document `1` is in the postings list of the term id
`1`. -/
theorem postings_invariant_witness :
    Reachable Env.rational (scenario Env.rational) ∧
    (1 ∈ lookupD (scenario Env.rational).postings 1 [] ↔
      1 < (scenario Env.rational).documents.length ∧
        ∃ doc, (scenario Env.rational).documents[1]? = some doc ∧
          (1 : Int) ∈ doc.terms.map Prod.fst) :=
  ⟨scenario_reachable Env.rational,
    postings_invariant Env.rational (scenario Env.rational) (scenario_reachable Env.rational)
      1 1⟩

/-- Witness of C12 at the scenario. -/
theorem dictionary_first_seen_witness :
    ReachableBy Env.rational scenarioCalls (scenario Env.rational) ∧
    (scenario Env.rational).dictionary =
      ranks (firstSeen (trainingStems Env.rational scenarioCalls)) ∧
    (∀ (i : Nat) (s : String),
      (firstSeen (trainingStems Env.rational scenarioCalls))[i]? = some s →
      lookup (scenario Env.rational).dictionary s = some (i : Int)) ∧
    (scenario Env.rational).dictionary.map Prod.snd =
      (List.range (scenario Env.rational).dictionary.length).map (fun (i : Nat) => (i : Int)) ∧
    ((scenario Env.rational).dictionary.map Prod.fst).Nodup ∧
    ((scenario Env.rational).dictionary.map Prod.snd).Nodup ∧
    (∀ (s : String) (i : Int), lookup (scenario Env.rational).dictionary s = some i →
      (∀ text cls, lookup (Train Env.rational (scenario Env.rational) text cls).dictionary s
        = some i) ∧
      (∀ text k o r, Predict Env.rational (scenario Env.rational) text k o = some r →
        lookup r.1.dictionary s = some i)) :=
  ⟨scenario_reachableBy Env.rational,
    dictionary_first_seen Env.rational scenarioCalls (scenario Env.rational)
      (scenario_reachableBy Env.rational)⟩

/-- Witness of C13 at the scenario. -/
theorem classes_first_seen_witness :
    ReachableBy Env.rational scenarioCalls (scenario Env.rational) ∧
    (scenario Env.rational).classes = ranks (firstSeen (scenarioCalls.map Prod.snd)) ∧
    (∀ (i : Nat) (c : String), (firstSeen (scenarioCalls.map Prod.snd))[i]? = some c →
      lookup (scenario Env.rational).classes c = some (i : Int)) ∧
    (scenario Env.rational).classes.map Prod.snd =
      (List.range (scenario Env.rational).classes.length).map (fun (i : Nat) => (i : Int)) ∧
    ((scenario Env.rational).classes.map Prod.fst).Nodup ∧
    ((scenario Env.rational).classes.map Prod.snd).Nodup ∧
    (∀ (c : String) (i : Int), lookup (scenario Env.rational).classes c = some i →
      (∀ text, (Train Env.rational (scenario Env.rational) text c).classes =
        (scenario Env.rational).classes) ∧
      (∀ text cls, lookup (Train Env.rational (scenario Env.rational) text cls).classes c
        = some i) ∧
      (∀ text k o r, Predict Env.rational (scenario Env.rational) text k o = some r →
        lookup r.1.classes c = some i)) :=
  ⟨scenario_reachableBy Env.rational,
    classes_first_seen Env.rational scenarioCalls (scenario Env.rational)
      (scenario_reachableBy Env.rational)⟩

/-- Witness of C18: `Predict("a b", 2)` after `Train("a", "x")` and
`Train("a b", "y")`. -/
theorem Predict_label_resolution_witness :
    ReachableBy Env.rational [("a", "x"), ("a b", "y")] (trainedNested Env.rational) ∧
    (Runtime.inOrder ℚ).Valid ∧ (1 : Int) ≤ 2 ∧
    Predict.run Env.rational (trainedNested Env.rational) "a b" 2 (Runtime.inOrder ℚ)
      = some sampleTrace ∧
    sampleTrace.similarities ≠ [] ∧
    Predict Env.rational (trainedNested Env.rational) "a b" 2 (Runtime.inOrder ℚ)
      = some (trainedNested Env.rational, sampleTrace.cls) ∧
    lookup (trainedNested Env.rational).classes sampleTrace.cls = some sampleTrace.classId ∧
    (∀ c, (c, sampleTrace.classId) ∈ (trainedNested Env.rational).classes →
      c = sampleTrace.cls) ∧
    (∃ nb ∈ sampleTrace.neighbours.take (2 : Int).toNat,
      nb.document.classId = sampleTrace.classId ∧
      ∃ (i : Nat) (c : String × String),
        (trainedNested Env.rational).documents[i]? = some nb.document ∧
        [("a", "x"), ("a b", "y")][i]? = some c ∧ c.2 = sampleTrace.cls) ∧
    (∀ d ∈ (trainedNested Env.rational).documents,
      d.classId ∈ (trainedNested Env.rational).classes.map Prod.snd) ∧
    (∀ c c' i, (c, i) ∈ (trainedNested Env.rational).classes →
      (c', i) ∈ (trainedNested Env.rational).classes → c = c') :=
  ⟨ReachableBy.train "a b" "y" (ReachableBy.train "a" "x" ReachableBy.new),
    Runtime.inOrder_valid ℚ, by decide, by decide!, by decide,
    Predict_label_resolution Env.rational [("a", "x"), ("a b", "y")]
      (trainedNested Env.rational) "a b" 2 (Runtime.inOrder ℚ) sampleTrace
      (ReachableBy.train "a b" "y" (ReachableBy.train "a" "x" ReachableBy.new))
      (Runtime.inOrder_valid ℚ) (by decide) (by decide!) (by decide)⟩

/-- Witness of C20 at the scenario. -/
theorem Predict_in_range_witness :
    Reachable Env.rational (scenario Env.rational) ∧
    (∀ e ∈ (scenario Env.rational).postings,
      e.2.Sorted (· < ·) ∧ ∀ d ∈ e.2, d < (scenario Env.rational).documents.length) ∧
    (∀ t, (lookupD (scenario Env.rational).postings t []).length ≤
      (scenario Env.rational).documents.length) ∧
    (∀ (text : String) (k : Int) (o : Runtime ℚ), o.Valid →
      ∃ tr, Predict.run Env.rational (scenario Env.rational) text k o = some tr ∧
        (∀ tw ∈ tr.document.terms, ∀ documentId,
          documentId < (lookupD (scenario Env.rational).postings tw.1 []).length →
            documentId < (scenario Env.rational).documents.length) ∧
        (∀ ds ∈ tr.similarities, ds.1 < (scenario Env.rational).documents.length)) :=
  ⟨scenario_reachable Env.rational,
    Predict_in_range Env.rational (scenario Env.rational) (scenario_reachable Env.rational)⟩

end Witnesses2

section Witnesses3

/-- Witness of C15 over the real numbers: the text `"a b a"` on a new classifier. -/
theorem newDocument_normalised_witness :
    (Env.ofField Real.sqrt (fun x y : ℝ => x ^ y)).Exact ∧
    FieldsFunc "a b a" (isAlphaNum (Env.ofField Real.sqrt (fun x y : ℝ => x ^ y))) ≠ [] ∧
    (∀ t, lookupD (newDocument.count (Env.ofField Real.sqrt (fun x y : ℝ => x ^ y))
        (NewKNN : KNN ℝ).dictionary "a b a" true).2 t 0 =
      List.count t ((FieldsFunc "a b a"
        (isAlphaNum (Env.ofField Real.sqrt (fun x y : ℝ => x ^ y)))).map
        (termIdOf (Env.ofField Real.sqrt (fun x y : ℝ => x ^ y))
          (newDocument (Env.ofField Real.sqrt (fun x y : ℝ => x ^ y)) NewKNN "a b a"
            true).1.dictionary))) ∧
    (newDocument (Env.ofField Real.sqrt (fun x y : ℝ => x ^ y)) NewKNN "a b a" true).2.terms =
      (newDocument.count (Env.ofField Real.sqrt (fun x y : ℝ => x ^ y))
        (NewKNN : KNN ℝ).dictionary "a b a" true).2.map (fun tc =>
        (tc.1, (tc.2 : ℝ) / (Env.ofField Real.sqrt (fun x y : ℝ => x ^ y)).Sqrt
          (((newDocument.count (Env.ofField Real.sqrt (fun x y : ℝ => x ^ y))
            (NewKNN : KNN ℝ).dictionary "a b a" true).2.map
            (fun tc => (tc.2 : ℝ) * (tc.2 : ℝ))).sum))) ∧
    (∀ tw ∈ (newDocument (Env.ofField Real.sqrt (fun x y : ℝ => x ^ y)) NewKNN "a b a"
      true).2.terms, 0 < tw.2) ∧
    ((newDocument (Env.ofField Real.sqrt (fun x y : ℝ => x ^ y)) NewKNN "a b a"
      true).2.terms.map (fun tw => tw.2 * tw.2)).sum = 1 ∧
    (∀ cls, ∃ d, (Train (Env.ofField Real.sqrt (fun x y : ℝ => x ^ y)) NewKNN "a b a"
        cls).documents = (NewKNN : KNN ℝ).documents ++ [d] ∧
      (∀ tw ∈ d.terms, 0 < tw.2) ∧ (d.terms.map (fun tw => tw.2 * tw.2)).sum = 1) ∧
    (∀ (calls : List (String × String)) (knn' : KNN ℝ),
      ReachableBy (Env.ofField Real.sqrt (fun x y : ℝ => x ^ y)) calls knn' →
      ∀ (i : Nat) (d : Document ℝ) (c : String × String),
        knn'.documents[i]? = some d → calls[i]? = some c →
        FieldsFunc c.1 (isAlphaNum (Env.ofField Real.sqrt (fun x y : ℝ => x ^ y))) ≠ [] →
        (∀ tw ∈ d.terms, 0 < tw.2) ∧ (d.terms.map (fun tw => tw.2 * tw.2)).sum = 1) :=
  ⟨Env.ofField_real_exact, by decide,
    newDocument_normalised (Env.ofField Real.sqrt (fun x y : ℝ => x ^ y)) NewKNN "a b a" true
      Env.ofField_real_exact (by decide)⟩

/-- Witness of C16 over the real numbers: the text `" , "`, which has no word, on a new
classifier. -/
theorem newDocument_empty_witness :
    (Env.ofField Real.sqrt (fun x y : ℝ => x ^ y)).Exact ∧
    (newDocument.magnitude (Env.ofField Real.sqrt (fun x y : ℝ => x ^ y))
        (newDocument.count (Env.ofField Real.sqrt (fun x y : ℝ => x ^ y))
          (NewKNN : KNN ℝ).dictionary " , " true).2 = 0 ↔
      FieldsFunc " , " (isAlphaNum (Env.ofField Real.sqrt (fun x y : ℝ => x ^ y))) = []) ∧
    (FieldsFunc " , " (isAlphaNum (Env.ofField Real.sqrt (fun x y : ℝ => x ^ y))) = [] →
      (newDocument.count (Env.ofField Real.sqrt (fun x y : ℝ => x ^ y))
        (NewKNN : KNN ℝ).dictionary " , " true).2 = [] ∧
      (newDocument (Env.ofField Real.sqrt (fun x y : ℝ => x ^ y)) NewKNN " , "
        true).2.terms = [] ∧
      ∀ cls, (Train (Env.ofField Real.sqrt (fun x y : ℝ => x ^ y)) NewKNN " , "
          cls).postings = (NewKNN : KNN ℝ).postings ∧
        ∃ d, (Train (Env.ofField Real.sqrt (fun x y : ℝ => x ^ y)) NewKNN " , "
          cls).documents = (NewKNN : KNN ℝ).documents ++ [d] ∧ d.terms = []) :=
  ⟨Env.ofField_real_exact,
    newDocument_empty (Env.ofField Real.sqrt (fun x y : ℝ => x ^ y)) NewKNN " , " true
      Env.ofField_real_exact⟩

end Witnesses3

section Witnesses4

/-- Witness of C17 over the real numbers: after `Train("a b", "x")`, the queries `"a"`
and `"a zz"`. -/
theorem Predict_unknown_tokens_witness :
    (Env.ofField Real.sqrt (fun x y : ℝ => x ^ y)).Exact ∧
    Reachable (Env.ofField Real.sqrt (fun x y : ℝ => x ^ y))
      (Train (Env.ofField Real.sqrt (fun x y : ℝ => x ^ y)) NewKNN "a b" "x") ∧
    Inserted (fun w => lookup
        (Train (Env.ofField Real.sqrt (fun x y : ℝ => x ^ y)) NewKNN "a b" "x").dictionary
        ((Env.ofField Real.sqrt (fun x y : ℝ => x ^ y)).StemString w) = none)
      (FieldsFunc "a" (isAlphaNum (Env.ofField Real.sqrt (fun x y : ℝ => x ^ y))))
      (FieldsFunc "a zz" (isAlphaNum (Env.ofField Real.sqrt (fun x y : ℝ => x ^ y)))) ∧
    (∃ c : ℝ, 0 < c ∧ ∀ (k k' : Int) (o o' : Runtime ℝ) (t t' : Predict.Trace ℝ),
      o.Valid → o'.Valid →
      Predict.run (Env.ofField Real.sqrt (fun x y : ℝ => x ^ y))
        (Train (Env.ofField Real.sqrt (fun x y : ℝ => x ^ y)) NewKNN "a b" "x") "a" k o
        = some t →
      Predict.run (Env.ofField Real.sqrt (fun x y : ℝ => x ^ y))
        (Train (Env.ofField Real.sqrt (fun x y : ℝ => x ^ y)) NewKNN "a b" "x") "a zz" k' o'
        = some t' →
      (∀ p, p ∈ t'.similarities.map Prod.fst ↔ p ∈ t.similarities.map Prod.fst) ∧
      (∀ p, lookupD t'.similarities p 0 = c * lookupD t.similarities p 0) ∧
      (∀ p p', lookupD t'.similarities p 0 < lookupD t'.similarities p' 0 ↔
        lookupD t.similarities p 0 < lookupD t.similarities p' 0) ∧
      (∀ p p', lookupD t'.similarities p 0 = lookupD t'.similarities p' 0 ↔
        lookupD t.similarities p 0 = lookupD t.similarities p' 0)) ∧
    (∀ (k : Int) (label : String),
      (∃ o : Runtime ℝ, o.Valid ∧
        Predict (Env.ofField Real.sqrt (fun x y : ℝ => x ^ y))
          (Train (Env.ofField Real.sqrt (fun x y : ℝ => x ^ y)) NewKNN "a b" "x") "a" k o
          = some (Train (Env.ofField Real.sqrt (fun x y : ℝ => x ^ y)) NewKNN "a b" "x",
              label)) ↔
      (∃ o' : Runtime ℝ, o'.Valid ∧
        Predict (Env.ofField Real.sqrt (fun x y : ℝ => x ^ y))
          (Train (Env.ofField Real.sqrt (fun x y : ℝ => x ^ y)) NewKNN "a b" "x") "a zz" k o'
          = some (Train (Env.ofField Real.sqrt (fun x y : ℝ => x ^ y)) NewKNN "a b" "x",
              label))) ∧
    (∀ (k : Int) (o : Runtime ℝ), o.Valid →
      (∃ label, Predict (Env.ofField Real.sqrt (fun x y : ℝ => x ^ y))
          (Train (Env.ofField Real.sqrt (fun x y : ℝ => x ^ y)) NewKNN "a b" "x") "a" k o
          = some (Train (Env.ofField Real.sqrt (fun x y : ℝ => x ^ y)) NewKNN "a b" "x",
              label)) ∧
      (∃ label, Predict (Env.ofField Real.sqrt (fun x y : ℝ => x ^ y))
          (Train (Env.ofField Real.sqrt (fun x y : ℝ => x ^ y)) NewKNN "a b" "x") "a zz" k o
          = some (Train (Env.ofField Real.sqrt (fun x y : ℝ => x ^ y)) NewKNN "a b" "x",
              label))) ∧
    ((-1 : Int) ∉
        (Train (Env.ofField Real.sqrt (fun x y : ℝ => x ^ y)) NewKNN "a b" "x").postings.map
          Prod.fst ∧
      ∀ d ∈ (Train (Env.ofField Real.sqrt (fun x y : ℝ => x ^ y)) NewKNN "a b" "x").documents,
        (-1 : Int) ∉ d.terms.map Prod.fst) := by
  have h1 : FieldsFunc "a" (isAlphaNum (Env.ofField Real.sqrt (fun x y : ℝ => x ^ y)))
      = ["a"] := by decide
  have h2 : FieldsFunc "a zz" (isAlphaNum (Env.ofField Real.sqrt (fun x y : ℝ => x ^ y)))
      = ["a", "zz"] := by decide
  have hins : Inserted (fun w => lookup
        (Train (Env.ofField Real.sqrt (fun x y : ℝ => x ^ y)) NewKNN "a b" "x").dictionary
        ((Env.ofField Real.sqrt (fun x y : ℝ => x ^ y)).StemString w) = none)
      (FieldsFunc "a" (isAlphaNum (Env.ofField Real.sqrt (fun x y : ℝ => x ^ y))))
      (FieldsFunc "a zz" (isAlphaNum (Env.ofField Real.sqrt (fun x y : ℝ => x ^ y)))) := by
    rw [h1, h2]
    exact Inserted.keep "a" (Inserted.insert "zz" (by decide) Inserted.nil)
  exact ⟨Env.ofField_real_exact, Reachable.train _ _ Reachable.new, hins,
    Predict_unknown_tokens (Env.ofField Real.sqrt (fun x y : ℝ => x ^ y))
      (Train (Env.ofField Real.sqrt (fun x y : ℝ => x ^ y)) NewKNN "a b" "x") "a" "a zz"
      Env.ofField_real_exact (Reachable.train _ _ Reachable.new) hins⟩

end Witnesses4

section Witnesses5

theorem Concurrent.sample_reachable : Concurrent.Reachable Env.rational Concurrent.sample := by
  have h0 : Concurrent.Trace Env.rational Concurrent.init
      { knn := NewKNN, dictionaryLock := none,
        calls := [Call.start "a b" "x", Call.start "b a" "y"] } :=
    Concurrent.Trace.spawn "b a" "y"
      (Concurrent.Trace.spawn "a b" "x" (Concurrent.Trace.refl Concurrent.init))
  have h1 : Concurrent.Trace Env.rational Concurrent.init
      { knn := NewKNN, dictionaryLock := some 0,
        calls := [Call.loop "x" ["a", "b"] [], Call.start "b a" "y"] } :=
    Concurrent.Trace.step 0 h0 (by decide)
  have h2 : Concurrent.Trace Env.rational Concurrent.init
      { knn := NewKNN, dictionaryLock := some 0,
        calls := [Call.missing "x" ["b"] [] "a", Call.start "b a" "y"] } :=
    Concurrent.Trace.step 0 h1 (by decide)
  have h3 : Concurrent.Trace Env.rational Concurrent.init
      { knn := NewKNN, dictionaryLock := some 0,
        calls := [Call.sized "x" ["b"] [] "a" 0, Call.start "b a" "y"] } :=
    Concurrent.Trace.step 0 h2 (by decide)
  exact Concurrent.Trace.step 0 h3 (by decide)

/-- In the state `Concurrent.sample` the second call cannot take a step: it waits for
the lock that the first call holds. -/
theorem Concurrent.sample_blocked :
    Concurrent.step Env.rational Concurrent.sample 1 = none := by
  decide

/-- Witness of C19: the state `Concurrent.sample` of two concurrent calls. -/
theorem dictionary_concurrent_witness :
    Concurrent.Reachable Env.rational Concurrent.sample ∧
    (Concurrent.sample.knn.dictionary.map Prod.snd =
      (List.range Concurrent.sample.knn.dictionary.length).map (fun (i : Nat) => (i : Int)) ∧
    (Concurrent.sample.knn.dictionary.map Prod.fst).Nodup ∧
    (Concurrent.sample.knn.dictionary.map Prod.snd).Nodup ∧
    (∀ s' : Concurrent.State ℚ, Concurrent.Trace Env.rational Concurrent.sample s' →
      ∀ (stem : String) (id : Int), lookup Concurrent.sample.knn.dictionary stem = some id →
        lookup s'.knn.dictionary stem = some id) ∧
    (∀ (i j : Nat) (c c' : Call ℚ), Concurrent.sample.calls[i]? = some c →
      Concurrent.sample.calls[j]? = some c' →
      c.locked = true → c'.locked = true → i = j)) :=
  ⟨Concurrent.sample_reachable,
    dictionary_concurrent Env.rational Concurrent.sample Concurrent.sample_reachable⟩

end Witnesses5

end Knn
